import Mathlib

/-!
# OSSA lifetime completion

A shallow embedding of `lib/SIL/Utils/OSSALifetimeCompletion.cpp`.

Blocks, instructions and values are identified by natural numbers.  The
control-flow graph, the instruction stream and the results of the external
liveness analyses are taken as data (`SILFunction`, `SSAPrunedLiveness`);
the functions of the source file are translated one by one on top of them.

Conventions of the embedding:

* a callback that the source invokes for its effect (`visit`, the builder
  lambdas) is modelled by the list of calls made, in call order;
* `BasicBlockSet` is a list used as a set, `BasicBlockSetVector` a list in
  insertion order whose `insert` refuses an element already present;
* a loop whose trip count is not the length of a list takes a fuel
  argument and returns `none` when the fuel runs out; the entry points
  supply a fuel computed from their input;
* `assert` does not alter the state it checks; the asserted conditions are
  available as separate Boolean functions.  The one exception is the
  assertion on entry to `completeLifetimes`, whose failure ends the call
  (`Outcome.assertionFailed`), as in a build with assertions enabled;
* the interior liveness of a value is data: the liveness result together
  with the inner scopes that its computation hands to `handleInnerScope`,
  each with its own interior liveness (`InteriorLiveness`);
* `SILBuilderWithScope::insertAfter` runs its callback right after an
  instruction that is not a terminator, and at the beginning of each
  successor block for a terminator (`insertAfter`).
-/

/-! ## The IR, as far as the completion code looks at it -/

abbrev SILBasicBlock := Nat
abbrev SILInstruction := Nat
abbrev SILValue := Nat

/-- Ownership kind of a value: `value->getOwnershipKind()`. -/
inductive OwnershipKind where
  | None
  | Owned
  | Guaranteed
  deriving DecidableEq, Repr

/-- One operand of an instruction: the value used, and whether the use ends
the value's lifetime (`operand.get()`, `operand.isLifetimeEnding()`). -/
structure Operand where
  get : SILValue
  isLifetimeEnding : Bool
  deriving DecidableEq, Repr

/-- The function being transformed, reduced to the queries the completion code
makes of blocks, instructions and values. -/
structure SILFunction where
  /-- All blocks of the function. -/
  blocks : List SILBasicBlock := []
  /-- Successors of a block: `block->getSuccessorBlocks()`. -/
  getSuccessorBlocks : SILBasicBlock → List SILBasicBlock := fun _ => []
  /-- Predecessors of a block: `block->getPredecessorBlocks()`. -/
  getPredecessorBlocks : SILBasicBlock → List SILBasicBlock := fun _ => []
  /-- Terminator of a block: `block->getTerminator()`. -/
  getTerminator : SILBasicBlock → SILInstruction := fun b => b
  /-- Instructions of a block in order: `for (auto &instruction : *block)`. -/
  getInstructions : SILBasicBlock → List SILInstruction := fun _ => []
  /-- Enclosing block of an instruction: `instruction->getParent()`. -/
  getParent : SILInstruction → SILBasicBlock := fun i => i
  /-- Operands of an instruction: `instruction->getAllOperands()`. -/
  getAllOperands : SILInstruction → List Operand := fun _ => []
  /-- Whether `dyn_cast<TermInst>(instruction)` succeeds. -/
  isTermInst : SILInstruction → Bool := fun _ => false
  /-- Whether `isa<UnreachableInst>(instruction)`. -/
  isUnreachableInst : SILInstruction → Bool := fun _ => false
  /-- Whether `isa<ExtendLifetimeInst>(instruction)`. -/
  isExtendLifetimeInst : SILInstruction → Bool := fun _ => false
  /-- The instruction after an instruction: `inst->getNextInstruction()`. -/
  getNextInstruction : SILInstruction → SILInstruction := fun i => i + 1
  /-- The instructions that `inst->visitSubsequentInstructions` passes to
  its callback, in order. -/
  subsequentInstructions : SILInstruction → List SILInstruction := fun _ => []
  /-- Block in which a value is defined: `value->getParentBlock()`. -/
  getParentBlock : SILValue → SILBasicBlock := fun v => v
  /-- Defining instruction of a value, if it has one:
  `value->getDefiningInstruction()`. -/
  getDefiningInstruction : SILValue → Option SILInstruction := fun _ => none
  /-- The instruction after the definition of a value that is not an
  instruction result: `cast<ValueBase>(deadDef)->getNextInstruction()`. -/
  getNextInstructionOfValue : SILValue → SILInstruction := fun v => v
  /-- Ownership kind of a value. -/
  getOwnershipKind : SILValue → OwnershipKind := fun _ => OwnershipKind.Owned
  /-- Whether `value->getType().is<SILBoxType>()`. -/
  isBoxType : SILValue → Bool := fun _ => false
  /-- Result of `lookThroughBorrowedFromUser(value)`. -/
  lookThroughBorrowedFromUser : SILValue → SILValue := fun v => v
  /-- Dead-end classification of blocks: `deb.isDeadEnd(block)`. -/
  isDeadEnd : SILBasicBlock → Bool := fun _ => false

/-- `block->succ_empty()`. -/
def SILFunction.succ_empty (f : SILFunction) (block : SILBasicBlock) : Bool :=
  (f.getSuccessorBlocks block).isEmpty

/-- `OSSALifetimeCompletion::LifetimeEnd`. -/
inductive LifetimeEnd where
  | Boundary
  | Loop
  deriving DecidableEq, Repr

/-- `OSSALifetimeCompletion::Boundary`. -/
inductive Boundary where
  | Liveness
  | Availability
  deriving DecidableEq, Repr

/-! ## Block containers -/

/-- `BasicBlockSet::insert`. -/
def BasicBlockSet.insert (s : List SILBasicBlock) (b : SILBasicBlock) : List SILBasicBlock :=
  if s.contains b then s else b :: s

/-- `BasicBlockSetVector::insert`: appends the block unless it is present. -/
def BasicBlockSetVector.insert (s : List SILBasicBlock) (b : SILBasicBlock) :
    List SILBasicBlock :=
  if s.contains b then s else s ++ [b]

/-- Modelled from the spec: `BasicBlockWorklist`, whose declaration is not
part of the analysed sources.  The spec's worklist is a stack of pending
blocks (most recently pushed first) together with the set of blocks that
count as visited. -/
structure BasicBlockWorklist where
  worklist : List SILBasicBlock := []
  visited : List SILBasicBlock := []
  deriving Repr

namespace BasicBlockWorklist

/-- `push`: the block becomes visited and pending. -/
def push (w : BasicBlockWorklist) (b : SILBasicBlock) : BasicBlockWorklist :=
  { worklist := b :: w.worklist, visited := BasicBlockSet.insert w.visited b }

/-- `pushIfNotVisited`: as `push`, but only for a block not yet visited. -/
def pushIfNotVisited (w : BasicBlockWorklist) (b : SILBasicBlock) : BasicBlockWorklist :=
  if w.visited.contains b then w else w.push b

/-- `pop`: removes the most recently pushed block; it stays visited. -/
def pop (w : BasicBlockWorklist) : Option (SILBasicBlock × BasicBlockWorklist) :=
  match w.worklist with
  | [] => none
  | b :: rest => some (b, { w with worklist := rest })

/-- `popAndForget`: as `pop`, and the block no longer counts as visited. -/
def popAndForget (w : BasicBlockWorklist) : Option (SILBasicBlock × BasicBlockWorklist) :=
  match w.worklist with
  | [] => none
  | b :: rest => some (b, { worklist := rest, visited := w.visited.filter (fun x => x != b) })

end BasicBlockWorklist

/-! ## Availability states -/

namespace AvailabilityBoundaryVisitor

/-- `AvailabilityBoundaryVisitor::State::Value`. -/
inductive State where
  | Unavailable
  | Available
  | Unknown
  deriving DecidableEq, Repr

/-- The numeric value of the enumerator (`operator Value()`). -/
def State.toNat : State → Nat
  | State.Unavailable => 0
  | State.Available => 1
  | State.Unknown => 2

/-- `State::meet`: `*this < other ? *this : other`. -/
def State.meet (self other : State) : State :=
  if self.toNat < other.toNat then self else other

/-- `AvailabilityBoundaryVisitor::Result`: the two-bit per-block field. -/
structure Result where
  states : SILBasicBlock → State

/-- `Result(function)`: every field is zero, that is `Unavailable`. -/
def Result.fresh : Result := ⟨fun _ => State.Unavailable⟩

def Result.getState (r : Result) (block : SILBasicBlock) : State := r.states block

def Result.setState (r : Result) (block : SILBasicBlock) (newState : State) : Result :=
  ⟨fun b => if b = block then newState else r.states b⟩

/-- `Result::updateState`: meets the states of the predecessors into the
state of `block`; the flag tells whether the state changed. -/
def Result.updateState (f : SILFunction) (r : Result) (block : SILBasicBlock) :
    Result × Bool :=
  let oldState := r.getState block
  let state := (f.getPredecessorBlocks block).foldl
    (fun state predecessor => state.meet (r.getState predecessor)) oldState
  (r.setState block state, state != oldState)

end AvailabilityBoundaryVisitor

open AvailabilityBoundaryVisitor in
/-- The fields of `class AvailabilityBoundaryVisitor`. -/
structure AvailabilityBoundaryVisitor where
  value : SILValue
  starts : List SILBasicBlock := []
  region : List SILBasicBlock := []

namespace AvailabilityBoundaryVisitor

/-- A call of the `visit` callback. -/
abbrev VisitCall := SILInstruction × LifetimeEnd

/-- The lambda `hasUnavailableSuccessor` of `visitAvailabilityBoundary`. -/
def hasUnavailableSuccessor (f : SILFunction) (result : Result) (block : SILBasicBlock) :
    Bool :=
  (f.getSuccessorBlocks block).any (fun s => result.getState s == State.Unavailable)

/-- The loop of `visitAvailabilityBoundary` over the blocks still to do. -/
def visitAvailabilityBoundaryLoop (f : SILFunction) (result : Result) :
    List SILBasicBlock → List VisitCall
  | [] => []
  | block :: rest =>
    let available := result.getState block == State.Available
    if !available then
      visitAvailabilityBoundaryLoop f result rest
    else if !f.succ_empty block && !hasUnavailableSuccessor f result block then
      visitAvailabilityBoundaryLoop f result rest
    else
      (f.getTerminator block, LifetimeEnd.Boundary) ::
        visitAvailabilityBoundaryLoop f result rest

/-- `AvailabilityBoundaryVisitor::visitAvailabilityBoundary`: the calls of
`visit`, in order. -/
def visitAvailabilityBoundary (self : AvailabilityBoundaryVisitor) (f : SILFunction)
    (result : Result) : List VisitCall :=
  visitAvailabilityBoundaryLoop f result self.region

/-- The condition asserted before each visit of `visitAvailabilityBoundary`. -/
def visitAssertion (f : SILFunction) (result : Result) (block : SILBasicBlock) : Bool :=
  hasUnavailableSuccessor f result block || f.isUnreachableInst (f.getTerminator block)

/-- A block is on the availability boundary: it is available and has no
successor or an unavailable one. -/
def onBoundary (f : SILFunction) (result : Result) (block : SILBasicBlock) : Prop :=
  result.getState block = State.Available ∧
    (f.getSuccessorBlocks block = [] ∨
      ∃ s ∈ f.getSuccessorBlocks block, result.getState s = State.Unavailable)

instance (f : SILFunction) (result : Result) (block : SILBasicBlock) :
    Decidable (onBoundary f result block) := by
  unfold onBoundary
  exact inferInstance

end AvailabilityBoundaryVisitor

/-! ## Liveness results consumed by the completion code -/

/-- `PrunedLiveness::IsInterestingUser`. -/
inductive IsInterestingUser where
  | NonUser
  | NonLifetimeEndingUse
  | LifetimeEndingUse
  deriving DecidableEq, Repr

/-- A dead definition of a liveness boundary (`SILNode *`): an instruction or
a value that is not an instruction result. -/
inductive SILNode where
  | instruction (i : SILInstruction)
  | value (v : SILValue)
  deriving DecidableEq, Repr

/-- `PrunedLivenessBoundary`. -/
structure PrunedLivenessBoundary where
  lastUsers : List SILInstruction := []
  boundaryEdges : List SILBasicBlock := []
  deadDefs : List SILNode := []
  deriving Repr

/-- `PrunedLivenessBlockBoundary`. -/
structure PrunedLivenessBlockBoundary where
  endBlocks : List SILBasicBlock := []
  boundaryEdges : List SILBasicBlock := []
  deriving Repr

/-- What the completion code reads from an `SSAPrunedLiveness` and from the
linear liveness of the same value. -/
structure SSAPrunedLiveness where
  /-- Result of `computeBoundary(PrunedLivenessBoundary &)`. -/
  boundary : PrunedLivenessBoundary := {}
  /-- Result of `computeBoundary(PrunedLivenessBlockBoundary &)`. -/
  blockBoundary : PrunedLivenessBlockBoundary := {}
  /-- The users with their `isEnding()` flag, in the order of `getAllUsers()`
  and `visitUsers`. -/
  users : List (SILInstruction × Bool) := []
  /-- `isInterestingUser(instruction)`. -/
  isInterestingUser : SILInstruction → IsInterestingUser :=
    fun _ => IsInterestingUser.NonUser
  /-- `LinearLiveness(value).getLiveness().isWithinBoundary(user, nullptr)`. -/
  linearIsWithinBoundary : SILInstruction → Bool := fun _ => true

/-! ## Region discovery -/

namespace AvailabilityBoundaryVisitor

/-- The set `consumingBlocks` of `computeRegion`: the parent blocks of the
lifetime-ending users. -/
def consumingBlocks (f : SILFunction) :
    List (SILInstruction × Bool) → List SILBasicBlock → List SILBasicBlock
  | [], s => s
  | (instruction, lifetimeEnding) :: rest, s =>
    consumingBlocks f rest
      (if lifetimeEnding then BasicBlockSet.insert s (f.getParent instruction) else s)

/-- The three containers that `computeRegion` fills. -/
structure RegionState where
  starts : List SILBasicBlock := []
  region : List SILBasicBlock := []
  regionWorklist : BasicBlockWorklist := {}
  deriving Repr

/-- The lambda `collect` of `computeRegion`. -/
def collect (st : RegionState) (block : SILBasicBlock) : RegionState :=
  { region := BasicBlockSetVector.insert st.region block
    starts := BasicBlockSet.insert st.starts block
    regionWorklist := st.regionWorklist.push block }

/-- The loop over `boundary.endBlocks`. -/
def collectEndBlocks (consuming : List SILBasicBlock) :
    List SILBasicBlock → RegionState → RegionState
  | [], st => st
  | endBlock :: rest, st =>
    collectEndBlocks consuming rest
      (if !consuming.contains endBlock then collect st endBlock else st)

/-- The loop over `boundary.boundaryEdges`. -/
def collectEdges : List SILBasicBlock → RegionState → RegionState
  | [], st => st
  | edge :: rest, st => collectEdges rest (collect st edge)

/-- The loop over the successors of a popped block in the forward walk. -/
def walkSuccessors :
    List SILBasicBlock → BasicBlockWorklist × List SILBasicBlock →
      BasicBlockWorklist × List SILBasicBlock
  | [], st => st
  | successor :: rest, (worklist, region) =>
    walkSuccessors rest
      (worklist.pushIfNotVisited successor, BasicBlockSetVector.insert region successor)

/-- The forward walk (3) of `computeRegion`. -/
def regionWalk (f : SILFunction) :
    Nat → BasicBlockWorklist → List SILBasicBlock → Option (List SILBasicBlock)
  | 0, _, _ => none
  | fuel + 1, worklist, region =>
    match worklist.pop with
    | none => some region
    | some (block, worklist1) =>
      let st := walkSuccessors (f.getSuccessorBlocks block) (worklist1, region)
      regionWalk f fuel st.1 st.2

/-- The condition asserted in the forward walk for a popped block. -/
def computeRegionAssertion (f : SILFunction) (block : SILBasicBlock) : Bool :=
  !f.succ_empty block || f.isUnreachableInst (f.getTerminator block)

/-- The state of `computeRegion` before the forward walk. -/
def computeRegionStarts (self : AvailabilityBoundaryVisitor) (f : SILFunction)
    (liveness : SSAPrunedLiveness) : RegionState :=
  let boundary := liveness.blockBoundary
  let consuming := consumingBlocks f liveness.users []
  let st0 : RegionState := { starts := self.starts, region := self.region }
  collectEdges boundary.boundaryEdges (collectEndBlocks consuming boundary.endBlocks st0)

/-- `AvailabilityBoundaryVisitor::computeRegion`. -/
def computeRegion (self : AvailabilityBoundaryVisitor) (f : SILFunction)
    (liveness : SSAPrunedLiveness) : Option AvailabilityBoundaryVisitor :=
  let st := computeRegionStarts self f liveness
  let fuel := st.regionWorklist.worklist.length + f.blocks.length + 1
  match regionWalk f fuel st.regionWorklist st.region with
  | none => none
  | some region => some { self with starts := st.starts, region := region }

/-! ## Availability propagation -/

/-- The first loop of `propagateAvailablity`: the initial per-block state. -/
def propagateInit (starts : List SILBasicBlock) : List SILBasicBlock → Result → Result
  | [], result => result
  | block :: rest, result =>
    propagateInit starts rest
      (if starts.contains block then result.setState block State.Available
       else result.setState block State.Unknown)

/-- The second loop of `propagateAvailablity`: the initial worklist. -/
def propagateSeed (starts : List SILBasicBlock) :
    List SILBasicBlock → BasicBlockWorklist → BasicBlockWorklist
  | [], worklist => worklist
  | block :: rest, worklist =>
    propagateSeed starts rest (if starts.contains block then worklist else worklist.push block)

/-- The loop over the successors of a block whose state changed. -/
def pushSuccessors : List SILBasicBlock → BasicBlockWorklist → BasicBlockWorklist
  | [], worklist => worklist
  | successor :: rest, worklist => pushSuccessors rest (worklist.pushIfNotVisited successor)

/-- The worklist loop of `propagateAvailablity`. -/
def propagateLoop (self : AvailabilityBoundaryVisitor) (f : SILFunction) :
    Nat → BasicBlockWorklist → Result → Option Result
  | 0, _, _ => none
  | fuel + 1, worklist, result =>
    match worklist.popAndForget with
    | none => some result
    | some (block, worklist1) =>
      if !self.region.contains block || self.starts.contains block then
        propagateLoop self f fuel worklist1 result
      else
        let upd := result.updateState f block
        if !upd.2 then
          propagateLoop self f fuel worklist1 upd.1
        else
          propagateLoop self f fuel
            (pushSuccessors (f.getSuccessorBlocks block) worklist1) upd.1

/-- Number of successor edges leaving the listed blocks. -/
def successorCount (f : SILFunction) : List SILBasicBlock → Nat
  | [] => 0
  | block :: rest => (f.getSuccessorBlocks block).length + successorCount f rest

/-- `AvailabilityBoundaryVisitor::propagateAvailablity`. -/
def propagateAvailablity (self : AvailabilityBoundaryVisitor) (f : SILFunction)
    (result : Result) : Option Result :=
  let result1 := propagateInit self.starts self.region result
  let worklist := propagateSeed self.starts self.region {}
  let fuel := worklist.worklist.length + 2 * successorCount f self.region + 1
  propagateLoop self f fuel worklist result1

/-- `AvailabilityBoundaryVisitor::visit`: the three steps at once. -/
def visit (self : AvailabilityBoundaryVisitor) (f : SILFunction)
    (liveness : SSAPrunedLiveness) (result : Result) : Option (List VisitCall) :=
  match self.computeRegion f liveness with
  | none => none
  | some self1 =>
    match self1.propagateAvailablity f result with
    | none => none
    | some result1 => some (self1.visitAvailabilityBoundary f result1)

end AvailabilityBoundaryVisitor

/-! ## Reachability in the control-flow graph -/

/-- Block `b` is reachable from block `a` by zero or more successor edges. -/
def SILFunction.Reachable (f : SILFunction) (a b : SILBasicBlock) : Prop :=
  Relation.ReflTransGen (fun x y => y ∈ f.getSuccessorBlocks x) a b

/-- The function has finitely many blocks: every successor of a block is one
of `f.blocks`. -/
def SILFunction.SuccessorsInFunction (f : SILFunction) : Prop :=
  ∀ b : SILBasicBlock, ∀ s ∈ f.getSuccessorBlocks b, s ∈ f.blocks

/-- The predecessor lists are the inverse of the successor lists. -/
def SILFunction.PredecessorsInverse (f : SILFunction) : Prop :=
  ∀ a b : SILBasicBlock, a ∈ f.getPredecessorBlocks b ↔ b ∈ f.getSuccessorBlocks a

/-- Number of blocks of the function not in the set `visited`. -/
def SILFunction.unvisited (f : SILFunction) (visited : List SILBasicBlock) : Nat :=
  (f.blocks.filter (fun b => !visited.contains b)).length

/-! ## Auxiliary notions used in the statements -/

namespace AvailabilityBoundaryVisitor

/-- The invariant of the two collecting loops of `computeRegion`: region,
visited set and worklist all hold exactly the start blocks. -/
def CollectInv (st : RegionState) : Prop :=
  (∀ b, b ∈ st.region ↔ b ∈ st.starts) ∧
  (∀ b, b ∈ st.regionWorklist.visited ↔ b ∈ st.starts) ∧
  (∀ b, b ∈ st.regionWorklist.worklist ↔ b ∈ st.starts) ∧
  st.region.Nodup

/-- The meet of the states of all predecessors of a block; `Unknown`, the
greatest state, for a block without predecessors. -/
def meetPredecessors (f : SILFunction) (result : Result) (block : SILBasicBlock) : State :=
  (f.getPredecessorBlocks block).foldl
    (fun state predecessor => state.meet (result.getState predecessor)) State.Unknown

/-- The sum over the listed blocks of the numeric state of the block times the
number of its successors: what the worklist loop of `propagateAvailablity` can
still push. -/
def potential (f : SILFunction) (result : Result) : List SILBasicBlock → Nat
  | [] => 0
  | block :: rest =>
    (result.getState block).toNat * (f.getSuccessorBlocks block).length +
      potential f result rest

end AvailabilityBoundaryVisitor

/-- The visited set of a worklist holds exactly the pending blocks, each once:
what `push`, `pushIfNotVisited` and `popAndForget` maintain. -/
def BasicBlockWorklist.Consistent (w : BasicBlockWorklist) : Prop :=
  (∀ b, b ∈ w.visited ↔ b ∈ w.worklist) ∧ w.worklist.Nodup

namespace AvailabilityBoundaryVisitor

/-- The invariant of the worklist loop of `propagateAvailablity`. -/
structure PropagateInv (visitor : AvailabilityBoundaryVisitor) (f : SILFunction)
    (worklist : BasicBlockWorklist) (result : Result) : Prop where
  consistent : worklist.Consistent
  atStarts : ∀ b ∈ visitor.starts, result.getState b = State.Available
  outside : ∀ b, b ∉ visitor.region → result.getState b = State.Unavailable
  above : ∀ b ∈ visitor.region, b ∉ visitor.starts →
    (meetPredecessors f result b).toNat ≤ (result.getState b).toNat
  pending : ∀ b ∈ visitor.region, b ∉ visitor.starts →
    b ∈ worklist.worklist ∨ (result.getState b).toNat ≤ (meetPredecessors f result b).toNat

end AvailabilityBoundaryVisitor

/-- The blocks of `region` are exactly those reachable from a block of
`starts` by zero or more successor edges. -/
def SILFunction.IsForwardClosure (f : SILFunction) (starts region : List SILBasicBlock) :
    Prop :=
  ∀ b : SILBasicBlock, b ∈ region ↔ ∃ s ∈ starts, f.Reachable s b

/-! ## Emitting lifetime ends -/

/-- Where a builder inserts: `SILBuilderWithScope builder(inst)` inserts before
`inst`, `builder(block->begin())` at the beginning of `block`, and `after inst`
is the position right after `inst`, at which `insertAfter` builds for an
instruction that is not a terminator. -/
inductive InsertionPoint where
  | before (inst : SILInstruction)
  | blockBegin (block : SILBasicBlock)
  | after (inst : SILInstruction)
  deriving DecidableEq, Repr

/-- `builder.getInsertionBB()`. -/
def InsertionPoint.getInsertionBB (f : SILFunction) : InsertionPoint → SILBasicBlock
  | InsertionPoint.before inst => f.getParent inst
  | InsertionPoint.blockBegin block => block
  | InsertionPoint.after inst => f.getParent inst

/-- The instructions that `endOSSALifetime` creates. -/
inductive CreatedInst where
  | ExtendLifetime (value : SILValue)
  | DeallocBox (value : SILValue) (isDeadEnd : Bool)
  | DestroyValue (value : SILValue) (isDeadEnd : Bool)
  | EndBorrow (value : SILValue)
  deriving DecidableEq, Repr

/-- One instruction created at one insertion point. -/
structure Insertion where
  point : InsertionPoint
  inst : CreatedInst
  deriving DecidableEq, Repr

/-- `endOSSALifetime`: the instruction created at the builder's position. -/
def endOSSALifetime (f : SILFunction) (value : SILValue) (lifetimeEnd : LifetimeEnd)
    (builder : InsertionPoint) : CreatedInst :=
  if lifetimeEnd = LifetimeEnd.Loop then
    CreatedInst.ExtendLifetime value
  else
    let isDeadEnd := f.isDeadEnd (builder.getInsertionBB f)
    if f.getOwnershipKind value = OwnershipKind.Owned then
      if f.isBoxType value then
        CreatedInst.DeallocBox value isDeadEnd
      else
        CreatedInst.DestroyValue value isDeadEnd
    else
      CreatedInst.EndBorrow (f.lookThroughBorrowedFromUser value)

/-- The flag `changed` and the instructions inserted so far. -/
structure Completion where
  changed : Bool := false
  insertions : List Insertion := []
  deriving DecidableEq, Repr

/-- Inserting the lifetime end of `value` at a builder position. -/
def Completion.insert (c : Completion) (f : SILFunction) (value : SILValue)
    (lifetimeEnd : LifetimeEnd) (builder : InsertionPoint) : Completion :=
  { c with insertions :=
      c.insertions ++ [{ point := builder, inst := endOSSALifetime f value lifetimeEnd builder }] }

/-! ## Completion at the liveness boundary -/

/-- Modelled from the spec: `SILBuilderWithScope::insertAfter`, which is
declared outside the analysed sources; the builder positions at which it runs
its callback, in order.  After an instruction that is not a terminator it runs
the callback once, at the position right after the instruction.  A terminator
is the last instruction of its block: the callback runs once for each
successor of that block, at the beginning of the successor, and not at all
when the block has no successors. -/
def insertAfter (f : SILFunction) (inst : SILInstruction) : List InsertionPoint :=
  if f.isTermInst inst then
    (f.getSuccessorBlocks (f.getParent inst)).map InsertionPoint.blockBegin
  else
    [InsertionPoint.after inst]

/-- The lambda that `endLifetimeAtLivenessBoundary` passes to `insertAfter`,
run at the listed builder positions in order. -/
def endAtBuilders (f : SILFunction) (value : SILValue) :
    List InsertionPoint → Completion → Completion
  | [], c => c
  | builder :: rest, c =>
    endAtBuilders f value rest (c.insert f value LifetimeEnd.Boundary builder)

/-- The loop of `endLifetimeAtLivenessBoundary` over `boundary.lastUsers`. -/
def endAtLastUsers (f : SILFunction) (value : SILValue) (liveness : SSAPrunedLiveness) :
    List SILInstruction → Completion → Completion
  | [], c => c
  | lastUser :: rest, c =>
    endAtLastUsers f value liveness rest
      (if liveness.isInterestingUser lastUser != IsInterestingUser.LifetimeEndingUse then
        endAtBuilders f value (insertAfter f lastUser) { c with changed := true }
       else c)

/-- The loop of `endLifetimeAtLivenessBoundary` over `boundary.boundaryEdges`. -/
def endAtBoundaryEdges (f : SILFunction) (value : SILValue) :
    List SILBasicBlock → Completion → Completion
  | [], c => c
  | edge :: rest, c =>
    endAtBoundaryEdges f value rest
      (({ c with changed := true }).insert f value LifetimeEnd.Boundary
        (InsertionPoint.blockBegin edge))

/-- The instruction `next` computed for a dead definition. -/
def nextOfDeadDef (f : SILFunction) : SILNode → SILInstruction
  | SILNode.instruction deadInst => f.getNextInstruction deadInst
  | SILNode.value deadValue => f.getNextInstructionOfValue deadValue

/-- The loop of `endLifetimeAtLivenessBoundary` over `boundary.deadDefs`. -/
def endAtDeadDefs (f : SILFunction) (value : SILValue) :
    List SILNode → Completion → Completion
  | [], c => c
  | deadDef :: rest, c =>
    endAtDeadDefs f value rest
      (({ c with changed := true }).insert f value LifetimeEnd.Boundary
        (InsertionPoint.before (nextOfDeadDef f deadDef)))

/-- `endLifetimeAtLivenessBoundary`: the returned flag and the insertions. -/
def endLifetimeAtLivenessBoundary (f : SILFunction) (value : SILValue)
    (liveness : SSAPrunedLiveness) : Completion :=
  let boundary := liveness.boundary
  endAtDeadDefs f value boundary.deadDefs
    (endAtBoundaryEdges f value boundary.boundaryEdges
      (endAtLastUsers f value liveness boundary.lastUsers {}))

/-! ## Completion at the availability boundary -/

/-- The loop of `visitUsersOutsideLinearLivenessBoundary` over the users. -/
def visitUsersOutsideLoop (f : SILFunction) (liveness : SSAPrunedLiveness) :
    List (SILInstruction × Bool) → List SILInstruction
  | [] => []
  | (user, isEnding) :: rest =>
    if isEnding || f.isExtendLifetimeInst user then
      visitUsersOutsideLoop f liveness rest
    else if liveness.linearIsWithinBoundary user then
      visitUsersOutsideLoop f liveness rest
    else
      user :: visitUsersOutsideLoop f liveness rest

/-- `visitUsersOutsideLinearLivenessBoundary`: the calls of `visitor`. -/
def visitUsersOutsideLinearLivenessBoundary (f : SILFunction) (value : SILValue)
    (liveness : SSAPrunedLiveness) : List SILInstruction :=
  if f.getOwnershipKind value = OwnershipKind.None then []
  else visitUsersOutsideLoop f liveness liveness.users

namespace OSSALifetimeCompletion

open AvailabilityBoundaryVisitor in
/-- The calls that the second part of `visitAvailabilityBoundary` makes: every
instruction subsequent to a user outside the linear liveness boundary, with
end-kind Loop. -/
def loopVisits (f : SILFunction) : List SILInstruction → List VisitCall
  | [] => []
  | instruction :: rest =>
    (f.subsequentInstructions instruction).map (fun next => (next, LifetimeEnd.Loop)) ++
      loopVisits f rest

open AvailabilityBoundaryVisitor in
/-- `OSSALifetimeCompletion::visitAvailabilityBoundary`: the calls of `visit`. -/
def visitAvailabilityBoundary (f : SILFunction) (value : SILValue)
    (liveness : SSAPrunedLiveness) : Option (List VisitCall) :=
  let visitor : AvailabilityBoundaryVisitor := { value := value }
  match visitor.visit f liveness Result.fresh with
  | none => none
  | some visits =>
    some (visits ++ loopVisits f (visitUsersOutsideLinearLivenessBoundary f value liveness))

end OSSALifetimeCompletion

open AvailabilityBoundaryVisitor in
/-- The lambda that `endLifetimeAtAvailabilityBoundary` passes as `visit`,
applied to the calls in order. -/
def endAtVisits (f : SILFunction) (value : SILValue) :
    List VisitCall → Completion → Completion
  | [], c => c
  | (unreachable, lifetimeEnd) :: rest, c =>
    endAtVisits f value rest
      { (c.insert f value lifetimeEnd (InsertionPoint.before unreachable)) with
        changed := true }

/-- `endLifetimeAtAvailabilityBoundary`. -/
def endLifetimeAtAvailabilityBoundary (f : SILFunction) (value : SILValue)
    (liveness : SSAPrunedLiveness) : Option Completion :=
  match OSSALifetimeCompletion.visitAvailabilityBoundary f value liveness with
  | none => none
  | some visits => some (endAtVisits f value visits {})

/-- Modelled from the spec: the interior liveness of a value
(`InteriorLiveness`, declared outside the analysed sources), as far as
`analyzeAndUpdateLifetime` reads it: the liveness that `getLiveness` returns,
the phis that `getUnenclosedPhis` returns, and the inner scopes that `compute`
discovers, in the order in which it calls its callback for them, each with the
interior liveness that is computed for it in turn. -/
structure InteriorLiveness where
  liveness : SSAPrunedLiveness := {}
  unenclosedPhis : List SILValue := []
  innerScopes : List (SILValue × InteriorLiveness)

namespace OSSALifetimeCompletion

/-- The `switch` of `analyzeAndUpdateLifetime` on the boundary kind. -/
def endLifetimeAtBoundary (f : SILFunction) (value : SILValue)
    (liveness : SSAPrunedLiveness) (boundary : Boundary) : Option Completion :=
  match boundary with
  | Boundary.Liveness => some (endLifetimeAtLivenessBoundary f value liveness)
  | Boundary.Availability => endLifetimeAtAvailabilityBoundary f value liveness

mutual

/-- `OSSALifetimeCompletion::analyzeAndUpdateLifetime`.  The interior liveness
computation completes the inner scopes through `handleInnerScope`; then the
lifetime of the value is ended at the boundary of the given kind.  The flag
returned is that of the value itself; the insertions are those made for the
inner scopes followed by those made for the value. -/
def analyzeAndUpdateLifetime (f : SILFunction) (value : SILValue)
    (interior : InteriorLiveness) (boundary : Boundary) : Option Completion :=
  match interior with
  | InteriorLiveness.mk liveness _ innerScopes =>
    match handleInnerScopes f innerScopes boundary with
    | none => none
    | some inserted =>
      match endLifetimeAtBoundary f value liveness boundary with
      | none => none
      | some c => some { changed := c.changed, insertions := inserted ++ c.insertions }
termination_by structural interior

/-- The calls of `handleInnerScope` that `liveness.compute` makes, one for each
inner scope in order: the instructions they insert. -/
def handleInnerScopes (f : SILFunction) (innerScopes : List (SILValue × InteriorLiveness))
    (boundary : Boundary) : Option (List Insertion) :=
  match innerScopes with
  | [] => some []
  | scope :: rest =>
    match handleInnerScope f scope boundary with
    | none => none
    | some inserted =>
      match handleInnerScopes f rest boundary with
      | none => none
      | some more => some (inserted ++ more)
termination_by structural innerScopes

/-- Modelled from the spec: the call `completeOSSALifetime(innerBorrowedValue,
boundary)` that the lambda `handleInnerScope` of `analyzeAndUpdateLifetime`
makes, dropping what it returns.  `completeOSSALifetime` is declared outside
the analysed sources; by the spec it computes the interior liveness of the
value, completes the inner scopes and dispatches on the boundary kind, which
is what `analyzeAndUpdateLifetime` does. -/
def handleInnerScope (f : SILFunction) (scope : SILValue × InteriorLiveness)
    (boundary : Boundary) : Option (List Insertion) :=
  match scope with
  | (innerBorrowedValue, interior) =>
    match analyzeAndUpdateLifetime f innerBorrowedValue interior boundary with
    | none => none
    | some c => some c.insertions
termination_by structural scope

end

/-- The condition asserted at the end of `analyzeAndUpdateLifetime`. -/
def analyzeAssertion (interior : InteriorLiveness) : Bool :=
  interior.unenclosedPhis.isEmpty

end OSSALifetimeCompletion

/-! ## Completion after unreachable code is found -/

/-- The state of `UnreachableLifetimeCompletion`. -/
structure UnreachableLifetimeCompletion where
  unreachableBlocks : List SILBasicBlock := []
  unreachableInsts : List SILInstruction := []
  incompleteValues : List SILValue := []
  updatingLifetimes : Bool := false
  deriving DecidableEq, Repr

namespace UnreachableLifetimeCompletion

/-- The loop over the successors of an unreachable terminator: a successor all
of whose predecessors are the current block or unreachable becomes
unreachable. -/
def markSuccessors (f : SILFunction) (block : SILBasicBlock) :
    List SILBasicBlock → UnreachableLifetimeCompletion → UnreachableLifetimeCompletion
  | [], self => self
  | succBlock :: rest, self =>
    markSuccessors f block rest
      (if (f.getPredecessorBlocks succBlock).all
            (fun predBlock => predBlock == block || self.unreachableBlocks.contains predBlock)
       then { self with
              unreachableBlocks := BasicBlockSetVector.insert self.unreachableBlocks succBlock }
       else self)

/-- The body of the operand loop of `visitUnreachableInst`. -/
def visitOperand (f : SILFunction) (instruction : SILInstruction) (block : SILBasicBlock)
    (inReachableBlock : Bool) (self : UnreachableLifetimeCompletion) (operand : Operand) :
    UnreachableLifetimeCompletion :=
  if !operand.isLifetimeEnding then self
  else
    let value := operand.get
    let defBlock := f.getParentBlock value
    if self.unreachableBlocks.contains defBlock then self
    else if (match f.getDefiningInstruction value with
             | some d => self.unreachableInsts.contains d
             | none => false) then self
    else
      let self1 :=
        if inReachableBlock then
          { self with unreachableInsts := BasicBlockSet.insert self.unreachableInsts instruction }
        else self
      let self2 :=
        { self1 with
          incompleteValues := BasicBlockSetVector.insert self1.incompleteValues value }
      if f.isTermInst instruction then
        markSuccessors f block (f.getSuccessorBlocks block) self2
      else self2

/-- The operand loop of `visitUnreachableInst`. -/
def visitOperands (f : SILFunction) (instruction : SILInstruction) (block : SILBasicBlock)
    (inReachableBlock : Bool) :
    List Operand → UnreachableLifetimeCompletion → UnreachableLifetimeCompletion
  | [], self => self
  | operand :: rest, self =>
    visitOperands f instruction block inReachableBlock rest
      (visitOperand f instruction block inReachableBlock self operand)

/-- `UnreachableLifetimeCompletion::visitUnreachableInst`. -/
def visitUnreachableInst (f : SILFunction) (self : UnreachableLifetimeCompletion)
    (instruction : SILInstruction) : UnreachableLifetimeCompletion :=
  let block := f.getParent instruction
  let inReachableBlock := !self.unreachableBlocks.contains block
  if !inReachableBlock && !self.updatingLifetimes then self
  else visitOperands f instruction block inReachableBlock (f.getAllOperands instruction) self

/-- The loop of `completeLifetimes` over the instructions of one block. -/
def visitInstructions (f : SILFunction) :
    List SILInstruction → UnreachableLifetimeCompletion → UnreachableLifetimeCompletion
  | [], self => self
  | instruction :: rest, self =>
    visitInstructions f rest (visitUnreachableInst f self instruction)

/-- The loop of `completeLifetimes` over the growing set `unreachableBlocks`;
`index` is the position of the iterator `blockIt`. -/
def completeLifetimesLoop (f : SILFunction) :
    Nat → Nat → UnreachableLifetimeCompletion → Option UnreachableLifetimeCompletion
  | 0, _, _ => none
  | fuel + 1, index, self =>
    match self.unreachableBlocks[index]? with
    | none => some self
    | some block =>
      completeLifetimesLoop f fuel (index + 1)
        (visitInstructions f (f.getInstructions block) self)

/-- The first part of `completeLifetimes`: `updatingLifetimes` is set and the
unreachable blocks are propagated. -/
def propagateUnreachableBlocks (f : SILFunction) (self : UnreachableLifetimeCompletion) :
    Option UnreachableLifetimeCompletion :=
  let self1 := { self with updatingLifetimes := true }
  completeLifetimesLoop f (f.blocks.length + self1.unreachableBlocks.length + 1) 0 self1

end UnreachableLifetimeCompletion

/-! ## Auxiliary notions for the insertions and the driver -/

/-- The insertion of a Boundary lifetime end of `value` at `point`. -/
def boundaryInsertion (f : SILFunction) (value : SILValue) (point : InsertionPoint) :
    Insertion :=
  { point := point, inst := endOSSALifetime f value LifetimeEnd.Boundary point }

/-- The insertions made for a `lastUser` that is not a lifetime-ending use: one
right after it when it is not a terminator, and one at the beginning of each
successor of its block when it is a terminator. -/
def lastUserInsertions (f : SILFunction) (value : SILValue) (lastUser : SILInstruction) :
    List Insertion :=
  if f.isTermInst lastUser then
    (f.getSuccessorBlocks (f.getParent lastUser)).map
      (fun succBlock => boundaryInsertion f value (InsertionPoint.blockBegin succBlock))
  else
    [boundaryInsertion f value (InsertionPoint.after lastUser)]

open AvailabilityBoundaryVisitor in
/-- The insertion that `endLifetimeAtAvailabilityBoundary` makes for one call
of its `visit` lambda. -/
def visitInsertion (f : SILFunction) (value : SILValue) (call : VisitCall) : Insertion :=
  { point := InsertionPoint.before call.1
    inst := endOSSALifetime f value call.2 (InsertionPoint.before call.1) }

namespace UnreachableLifetimeCompletion

/-- The definition of `value` is already unreachable in the state `self`: its
defining block is in `unreachableBlocks`, or it has a defining instruction and
that is in `unreachableInsts`. -/
def DefUnreachable (f : SILFunction) (self : UnreachableLifetimeCompletion)
    (value : SILValue) : Prop :=
  f.getParentBlock value ∈ self.unreachableBlocks ∨
    ∃ d, f.getDefiningInstruction value = some d ∧ d ∈ self.unreachableInsts

/-- The state `b` extends the state `a`: the set vector of unreachable blocks
is extended at its end, the two other sets only gain elements, and the flag is
the same. -/
structure Grows (a b : UnreachableLifetimeCompletion) : Prop where
  blocks : ∃ extra, b.unreachableBlocks = a.unreachableBlocks ++ extra
  insts : ∀ x ∈ a.unreachableInsts, x ∈ b.unreachableInsts
  values : ∀ x ∈ a.incompleteValues, x ∈ b.incompleteValues
  flag : b.updatingLifetimes = a.updatingLifetimes

/-- The operand needs nothing more from the driver: if it is lifetime-ending,
the definition of its value is unreachable or the value is recorded as
incomplete. -/
def Settled (f : SILFunction) (self : UnreachableLifetimeCompletion) (operand : Operand) :
    Prop :=
  operand.isLifetimeEnding = true →
    DefUnreachable f self operand.get ∨ operand.get ∈ self.incompleteValues

/-- What bounds the remaining iterations of the loop of `completeLifetimes`:
the blocks of the function not yet unreachable plus the length of the set
vector. -/
def weight (f : SILFunction) (self : UnreachableLifetimeCompletion) : Nat :=
  f.unvisited self.unreachableBlocks + self.unreachableBlocks.length

end UnreachableLifetimeCompletion

/-- Every operand of every instruction of `block` is settled in `self`. -/
def UnreachableLifetimeCompletion.BlockSettled (f : SILFunction)
    (self : UnreachableLifetimeCompletion) (block : SILBasicBlock) : Prop :=
  ∀ instruction ∈ f.getInstructions block, ∀ operand ∈ f.getAllOperands instruction,
    UnreachableLifetimeCompletion.Settled f self operand

/-! ## Example functions -/

namespace Examples

/-- Successor lists of a graph given by its edges. -/
def successorsOf (edges : List (SILBasicBlock × SILBasicBlock)) (b : SILBasicBlock) :
    List SILBasicBlock :=
  (edges.filter (fun e => e.1 == b)).map (fun e => e.2)

/-- Predecessor lists of a graph given by its edges. -/
def predecessorsOf (edges : List (SILBasicBlock × SILBasicBlock)) (b : SILBasicBlock) :
    List SILBasicBlock :=
  (edges.filter (fun e => e.2 == b)).map (fun e => e.1)

/-- The edges of the diamond of the spec's scenarios: `entry` (0) branches to
`left` (1) and `right` (2), and `right` continues to `merge` (3). -/
def diamondEdges : List (SILBasicBlock × SILBasicBlock) := [(0, 1), (0, 2), (2, 3)]

/-- The diamond.  The instructions are numbered by block: block `b` holds
`10 b`, `10 b + 1` and its terminator `10 b + 2`; `left` and `merge` end in
`unreachable`.  Value 0 is the result of instruction 0 and is owned. -/
def diamond : SILFunction where
  blocks := [0, 1, 2, 3]
  getSuccessorBlocks := successorsOf diamondEdges
  getPredecessorBlocks := predecessorsOf diamondEdges
  getTerminator := fun b => 10 * b + 2
  getInstructions := fun b => [10 * b, 10 * b + 1, 10 * b + 2]
  getParent := fun i => i / 10
  isTermInst := fun i => i % 10 == 2
  isUnreachableInst := fun i => i == 12 || i == 32
  subsequentInstructions := fun i => if i % 10 == 2 then [] else [i + 1]
  getParentBlock := fun _ => 0
  getDefiningInstruction := fun v => if v == 0 then some 0 else none

/-- Liveness of value 0 in the diamond when it is never used: the definition
is a dead definition. -/
def diamondUnused : SSAPrunedLiveness where
  boundary := { deadDefs := [SILNode.instruction 0] }
  blockBoundary := { endBlocks := [0] }

/-- Liveness of value 0 in the diamond when the instruction `user` is its last
user and the use is not lifetime-ending. -/
def diamondLastUser (user : SILInstruction) : SSAPrunedLiveness where
  boundary := { lastUsers := [user] }
  blockBoundary := { endBlocks := [user / 10] }
  users := [(user, false)]
  isInterestingUser := fun i =>
    if i == user then IsInterestingUser.NonLifetimeEndingUse else IsInterestingUser.NonUser

/-- Liveness of value 0 in the diamond when instruction 21 in `right` is its
only use: `right` is the end block and `left` a boundary edge. -/
def diamondUsedRight : SSAPrunedLiveness where
  boundary := { lastUsers := [21], boundaryEdges := [1] }
  blockBoundary := { endBlocks := [2], boundaryEdges := [1] }
  users := [(21, false)]
  isInterestingUser := fun i =>
    if i == 21 then IsInterestingUser.NonLifetimeEndingUse else IsInterestingUser.NonUser

open AvailabilityBoundaryVisitor in
/-- The visitor after `computeRegion` on `diamondUsedRight`. -/
def diamondVisitor : AvailabilityBoundaryVisitor where
  value := 0
  starts := [1, 2]
  region := [2, 1, 3]

open AvailabilityBoundaryVisitor in
/-- A state map on the diamond: `entry` is unavailable, the rest available. -/
def diamondResult : Result :=
  ⟨fun b => if b = 0 then State.Unavailable else State.Available⟩

/-- The diamond in which value 0 has ownership kind None. -/
def diamondNone : SILFunction :=
  { diamond with getOwnershipKind := fun _ => OwnershipKind.None }

/-- The diamond in which instruction 21, the use in `right`, is an
extend-lifetime instruction. -/
def diamondExtend : SILFunction :=
  { diamond with isExtendLifetimeInst := fun i => i == 21 }

/-- Liveness of value 0 in the diamond, used only by instruction 21, when no
user lies within the linear liveness boundary. -/
def diamondOutside : SSAPrunedLiveness :=
  { diamondUsedRight with linearIsWithinBoundary := fun _ => false }

/-- The diamond with operands: the terminator 2 of `entry` consumes value 5,
which is the result of instruction 0 in `entry`; instruction 11 in `left`
consumes value 8, which is the result of instruction 10 in `left`.  No other
instruction has an operand; in particular the terminator 22 of `right`, a
branch to `merge`, has none. -/
def driverDiamond : SILFunction :=
  { diamond with
    getAllOperands := fun i =>
      if i == 2 then [{ get := 5, isLifetimeEnding := true }]
      else if i == 11 then [{ get := 8, isLifetimeEnding := true }]
      else []
    getParentBlock := fun v => if v == 8 then 1 else 0
    getDefiningInstruction := fun v =>
      if v == 5 then some 0 else if v == 8 then some 10 else none }

/-- The edges of a loop: the preheader 9 enters the header 1, the header
continues to the latch 0, and the latch branches back to the header; block 5
precedes the preheader. -/
def loopEdges : List (SILBasicBlock × SILBasicBlock) := [(5, 9), (9, 1), (1, 0), (0, 1)]

/-- The loop.  The terminator 2 of the latch consumes value 7, an argument of
block 5, and value 8, an argument of the header. -/
def loopFunction : SILFunction where
  blocks := [5, 9, 1, 0]
  getSuccessorBlocks := successorsOf loopEdges
  getPredecessorBlocks := predecessorsOf loopEdges
  getTerminator := fun b => 10 * b + 2
  getInstructions := fun b => [10 * b, 10 * b + 1, 10 * b + 2]
  getParent := fun i => i / 10
  isTermInst := fun i => i % 10 == 2
  getAllOperands := fun i =>
    if i == 2 then
      [{ get := 7, isLifetimeEnding := true }, { get := 8, isLifetimeEnding := true }]
    else []
  getParentBlock := fun v => if v == 8 then 1 else 5
  getDefiningInstruction := fun _ => none

/-- The driver after the preheader of the loop was found unreachable. -/
def loopDriver : UnreachableLifetimeCompletion :=
  { unreachableBlocks := [9] }

/-- The edges of a fork: block 0 branches to blocks 1 and 2, and block 1 is
also entered from block 3. -/
def forkEdges : List (SILBasicBlock × SILBasicBlock) := [(0, 1), (0, 2), (3, 1)]

/-- The fork.  Blocks 1 and 2 end in `unreachable`; the terminator of block `b`
is instruction `10 b + 2`. -/
def forkFunction : SILFunction where
  blocks := [0, 1, 2, 3]
  getSuccessorBlocks := successorsOf forkEdges
  getPredecessorBlocks := predecessorsOf forkEdges
  getTerminator := fun b => 10 * b + 2
  getInstructions := fun b => [10 * b, 10 * b + 1, 10 * b + 2]
  getParent := fun i => i / 10
  isTermInst := fun i => i % 10 == 2
  isUnreachableInst := fun i => i == 12 || i == 22
  getParentBlock := fun _ => 0
  getDefiningInstruction := fun v => if v == 0 then some 0 else none

/-- Liveness of a value whose last use, not lifetime-ending, is instruction 1
in block 0 of the fork. -/
def forkLiveness : SSAPrunedLiveness where
  boundary := { lastUsers := [1] }
  blockBoundary := { endBlocks := [0] }
  users := [(1, false)]
  isInterestingUser := fun i =>
    if i == 1 then IsInterestingUser.NonLifetimeEndingUse else IsInterestingUser.NonUser

end Examples

/-! ## Auxiliary notions for the later statements -/

/-- The block in which a dead definition stands. -/
def SILNode.getParentBlock (f : SILFunction) : SILNode → SILBasicBlock
  | SILNode.instruction deadInst => f.getParent deadInst
  | SILNode.value deadValue => f.getParentBlock deadValue

/-- The two boundaries and the users of one liveness result describe the same
liveness, as the liveness analysis computes them: an end block is the block of
a last user or of a dead definition, both boundaries have the same boundary
edges, and `isInterestingUser` answers LifetimeEndingUse exactly for the users
recorded as ending. -/
structure SSAPrunedLiveness.Coherent (f : SILFunction) (liveness : SSAPrunedLiveness) :
    Prop where
  endBlocks : ∀ b ∈ liveness.blockBoundary.endBlocks,
    (∃ u ∈ liveness.boundary.lastUsers, f.getParent u = b) ∨
      ∃ d ∈ liveness.boundary.deadDefs, d.getParentBlock f = b
  boundaryEdges : liveness.blockBoundary.boundaryEdges = liveness.boundary.boundaryEdges
  ending : ∀ u, liveness.isInterestingUser u = IsInterestingUser.LifetimeEndingUse ↔
    (u, true) ∈ liveness.users

namespace AvailabilityBoundaryVisitor

/-- The loop of `visitAvailabilityBoundary`, reduced to its assertion: whether
the asserted condition holds at every visit the loop makes. -/
def visitAvailabilityBoundaryAsserts (f : SILFunction) (result : Result) :
    List SILBasicBlock → Bool
  | [] => true
  | block :: rest =>
    let available := result.getState block == State.Available
    if !available then
      visitAvailabilityBoundaryAsserts f result rest
    else if !f.succ_empty block && !hasUnavailableSuccessor f result block then
      visitAvailabilityBoundaryAsserts f result rest
    else
      visitAssertion f result block && visitAvailabilityBoundaryAsserts f result rest

end AvailabilityBoundaryVisitor

namespace AvailabilityBoundaryVisitor

/-- The forward walk (3) of `computeRegion` together with its assertion: the
region, and whether the asserted condition held for every popped block. -/
def regionWalkChecked (f : SILFunction) :
    Nat → BasicBlockWorklist → List SILBasicBlock → Option (List SILBasicBlock × Bool)
  | 0, _, _ => none
  | fuel + 1, worklist, region =>
    match worklist.pop with
    | none => some (region, true)
    | some (block, worklist1) =>
      let st := walkSuccessors (f.getSuccessorBlocks block) (worklist1, region)
      match regionWalkChecked f fuel st.1 st.2 with
      | none => none
      | some (region1, ok) => some (region1, computeRegionAssertion f block && ok)

/-- `computeRegion` together with its assertion. -/
def computeRegionChecked (self : AvailabilityBoundaryVisitor) (f : SILFunction)
    (liveness : SSAPrunedLiveness) : Option (AvailabilityBoundaryVisitor × Bool) :=
  let st := computeRegionStarts self f liveness
  let fuel := st.regionWorklist.worklist.length + f.blocks.length + 1
  match regionWalkChecked f fuel st.regionWorklist st.region with
  | none => none
  | some (region, ok) => some ({ self with starts := st.starts, region := region }, ok)

end AvailabilityBoundaryVisitor

namespace Examples

/-- The diamond control-flow graph with the instructions and values of `g`. -/
def diamondOf (g : SILFunction) : SILFunction :=
  { g with
    blocks := [0, 1, 2, 3]
    getSuccessorBlocks := successorsOf diamondEdges
    getPredecessorBlocks := predecessorsOf diamondEdges }

end Examples

namespace AvailabilityBoundaryVisitor

/-- The worklist loop of `propagateAvailablity`, returning besides the result
the blocks for which `updateState` reported a change, in the order of the
changes. -/
def propagateLoopChanges (self : AvailabilityBoundaryVisitor) (f : SILFunction) :
    Nat → BasicBlockWorklist → Result → Option (Result × List SILBasicBlock)
  | 0, _, _ => none
  | fuel + 1, worklist, result =>
    match worklist.popAndForget with
    | none => some (result, [])
    | some (block, worklist1) =>
      if !self.region.contains block || self.starts.contains block then
        propagateLoopChanges self f fuel worklist1 result
      else
        let upd := result.updateState f block
        if !upd.2 then
          propagateLoopChanges self f fuel worklist1 upd.1
        else
          match propagateLoopChanges self f fuel
              (pushSuccessors (f.getSuccessorBlocks block) worklist1) upd.1 with
          | none => none
          | some (result1, changes) => some (result1, block :: changes)

/-- `propagateAvailablity`, returning besides the result the blocks whose
state changed in the worklist loop, in the order of the changes. -/
def propagateAvailablityChanges (self : AvailabilityBoundaryVisitor) (f : SILFunction)
    (result : Result) : Option (Result × List SILBasicBlock) :=
  let result1 := propagateInit self.starts self.region result
  let worklist := propagateSeed self.starts self.region {}
  let fuel := worklist.worklist.length + 2 * successorCount f self.region + 1
  propagateLoopChanges self f fuel worklist result1

end AvailabilityBoundaryVisitor

/-- Every block lists its instructions once, and an instruction listed by a
block has that block as its parent. -/
def SILFunction.InstructionsWellFormed (f : SILFunction) : Prop :=
  ∀ b : SILBasicBlock, (f.getInstructions b).Nodup ∧
    ∀ i ∈ f.getInstructions b, f.getParent i = b

/-- The instructions of the listed blocks, block after block. -/
def SILFunction.instructionsOfBlocks (f : SILFunction) :
    List SILBasicBlock → List SILInstruction
  | [] => []
  | block :: rest => f.getInstructions block ++ f.instructionsOfBlocks rest

namespace UnreachableLifetimeCompletion

/-- A call of `visitUnreachableInst` made by `completeLifetimes`: the
instruction passed, and the value of `updatingLifetimes` at the call. -/
abbrev LoopCall := SILInstruction × Bool

/-- The loop of `completeLifetimes` over the instructions of one block,
returning besides the state the calls of `visitUnreachableInst` it makes. -/
def visitInstructionsCalls (f : SILFunction) :
    List SILInstruction → UnreachableLifetimeCompletion →
      UnreachableLifetimeCompletion × List LoopCall
  | [], self => (self, [])
  | instruction :: rest, self =>
    let r := visitInstructionsCalls f rest (visitUnreachableInst f self instruction)
    (r.1, (instruction, self.updatingLifetimes) :: r.2)

/-- The loop of `completeLifetimes` over the growing set `unreachableBlocks`,
returning besides the state the calls of `visitUnreachableInst` it makes, in
order. -/
def completeLifetimesLoopCalls (f : SILFunction) :
    Nat → Nat → UnreachableLifetimeCompletion →
      Option (UnreachableLifetimeCompletion × List LoopCall)
  | 0, _, _ => none
  | fuel + 1, index, self =>
    match self.unreachableBlocks[index]? with
    | none => some (self, [])
    | some block =>
      let r := visitInstructionsCalls f (f.getInstructions block) self
      match completeLifetimesLoopCalls f fuel (index + 1) r.1 with
      | none => none
      | some (self1, calls) => some (self1, r.2 ++ calls)

/-- The first part of `completeLifetimes`, returning besides the state the
calls of `visitUnreachableInst` that its loop makes. -/
def propagateUnreachableBlocksCalls (f : SILFunction) (self : UnreachableLifetimeCompletion) :
    Option (UnreachableLifetimeCompletion × List LoopCall) :=
  let self1 := { self with updatingLifetimes := true }
  completeLifetimesLoopCalls f (f.blocks.length + self1.unreachableBlocks.length + 1) 0 self1

end UnreachableLifetimeCompletion

/-- Modelled from the spec: `OSSALifetimeCompletion::completeOSSALifetime`,
which is declared outside the analysed sources.  By the spec it computes the
interior liveness of the value, here `interiorOf value`, completes the inner
scopes and dispatches on the boundary kind, which is what
`analyzeAndUpdateLifetime` does; the value was completed when
`analyzeAndUpdateLifetime` returns true. -/
def OSSALifetimeCompletion.completeOSSALifetime (f : SILFunction)
    (interiorOf : SILValue → InteriorLiveness) (value : SILValue) (boundary : Boundary) :
    Option Completion :=
  OSSALifetimeCompletion.analyzeAndUpdateLifetime f value (interiorOf value) boundary

namespace UnreachableLifetimeCompletion

/-- How a call of `completeLifetimes` ends: its assertion fails and nothing
else is done; or a loop of the embedding runs out of fuel; or the call returns
`changed`, leaving the driver in the state `driver` and having made the
insertions. -/
inductive Outcome where
  | assertionFailed
  | outOfFuel
  | completed (driver : UnreachableLifetimeCompletion) (changed : Bool)
      (insertions : List Insertion)
  deriving DecidableEq, Repr

/-- The loop of `completeLifetimes` over `incompleteValues`. -/
def completeValues (f : SILFunction) (interiorOf : SILValue → InteriorLiveness) :
    List SILValue → Bool × List Insertion → Option (Bool × List Insertion)
  | [], acc => some acc
  | value :: rest, (changed, insertions) =>
    match OSSALifetimeCompletion.completeOSSALifetime f interiorOf value
        Boundary.Availability with
    | none => none
    | some c =>
      completeValues f interiorOf rest
        (if c.changed then true else changed, insertions ++ c.insertions)

/-- `UnreachableLifetimeCompletion::completeLifetimes`.  The assertion at its
entry ends the call. -/
def completeLifetimes (f : SILFunction) (interiorOf : SILValue → InteriorLiveness)
    (self : UnreachableLifetimeCompletion) : Outcome :=
  if self.updatingLifetimes then Outcome.assertionFailed
  else
    match propagateUnreachableBlocks f self with
    | none => Outcome.outOfFuel
    | some self1 =>
      match completeValues f interiorOf self1.incompleteValues (false, []) with
      | none => Outcome.outOfFuel
      | some (changed, insertions) => Outcome.completed self1 changed insertions

end UnreachableLifetimeCompletion

/-! ## Availability in terms of paths -/

/-- A block is entered from outside the region: there is a path of successor
edges to it that begins at a block outside `region` and whose every later
block is a block of `region` that is not in `starts`. -/
def SILFunction.EnteredFromOutside (f : SILFunction) (starts region : List SILBasicBlock)
    (b : SILBasicBlock) : Prop :=
  ∃ x, x ∉ region ∧
    Relation.ReflTransGen
      (fun a c => c ∈ f.getSuccessorBlocks a ∧ c ∈ region ∧ c ∉ starts) x b

namespace AvailabilityBoundaryVisitor

/-- What the worklist loop keeps true of the states: start blocks are
Available, blocks outside the region are Unavailable, and a region block that
is not a start block is Unavailable only if it is entered from outside. -/
structure EnteredInv (visitor : AvailabilityBoundaryVisitor) (f : SILFunction)
    (result : Result) : Prop where
  atStarts : ∀ b ∈ visitor.starts, result.getState b = State.Available
  outside : ∀ b, b ∉ visitor.region → result.getState b = State.Unavailable
  entered : ∀ b ∈ visitor.region, b ∉ visitor.starts →
    result.getState b = State.Unavailable →
    f.EnteredFromOutside visitor.starts visitor.region b

end AvailabilityBoundaryVisitor

namespace Examples

open AvailabilityBoundaryVisitor in
/-- The visitor after `computeRegion` on `forkLiveness`. -/
def forkVisitor : AvailabilityBoundaryVisitor where
  value := 0
  starts := [0]
  region := [0, 1, 2]

end Examples

/-! ## Inner scopes -/

/-- The lifetime that a liveness result describes is complete: the result is
coherent, every last user of its boundary is a lifetime-ending use, the
boundary has no boundary edges and no dead definitions, and every user that is
not lifetime-ending lies within the linear liveness boundary. -/
structure SSAPrunedLiveness.Complete (f : SILFunction) (liveness : SSAPrunedLiveness) :
    Prop where
  coherent : liveness.Coherent f
  lastUsers : ∀ u ∈ liveness.boundary.lastUsers,
    liveness.isInterestingUser u = IsInterestingUser.LifetimeEndingUse
  boundaryEdges : liveness.boundary.boundaryEdges = []
  deadDefs : liveness.boundary.deadDefs = []
  outside : ∀ u, (u, false) ∈ liveness.users → liveness.linearIsWithinBoundary u = true

/-- The property `P` holds of the liveness of the value, of the liveness of
each of its inner scopes, of each of their inner scopes, and so on. -/
inductive InteriorLiveness.All (P : SSAPrunedLiveness → Prop) : InteriorLiveness → Prop
  | intro (interior : InteriorLiveness) (own : P interior.liveness)
      (inner : ∀ scope ∈ interior.innerScopes, InteriorLiveness.All P scope.2) :
      InteriorLiveness.All P interior

namespace Examples

/-- The diamond in which value 9, the result of a begin-borrow of value 0 at
instruction 20 in `right`, is guaranteed. -/
def diamondBorrow : SILFunction :=
  { diamond with
    getOwnershipKind := fun v =>
      if v == 9 then OwnershipKind.Guaranteed else OwnershipKind.Owned }

/-- Liveness of a value of the diamond whose last user is the instruction
`user`, in a lifetime-ending use: the lifetime is complete. -/
def diamondEndedAt (user : SILInstruction) : SSAPrunedLiveness where
  boundary := { lastUsers := [user] }
  blockBoundary := { endBlocks := [user / 10] }
  users := [(user, true)]
  isInterestingUser := fun i =>
    if i = user then IsInterestingUser.LifetimeEndingUse else IsInterestingUser.NonUser

/-- Liveness of a value of the diamond that is the result of the instruction
`inst` and is never used. -/
def diamondDeadDef (inst : SILInstruction) : SSAPrunedLiveness where
  boundary := { deadDefs := [SILNode.instruction inst] }
  blockBoundary := { endBlocks := [inst / 10] }

/-- Interior liveness of value 0 when the terminator 22 of `right` consumes it
and the borrow 9, begun at instruction 20, is ended by instruction 21: both
lifetimes are complete. -/
def diamondInnerEnded : InteriorLiveness where
  liveness := diamondEndedAt 22
  innerScopes := [(9, { liveness := diamondEndedAt 21, innerScopes := [] })]

/-- Interior liveness of value 0 when the terminator 22 of `right` consumes it
and the borrow 9, begun at instruction 20, is never used and never ended: the
lifetime of value 0 itself is complete, that of its inner scope is not. -/
def diamondInnerOpen : InteriorLiveness where
  liveness := diamondEndedAt 22
  innerScopes := [(9, { liveness := diamondDeadDef 20, innerScopes := [] })]

/-- Interior liveness of value 0 when instruction 21 in `right` is its only
use, not lifetime-ending, and the borrow 9, begun at instruction 20, is never
used and never ended. -/
def diamondUsedInner : InteriorLiveness where
  liveness := diamondUsedRight
  innerScopes := [(9, { liveness := diamondDeadDef 20, innerScopes := [] })]

end Examples

namespace Examples

/-- The diamond with operands in which instruction 11 in `left` consumes, besides
value 8, value 6, which is the result of instruction 1 in `entry`. -/
def driverDiamondOuter : SILFunction :=
  { diamond with
    getAllOperands := fun i =>
      if i == 2 then [{ get := 5, isLifetimeEnding := true }]
      else if i == 11 then
        [{ get := 6, isLifetimeEnding := true }, { get := 8, isLifetimeEnding := true }]
      else []
    getParentBlock := fun v => if v == 8 then 1 else 0
    getDefiningInstruction := fun v =>
      if v == 5 then some 0 else if v == 6 then some 1 else if v == 8 then some 10 else none }

end Examples

/-- The function has no critical edge: an edge that leaves a block with several
successors enters a block with a single predecessor. -/
def SILFunction.NoCriticalEdges (f : SILFunction) : Prop :=
  ∀ a b : SILBasicBlock, b ∈ f.getSuccessorBlocks a →
    f.getSuccessorBlocks a = [b] ∨ f.getPredecessorBlocks b = [a]

namespace Examples

/-- The edges of a loop that is left only to a dead end: `entry` (0) enters the
header (1), the header branches to the body (2) and to the exit (3), and the
body branches back to the header. -/
def headerLoopEdges : List (SILBasicBlock × SILBasicBlock) :=
  [(0, 1), (1, 2), (1, 3), (2, 1)]

/-- The loop with its dead-end exit.  The exit ends in `unreachable`; value 0 is
the result of instruction 10 in the header and is owned. -/
def headerLoop : SILFunction where
  blocks := [0, 1, 2, 3]
  getSuccessorBlocks := successorsOf headerLoopEdges
  getPredecessorBlocks := predecessorsOf headerLoopEdges
  getTerminator := fun b => 10 * b + 2
  getInstructions := fun b => [10 * b, 10 * b + 1, 10 * b + 2]
  getParent := fun i => i / 10
  isTermInst := fun i => i % 10 == 2
  isUnreachableInst := fun i => i == 32
  getParentBlock := fun _ => 1
  getDefiningInstruction := fun v => if v == 0 then some 10 else none

/-- Liveness of value 0 in the loop when instruction 21 in the body is its only
use, not lifetime-ending: the body is the end block, and the edge from the
header to the exit is a boundary edge. -/
def headerLoopLiveness : SSAPrunedLiveness where
  boundary := { lastUsers := [21], boundaryEdges := [3] }
  blockBoundary := { endBlocks := [2], boundaryEdges := [3] }
  users := [(21, false)]
  isInterestingUser := fun i =>
    if i == 21 then IsInterestingUser.NonLifetimeEndingUse else IsInterestingUser.NonUser

end Examples

namespace Examples

/-- The diamond with operands in which the terminator 22 of `right` consumes
value 6, which is the result of instruction 1 in `entry`: when `right` is
unreachable, visiting its terminator makes `merge` unreachable. -/
def driverDiamondChain : SILFunction :=
  { diamond with
    getAllOperands := fun i =>
      if i == 2 then [{ get := 5, isLifetimeEnding := true }]
      else if i == 22 then [{ get := 6, isLifetimeEnding := true }]
      else []
    getParentBlock := fun _ => 0
    getDefiningInstruction := fun v =>
      if v == 5 then some 0 else if v == 6 then some 1 else none }

end Examples

/-! # Theorems -/

namespace AvailabilityBoundaryVisitor

theorem hasUnavailableSuccessor_iff (f : SILFunction) (result : Result)
    (block : SILBasicBlock) :
    hasUnavailableSuccessor f result block = true ↔
      ∃ s ∈ f.getSuccessorBlocks block, result.getState s = State.Unavailable := by
  simp [hasUnavailableSuccessor, List.any_eq_true]

theorem visitLoop_cons_pos (f : SILFunction) (result : Result) (block : SILBasicBlock)
    (rest : List SILBasicBlock) (h : onBoundary f result block) :
    visitAvailabilityBoundaryLoop f result (block :: rest) =
      (f.getTerminator block, LifetimeEnd.Boundary) ::
        visitAvailabilityBoundaryLoop f result rest := by
  obtain ⟨hav, hs⟩ := h
  have h2 : (!f.succ_empty block && !hasUnavailableSuccessor f result block) = false := by
    rcases hs with hs | hs
    · simp [SILFunction.succ_empty, hs]
    · simp [(hasUnavailableSuccessor_iff f result block).2 hs]
  simp [visitAvailabilityBoundaryLoop, hav, h2]

theorem visitLoop_cons_neg (f : SILFunction) (result : Result) (block : SILBasicBlock)
    (rest : List SILBasicBlock) (h : ¬ onBoundary f result block) :
    visitAvailabilityBoundaryLoop f result (block :: rest) =
      visitAvailabilityBoundaryLoop f result rest := by
  by_cases hav : result.getState block = State.Available
  · have h2 : (!f.succ_empty block && !hasUnavailableSuccessor f result block) = true := by
      have h3 : ¬ (f.getSuccessorBlocks block = [] ∨
          ∃ s ∈ f.getSuccessorBlocks block, result.getState s = State.Unavailable) :=
        fun hc => h ⟨hav, hc⟩
      rw [not_or] at h3
      have h4 : hasUnavailableSuccessor f result block = false := by
        rw [← Bool.not_eq_true, hasUnavailableSuccessor_iff]
        exact h3.2
      have h5 : f.succ_empty block = false := by
        simp [SILFunction.succ_empty, h3.1]
      simp [h4, h5]
    simp [visitAvailabilityBoundaryLoop, hav, h2]
  · simp [visitAvailabilityBoundaryLoop, hav]

theorem mem_visitLoop (f : SILFunction) (result : Result) (p : VisitCall) :
    ∀ l : List SILBasicBlock, p ∈ visitAvailabilityBoundaryLoop f result l ↔
      ∃ block ∈ l, onBoundary f result block ∧
        p = (f.getTerminator block, LifetimeEnd.Boundary)
  | [] => by simp [visitAvailabilityBoundaryLoop]
  | block :: rest => by
    by_cases h : onBoundary f result block
    · rw [visitLoop_cons_pos f result block rest h, List.mem_cons, mem_visitLoop f result p rest]
      constructor
      · rintro (hp | ⟨b, hb, hob, hp⟩)
        · exact ⟨block, List.mem_cons_self _ _, h, hp⟩
        · exact ⟨b, List.mem_cons_of_mem _ hb, hob, hp⟩
      · rintro ⟨b, hb, hob, hp⟩
        rcases List.mem_cons.1 hb with rfl | hb
        · exact Or.inl hp
        · exact Or.inr ⟨b, hb, hob, hp⟩
    · rw [visitLoop_cons_neg f result block rest h, mem_visitLoop f result p rest]
      constructor
      · rintro ⟨b, hb, hob, hp⟩
        exact ⟨b, List.mem_cons_of_mem _ hb, hob, hp⟩
      · rintro ⟨b, hb, hob, hp⟩
        rcases List.mem_cons.1 hb with rfl | hb
        · exact absurd hob h
        · exact ⟨b, hb, hob, hp⟩

theorem count_visitLoop (f : SILFunction) (result : Result)
    (hterm : Function.Injective f.getTerminator) (b : SILBasicBlock) :
    ∀ l : List SILBasicBlock, l.Nodup →
      List.count (f.getTerminator b, LifetimeEnd.Boundary)
        (visitAvailabilityBoundaryLoop f result l) =
        if b ∈ l ∧ onBoundary f result b then 1 else 0
  | [], _ => by simp [visitAvailabilityBoundaryLoop]
  | block :: rest, hnd => by
    have hnd2 := List.nodup_cons.1 hnd
    have ih := count_visitLoop f result hterm b rest hnd2.2
    by_cases h : onBoundary f result block
    · rw [visitLoop_cons_pos f result block rest h, List.count_cons, ih]
      by_cases hb : block = b
      · subst hb
        simp [h, hnd2.1]
      · have hne : ¬ (f.getTerminator block = f.getTerminator b) := fun hc => hb (hterm hc)
        have hb2 : ¬ b = block := fun hc => hb hc.symm
        simp [hne, hb2]
    · rw [visitLoop_cons_neg f result block rest h, ih]
      by_cases hb : b = block
      · subst hb
        simp [h, hnd2.1]
      · simp [hb]

/-- C1: `visitAvailabilityBoundary` calls `visit` with end-kind Boundary on the
terminator of a block exactly when the block is in the region, its state is
Available, and it has no successors or a successor whose state is Unavailable;
each such terminator is visited exactly once, and every call made is such a
Boundary visit of a boundary block's terminator.  The region is a set vector
(no block twice) and distinct blocks have distinct terminators. -/
theorem visitAvailabilityBoundary_spec (f : SILFunction) (self : AvailabilityBoundaryVisitor)
    (result : Result) (hregion : self.region.Nodup)
    (hterm : Function.Injective f.getTerminator) :
    (∀ block : SILBasicBlock,
      (f.getTerminator block, LifetimeEnd.Boundary) ∈ self.visitAvailabilityBoundary f result ↔
        (block ∈ self.region ∧ result.getState block = State.Available ∧
          (f.getSuccessorBlocks block = [] ∨
            ∃ s ∈ f.getSuccessorBlocks block, result.getState s = State.Unavailable))) ∧
    (∀ block : SILBasicBlock,
      (f.getTerminator block, LifetimeEnd.Boundary) ∈ self.visitAvailabilityBoundary f result →
        List.count (f.getTerminator block, LifetimeEnd.Boundary)
          (self.visitAvailabilityBoundary f result) = 1) ∧
    (∀ p ∈ self.visitAvailabilityBoundary f result,
      ∃ block ∈ self.region, onBoundary f result block ∧
        p = (f.getTerminator block, LifetimeEnd.Boundary)) := by
  have hiff : ∀ block : SILBasicBlock,
      (f.getTerminator block, LifetimeEnd.Boundary) ∈ self.visitAvailabilityBoundary f result ↔
        (block ∈ self.region ∧ onBoundary f result block) := by
    intro block
    unfold visitAvailabilityBoundary
    rw [mem_visitLoop]
    constructor
    · rintro ⟨b, hb, hob, hp⟩
      have hbb : block = b := hterm (congrArg Prod.fst hp)
      subst hbb
      exact ⟨hb, hob⟩
    · rintro ⟨hb, hob⟩
      exact ⟨block, hb, hob, rfl⟩
  refine ⟨fun block => hiff block, ?_, ?_⟩
  · intro block hmem
    have h := (hiff block).1 hmem
    unfold visitAvailabilityBoundary
    rw [count_visitLoop f result hterm block self.region hregion]
    simp [h.1, h.2]
  · intro p hp
    unfold visitAvailabilityBoundary at hp
    exact (mem_visitLoop f result p self.region).1 hp

end AvailabilityBoundaryVisitor

/-! ## Containers -/

theorem BasicBlockSet.mem_set_insert (s : List SILBasicBlock) (b x : SILBasicBlock) :
    x ∈ BasicBlockSet.insert s b ↔ x = b ∨ x ∈ s := by
  unfold BasicBlockSet.insert
  by_cases h : s.contains b = true
  · rw [if_pos h]
    have hb : b ∈ s := by simpa using h
    constructor
    · exact fun hx => Or.inr hx
    · rintro (rfl | hx)
      · exact hb
      · exact hx
  · rw [if_neg h]
    simp

theorem BasicBlockSetVector.mem_setvector_insert (s : List SILBasicBlock) (b x : SILBasicBlock) :
    x ∈ BasicBlockSetVector.insert s b ↔ x = b ∨ x ∈ s := by
  unfold BasicBlockSetVector.insert
  by_cases h : s.contains b = true
  · rw [if_pos h]
    have hb : b ∈ s := by simpa using h
    constructor
    · exact fun hx => Or.inr hx
    · rintro (rfl | hx)
      · exact hb
      · exact hx
  · rw [if_neg h]
    simp [or_comm]

theorem BasicBlockSetVector.nodup_insert (s : List SILBasicBlock) (b : SILBasicBlock)
    (hs : s.Nodup) : (BasicBlockSetVector.insert s b).Nodup := by
  unfold BasicBlockSetVector.insert
  by_cases h : s.contains b = true
  · rw [if_pos h]
    exact hs
  · rw [if_neg h]
    have hb : b ∉ s := by simpa using h
    rw [List.nodup_append]
    refine ⟨hs, List.nodup_singleton b, ?_⟩
    intro x hx hx2
    rw [List.mem_singleton] at hx2
    subst hx2
    exact hb hx

theorem unvisited_filter_insert_le (visited : List SILBasicBlock) (b : SILBasicBlock) :
    ∀ l : List SILBasicBlock,
      (l.filter (fun x => !(BasicBlockSet.insert visited b).contains x)).length ≤
        (l.filter (fun x => !visited.contains x)).length
  | [] => by simp
  | x :: xs => by
    have ih := unvisited_filter_insert_le visited b xs
    simp only [List.filter_cons]
    by_cases hx : x ∈ visited
    · have h1 : x ∈ BasicBlockSet.insert visited b :=
        (BasicBlockSet.mem_set_insert visited b x).2 (Or.inr hx)
      have e1 : visited.contains x = true := by simpa using hx
      have e2 : (BasicBlockSet.insert visited b).contains x = true := by simpa using h1
      simp only [e1, e2, Bool.not_true, Bool.false_eq_true, if_false]
      exact ih
    · have e1 : visited.contains x = false := by simpa using hx
      by_cases h1 : x ∈ BasicBlockSet.insert visited b
      · have e2 : (BasicBlockSet.insert visited b).contains x = true := by simpa using h1
        simp only [e1, e2, Bool.not_true, Bool.not_false, if_true, List.length_cons]
        simp only [Bool.false_eq_true, if_false]
        omega
      · have e2 : (BasicBlockSet.insert visited b).contains x = false := by simpa using h1
        simp only [e1, e2, Bool.not_false, if_true, List.length_cons]
        omega

theorem unvisited_filter_insert_lt (visited : List SILBasicBlock) (b : SILBasicBlock)
    (hv : b ∉ visited) :
    ∀ l : List SILBasicBlock, b ∈ l →
      (l.filter (fun x => !(BasicBlockSet.insert visited b).contains x)).length <
        (l.filter (fun x => !visited.contains x)).length
  | [], hb => by simp at hb
  | x :: xs, hb => by
    have hle := unvisited_filter_insert_le visited b xs
    simp only [List.filter_cons]
    by_cases hxb : x = b
    · subst hxb
      have h1 : x ∈ BasicBlockSet.insert visited x :=
        (BasicBlockSet.mem_set_insert visited x x).2 (Or.inl rfl)
      have e1 : visited.contains x = false := by simpa using hv
      have e2 : (BasicBlockSet.insert visited x).contains x = true := by simpa using h1
      simp only [e1, e2, Bool.not_true, Bool.not_false, if_true, List.length_cons]
      simp only [Bool.false_eq_true, if_false]
      omega
    · have hb2 : b ∈ xs := by
        rcases List.mem_cons.1 hb with h | h
        · exact absurd h.symm hxb
        · exact h
      have ih := unvisited_filter_insert_lt visited b hv xs hb2
      by_cases hx : x ∈ visited
      · have h1 : x ∈ BasicBlockSet.insert visited b :=
          (BasicBlockSet.mem_set_insert visited b x).2 (Or.inr hx)
        have e1 : visited.contains x = true := by simpa using hx
        have e2 : (BasicBlockSet.insert visited b).contains x = true := by simpa using h1
        simp only [e1, e2, Bool.not_true, Bool.false_eq_true, if_false]
        exact ih
      · have h1 : x ∉ BasicBlockSet.insert visited b := by
          rw [BasicBlockSet.mem_set_insert]
          rintro (h | h)
          · exact hxb h
          · exact hx h
        have e1 : visited.contains x = false := by simpa using hx
        have e2 : (BasicBlockSet.insert visited b).contains x = false := by simpa using h1
        simp only [e1, e2, Bool.not_false, if_true, List.length_cons]
        omega

theorem SILFunction.unvisited_insert_le (f : SILFunction) (visited : List SILBasicBlock)
    (b : SILBasicBlock) :
    f.unvisited (BasicBlockSet.insert visited b) ≤ f.unvisited visited :=
  unvisited_filter_insert_le visited b f.blocks

theorem SILFunction.unvisited_insert_lt (f : SILFunction) (visited : List SILBasicBlock)
    (b : SILBasicBlock) (hb : b ∈ f.blocks) (hv : b ∉ visited) :
    f.unvisited (BasicBlockSet.insert visited b) < f.unvisited visited :=
  unvisited_filter_insert_lt visited b hv f.blocks hb

namespace BasicBlockWorklist

theorem mem_visited_push (w : BasicBlockWorklist) (b x : SILBasicBlock) :
    x ∈ (w.push b).visited ↔ x = b ∨ x ∈ w.visited := by
  simp [push, BasicBlockSet.mem_set_insert]

theorem mem_worklist_push (w : BasicBlockWorklist) (b x : SILBasicBlock) :
    x ∈ (w.push b).worklist ↔ x = b ∨ x ∈ w.worklist := by
  simp [push]

theorem mem_visited_pushIfNotVisited (w : BasicBlockWorklist) (b x : SILBasicBlock) :
    x ∈ (w.pushIfNotVisited b).visited ↔ x = b ∨ x ∈ w.visited := by
  unfold pushIfNotVisited
  by_cases h : w.visited.contains b = true
  · rw [if_pos h]
    have hb : b ∈ w.visited := by simpa using h
    constructor
    · exact fun hx => Or.inr hx
    · rintro (rfl | hx)
      · exact hb
      · exact hx
  · rw [if_neg h]
    exact mem_visited_push w b x

theorem mem_worklist_pushIfNotVisited (w : BasicBlockWorklist) (b x : SILBasicBlock) :
    x ∈ (w.pushIfNotVisited b).worklist ↔ x ∈ w.worklist ∨ (x = b ∧ b ∉ w.visited) := by
  unfold pushIfNotVisited
  by_cases h : w.visited.contains b = true
  · rw [if_pos h]
    have hb : b ∈ w.visited := by simpa using h
    constructor
    · exact fun hx => Or.inl hx
    · rintro (hx | ⟨_, hx⟩)
      · exact hx
      · exact absurd hb hx
  · rw [if_neg h]
    have hb : b ∉ w.visited := by simpa using h
    rw [mem_worklist_push]
    constructor
    · rintro (hx | hx)
      · exact Or.inr ⟨hx, hb⟩
      · exact Or.inl hx
    · rintro (hx | ⟨hx, _⟩)
      · exact Or.inr hx
      · exact Or.inl hx

theorem measure_pushIfNotVisited (f : SILFunction) (w : BasicBlockWorklist)
    (b : SILBasicBlock) (hb : b ∈ f.blocks) :
    (w.pushIfNotVisited b).worklist.length + f.unvisited (w.pushIfNotVisited b).visited ≤
      w.worklist.length + f.unvisited w.visited := by
  unfold pushIfNotVisited
  by_cases h : w.visited.contains b = true
  · rw [if_pos h]
  · rw [if_neg h]
    have hv : b ∉ w.visited := by simpa using h
    have hlt := f.unvisited_insert_lt w.visited b hb hv
    simp only [push, List.length_cons]
    omega

end BasicBlockWorklist

namespace AvailabilityBoundaryVisitor

theorem mem_consumingBlocks (f : SILFunction) :
    ∀ (users : List (SILInstruction × Bool)) (s : List SILBasicBlock) (b : SILBasicBlock),
      b ∈ consumingBlocks f users s ↔
        b ∈ s ∨ ∃ u ∈ users, u.2 = true ∧ f.getParent u.1 = b
  | [], s, b => by simp [consumingBlocks]
  | (instruction, lifetimeEnding) :: rest, s, b => by
    rw [consumingBlocks, mem_consumingBlocks f rest]
    cases lifetimeEnding with
    | false =>
      simp
    | true =>
      simp only [if_true, BasicBlockSet.mem_set_insert, List.mem_cons, exists_eq_or_imp, true_and]
      constructor
      · rintro ((h | h) | h)
        · exact Or.inr (Or.inl h.symm)
        · exact Or.inl h
        · exact Or.inr (Or.inr h)
      · rintro (h | h | h)
        · exact Or.inl (Or.inr h)
        · exact Or.inl (Or.inl h.symm)
        · exact Or.inr h

/-- What the loop over the successors of a popped block does to the worklist
and the region. -/
theorem walkSuccessors_spec (f : SILFunction) :
    ∀ (succs : List SILBasicBlock) (worklist : BasicBlockWorklist)
      (region : List SILBasicBlock),
      (∀ b, b ∈ worklist.visited ↔ b ∈ region) →
      (∀ s ∈ succs, s ∈ f.blocks) →
      (∀ b, b ∈ (walkSuccessors succs (worklist, region)).1.visited ↔
        b ∈ (walkSuccessors succs (worklist, region)).2) ∧
      (∀ b, b ∈ (walkSuccessors succs (worklist, region)).2 ↔ b ∈ region ∨ b ∈ succs) ∧
      (∀ b, b ∈ (walkSuccessors succs (worklist, region)).1.worklist ↔
        b ∈ worklist.worklist ∨ (b ∈ succs ∧ b ∉ region)) ∧
      ((walkSuccessors succs (worklist, region)).1.worklist.length +
          f.unvisited (walkSuccessors succs (worklist, region)).1.visited ≤
        worklist.worklist.length + f.unvisited worklist.visited) ∧
      (region.Nodup → (walkSuccessors succs (worklist, region)).2.Nodup)
  | [], worklist, region, hvr, _ => by
    simp only [walkSuccessors]
    exact ⟨hvr, by simp, by simp, le_refl _, fun h => h⟩
  | successor :: rest, worklist, region, hvr, hfin => by
    have hvr1 : ∀ b, b ∈ (worklist.pushIfNotVisited successor).visited ↔
        b ∈ BasicBlockSetVector.insert region successor := by
      intro b
      rw [BasicBlockWorklist.mem_visited_pushIfNotVisited, BasicBlockSetVector.mem_setvector_insert, hvr]
    have ih := walkSuccessors_spec f rest (worklist.pushIfNotVisited successor)
      (BasicBlockSetVector.insert region successor) hvr1
      (fun s hs => hfin s (List.mem_cons_of_mem _ hs))
    obtain ⟨i1, i2, i3, i4, i5⟩ := ih
    simp only [walkSuccessors]
    refine ⟨i1, ?_, ?_, ?_, ?_⟩
    · intro b
      rw [i2, BasicBlockSetVector.mem_setvector_insert, List.mem_cons]
      constructor
      · rintro ((h | h) | h)
        · exact Or.inr (Or.inl h)
        · exact Or.inl h
        · exact Or.inr (Or.inr h)
      · rintro (h | h | h)
        · exact Or.inl (Or.inr h)
        · exact Or.inl (Or.inl h)
        · exact Or.inr h
    · intro b
      rw [i3, BasicBlockWorklist.mem_worklist_pushIfNotVisited, BasicBlockSetVector.mem_setvector_insert,
        List.mem_cons, hvr]
      constructor
      · rintro ((h | ⟨h1, h2⟩) | ⟨h1, h2⟩)
        · exact Or.inl h
        · exact Or.inr ⟨Or.inl h1, fun hc => h2 (h1 ▸ hc)⟩
        · exact Or.inr ⟨Or.inr h1, fun hc => h2 (Or.inr hc)⟩
      · rintro (h | ⟨h1, h2⟩)
        · exact Or.inl (Or.inl h)
        · by_cases hbs : b = successor
          · exact Or.inl (Or.inr ⟨hbs, fun hc => h2 (hbs ▸ hc)⟩)
          · rcases h1 with h1 | h1
            · exact absurd h1 hbs
            · refine Or.inr ⟨h1, ?_⟩
              rintro (hc | hc)
              · exact hbs hc
              · exact h2 hc
    · have hm := BasicBlockWorklist.measure_pushIfNotVisited f worklist successor
        (hfin successor (List.mem_cons_self _ _))
      omega
    · intro hnd
      exact i5 (BasicBlockSetVector.nodup_insert region successor hnd)

end AvailabilityBoundaryVisitor

namespace AvailabilityBoundaryVisitor

/-- A set of blocks closed under successors contains everything reachable
from its members. -/
theorem reachable_mem_of_closed (f : SILFunction) (P : SILBasicBlock → Prop)
    (hclosed : ∀ b, P b → ∀ s ∈ f.getSuccessorBlocks b, P s)
    {a b : SILBasicBlock} (ha : P a) (h : f.Reachable a b) : P b := by
  induction h with
  | refl => exact ha
  | tail _ hbc ih => exact hclosed _ ih _ hbc

/-- The forward walk returns, and returns the closure of the region it is given
under successor edges, provided the pending blocks are the only region blocks
whose successors may still be missing. -/
theorem regionWalk_spec (f : SILFunction) (hfin : f.SuccessorsInFunction) :
    ∀ (fuel : Nat) (worklist : BasicBlockWorklist) (region : List SILBasicBlock),
      worklist.worklist.length + f.unvisited worklist.visited < fuel →
      (∀ b, b ∈ worklist.visited ↔ b ∈ region) →
      (∀ b ∈ worklist.worklist, b ∈ region) →
      (∀ b ∈ region, b ∈ worklist.worklist ∨ ∀ s ∈ f.getSuccessorBlocks b, s ∈ region) →
      ∃ region1, regionWalk f fuel worklist region = some region1 ∧
        (∀ b ∈ region, b ∈ region1) ∧
        (∀ b ∈ region1, ∀ s ∈ f.getSuccessorBlocks b, s ∈ region1) ∧
        (∀ b ∈ region1, ∃ a ∈ region, f.Reachable a b) ∧
        (region.Nodup → region1.Nodup)
  | 0, _, _, hm, _, _, _ => by omega
  | fuel + 1, worklist, region, hm, hvr, hwr, hdone => by
    cases hw : worklist.worklist with
    | nil =>
      refine ⟨region, ?_, fun b hb => hb, ?_, ?_, fun h => h⟩
      · simp [regionWalk, BasicBlockWorklist.pop, hw]
      · intro b hb
        rcases hdone b hb with h | h
        · rw [hw] at h
          exact absurd h (List.not_mem_nil b)
        · exact h
      · intro b hb
        exact ⟨b, hb, Relation.ReflTransGen.refl⟩
    | cons block rest =>
      have hpop : worklist.pop = some (block, { worklist with worklist := rest }) := by
        simp [BasicBlockWorklist.pop, hw]
      have hblock : block ∈ region := hwr block (by rw [hw]; exact List.mem_cons_self _ _)
      obtain ⟨w1, w2, w3, w4, w5⟩ := walkSuccessors_spec f (f.getSuccessorBlocks block)
        { worklist with worklist := rest } region hvr (fun s hs => hfin block s hs)
      have hm2 : (walkSuccessors (f.getSuccessorBlocks block)
          ({ worklist with worklist := rest }, region)).1.worklist.length +
          f.unvisited (walkSuccessors (f.getSuccessorBlocks block)
          ({ worklist with worklist := rest }, region)).1.visited < fuel := by
        rw [hw] at hm
        simp only [List.length_cons] at hm
        simp only at w4
        omega
      have ih := regionWalk_spec f hfin fuel _ _ hm2 w1
        (by
          intro b hb
          rcases (w3 b).1 hb with h | h
          · exact (w2 b).2 (Or.inl (hwr b (by rw [hw]; exact List.mem_cons_of_mem _ h)))
          · exact (w2 b).2 (Or.inr h.1))
        (by
          intro b hb
          rcases (w2 b).1 hb with h | h
          · rcases hdone b h with h2 | h2
            · rw [hw] at h2
              rcases List.mem_cons.1 h2 with h3 | h3
              · subst h3
                exact Or.inr (fun s hs => (w2 s).2 (Or.inr hs))
              · exact Or.inl ((w3 b).2 (Or.inl h3))
            · exact Or.inr (fun s hs => (w2 s).2 (Or.inl (h2 s hs)))
          · by_cases hbr : b ∈ region
            · rcases hdone b hbr with h2 | h2
              · rw [hw] at h2
                rcases List.mem_cons.1 h2 with h3 | h3
                · subst h3
                  exact Or.inr (fun s hs => (w2 s).2 (Or.inr hs))
                · exact Or.inl ((w3 b).2 (Or.inl h3))
              · exact Or.inr (fun s hs => (w2 s).2 (Or.inl (h2 s hs)))
            · exact Or.inl ((w3 b).2 (Or.inr ⟨h, hbr⟩)))
      obtain ⟨region1, hrun, r1, r2, r3, r4⟩ := ih
      refine ⟨region1, ?_, ?_, r2, ?_, ?_⟩
      · simp only [regionWalk, hpop]
        exact hrun
      · intro b hb
        exact r1 b ((w2 b).2 (Or.inl hb))
      · intro b hb
        obtain ⟨a, ha, hab⟩ := r3 b hb
        rcases (w2 a).1 ha with h | h
        · exact ⟨a, h, hab⟩
        · exact ⟨block, hblock,
            Relation.ReflTransGen.trans (Relation.ReflTransGen.single h) hab⟩
      · intro hnd
        exact r4 (w5 hnd)

theorem collect_inv (st : RegionState) (block : SILBasicBlock) (h : CollectInv st) :
    CollectInv (collect st block) := by
  obtain ⟨h1, h2, h3, h4⟩ := h
  refine ⟨?_, ?_, ?_, ?_⟩
  · intro b
    simp only [collect, BasicBlockSetVector.mem_setvector_insert, BasicBlockSet.mem_set_insert, h1]
  · intro b
    simp only [collect, BasicBlockWorklist.mem_visited_push, BasicBlockSet.mem_set_insert, h2]
  · intro b
    simp only [collect, BasicBlockWorklist.mem_worklist_push, BasicBlockSet.mem_set_insert, h3]
  · exact BasicBlockSetVector.nodup_insert _ _ h4

theorem mem_starts_collect (st : RegionState) (block b : SILBasicBlock) :
    b ∈ (collect st block).starts ↔ b = block ∨ b ∈ st.starts := by
  simp [collect, BasicBlockSet.mem_set_insert]

theorem collectEndBlocks_spec (consuming : List SILBasicBlock) :
    ∀ (endBlocks : List SILBasicBlock) (st : RegionState), CollectInv st →
      CollectInv (collectEndBlocks consuming endBlocks st) ∧
      ∀ b, b ∈ (collectEndBlocks consuming endBlocks st).starts ↔
        b ∈ st.starts ∨ (b ∈ endBlocks ∧ b ∉ consuming)
  | [], st, h => by simp [collectEndBlocks, h]
  | endBlock :: rest, st, h => by
    rw [collectEndBlocks]
    by_cases hc : endBlock ∈ consuming
    · have e : consuming.contains endBlock = true := by simpa using hc
      simp only [e, Bool.not_true, Bool.false_eq_true, if_false]
      obtain ⟨i1, i2⟩ := collectEndBlocks_spec consuming rest st h
      refine ⟨i1, fun b => ?_⟩
      rw [i2, List.mem_cons]
      constructor
      · rintro (hb | ⟨hb, hb2⟩)
        · exact Or.inl hb
        · exact Or.inr ⟨Or.inr hb, hb2⟩
      · rintro (hb | ⟨hb | hb, hb2⟩)
        · exact Or.inl hb
        · exact absurd (hb ▸ hc) hb2
        · exact Or.inr ⟨hb, hb2⟩
    · have e : consuming.contains endBlock = false := by simpa using hc
      simp only [e, Bool.not_false, if_true]
      obtain ⟨i1, i2⟩ := collectEndBlocks_spec consuming rest (collect st endBlock)
        (collect_inv st endBlock h)
      refine ⟨i1, fun b => ?_⟩
      rw [i2, mem_starts_collect, List.mem_cons]
      constructor
      · rintro ((hb | hb) | ⟨hb, hb2⟩)
        · exact Or.inr ⟨Or.inl hb, fun h2 => hc (hb ▸ h2)⟩
        · exact Or.inl hb
        · exact Or.inr ⟨Or.inr hb, hb2⟩
      · rintro (hb | ⟨hb | hb, hb2⟩)
        · exact Or.inl (Or.inr hb)
        · exact Or.inl (Or.inl hb)
        · exact Or.inr ⟨hb, hb2⟩

theorem collectEdges_spec :
    ∀ (edges : List SILBasicBlock) (st : RegionState), CollectInv st →
      CollectInv (collectEdges edges st) ∧
      ∀ b, b ∈ (collectEdges edges st).starts ↔ b ∈ st.starts ∨ b ∈ edges
  | [], st, h => by simp [collectEdges, h]
  | edge :: rest, st, h => by
    rw [collectEdges]
    obtain ⟨i1, i2⟩ := collectEdges_spec rest (collect st edge) (collect_inv st edge h)
    refine ⟨i1, fun b => ?_⟩
    rw [i2, mem_starts_collect, List.mem_cons]
    constructor
    · rintro ((hb | hb) | hb)
      · exact Or.inr (Or.inl hb)
      · exact Or.inl hb
      · exact Or.inr (Or.inr hb)
    · rintro (hb | hb | hb)
      · exact Or.inl (Or.inr hb)
      · exact Or.inl (Or.inl hb)
      · exact Or.inr hb

/-- The start blocks that `computeRegion` collects on a new visitor. -/
theorem computeRegionStarts_spec (value : SILValue) (f : SILFunction)
    (liveness : SSAPrunedLiveness) :
    CollectInv (computeRegionStarts { value := value } f liveness) ∧
    ∀ b, b ∈ (computeRegionStarts { value := value } f liveness).starts ↔
      ((b ∈ liveness.blockBoundary.endBlocks ∧
          ¬ ∃ u ∈ liveness.users, u.2 = true ∧ f.getParent u.1 = b) ∨
        b ∈ liveness.blockBoundary.boundaryEdges) := by
  have h0 : CollectInv ({ starts := [], region := [] } : RegionState) := by
    simp [CollectInv]
  obtain ⟨e1, e2⟩ := collectEndBlocks_spec (consumingBlocks f liveness.users [])
    liveness.blockBoundary.endBlocks _ h0
  obtain ⟨g1, g2⟩ := collectEdges_spec liveness.blockBoundary.boundaryEdges _ e1
  refine ⟨g1, fun b => ?_⟩
  simp only [computeRegionStarts]
  rw [g2, e2, mem_consumingBlocks]
  simp

/-- The result of `computeRegion` on a new visitor, given the start state. -/
theorem computeRegion_run (value : SILValue) (f : SILFunction) (liveness : SSAPrunedLiveness)
    (hfin : f.SuccessorsInFunction) :
    ∃ v : AvailabilityBoundaryVisitor,
      computeRegion { value := value } f liveness = some v ∧
      v.value = value ∧
      v.starts = (computeRegionStarts { value := value } f liveness).starts ∧
      (∀ b, b ∈ v.region ↔ ∃ s ∈ v.starts, f.Reachable s b) ∧
      (∀ s ∈ v.starts, s ∈ v.region) ∧
      (∀ b ∈ v.region, ∀ s ∈ f.getSuccessorBlocks b, s ∈ v.region) ∧
      v.region.Nodup := by
  obtain ⟨⟨c1, c2, c3, c4⟩, _⟩ := computeRegionStarts_spec value f liveness
  have hunv : f.unvisited (computeRegionStarts { value := value } f liveness).regionWorklist.visited
      ≤ f.blocks.length := by
    unfold SILFunction.unvisited
    exact List.length_filter_le _ _
  obtain ⟨region1, hrun, r1, r2, r3, r4⟩ := regionWalk_spec f hfin
    ((computeRegionStarts { value := value } f liveness).regionWorklist.worklist.length +
      f.blocks.length + 1)
    (computeRegionStarts { value := value } f liveness).regionWorklist
    (computeRegionStarts { value := value } f liveness).region
    (by omega)
    (fun b => by rw [c2, c1])
    (fun b hb => by rw [c1]; exact (c3 b).1 hb)
    (fun b hb => Or.inl ((c3 b).2 ((c1 b).1 hb)))
  refine ⟨{ value := value,
            starts := (computeRegionStarts { value := value } f liveness).starts,
            region := region1 }, ?_, rfl, rfl, ?_, ?_, r2, r4 c4⟩
  · simp only [computeRegion, hrun]
  · intro b
    constructor
    · intro hb
      obtain ⟨a, ha, hab⟩ := r3 b hb
      exact ⟨a, (c1 a).1 ha, hab⟩
    · rintro ⟨s, hs, hsb⟩
      exact reachable_mem_of_closed f (fun x => x ∈ region1) r2 (r1 s ((c1 s).2 hs)) hsb
  · intro s hs
    exact r1 s ((c1 s).2 hs)

/-- C3: on a function with finitely many blocks, `computeRegion` returns; the
blocks of `starts` are exactly the boundary end blocks that contain no
lifetime-ending user together with all boundary-edge blocks, and the blocks of
`region` are exactly those reachable from a start block by zero or more
successor edges; so `starts` is within `region` and `region` is closed under
successors. -/
theorem computeRegion_spec (value : SILValue) (f : SILFunction)
    (liveness : SSAPrunedLiveness) (hfin : f.SuccessorsInFunction) :
    ∃ v : AvailabilityBoundaryVisitor,
      computeRegion { value := value } f liveness = some v ∧
      (∀ b, b ∈ v.starts ↔
        ((b ∈ liveness.blockBoundary.endBlocks ∧
            ¬ ∃ u ∈ liveness.users, u.2 = true ∧ f.getParent u.1 = b) ∨
          b ∈ liveness.blockBoundary.boundaryEdges)) ∧
      (∀ b, b ∈ v.region ↔ ∃ s ∈ v.starts, f.Reachable s b) ∧
      (∀ s ∈ v.starts, s ∈ v.region) ∧
      (∀ b ∈ v.region, ∀ s ∈ f.getSuccessorBlocks b, s ∈ v.region) := by
  obtain ⟨v, hrun, _, hstarts, hregion, hsub, hclosed, _⟩ :=
    computeRegion_run value f liveness hfin
  refine ⟨v, hrun, ?_, hregion, hsub, hclosed⟩
  intro b
  rw [hstarts]
  exact (computeRegionStarts_spec value f liveness).2 b

end AvailabilityBoundaryVisitor

/-! ## The availability lattice and `updateState` -/

namespace AvailabilityBoundaryVisitor

theorem State.toNat_injective : ∀ a b : State, a.toNat = b.toNat → a = b := by
  intro a b h
  cases a <;> cases b <;> simp [State.toNat] at h <;> rfl

theorem State.toNat_le_two (a : State) : a.toNat ≤ 2 := by
  cases a <;> simp [State.toNat]

theorem State.toNat_meet (a b : State) : (a.meet b).toNat = min a.toNat b.toNat := by
  unfold State.meet
  by_cases h : a.toNat < b.toNat
  · rw [if_pos h]
    omega
  · rw [if_neg h]
    omega

/-- The fold of `meet` over a list of blocks, as `updateState` computes it. -/
theorem foldl_meet_le_init (g : SILBasicBlock → State) :
    ∀ (l : List SILBasicBlock) (init : State),
      (l.foldl (fun state p => state.meet (g p)) init).toNat ≤ init.toNat
  | [], init => by simp
  | p :: rest, init => by
    have ih := foldl_meet_le_init g rest (init.meet (g p))
    rw [State.toNat_meet] at ih
    simp only [List.foldl_cons]
    omega

theorem foldl_meet_le_mem (g : SILBasicBlock → State) :
    ∀ (l : List SILBasicBlock) (init : State), ∀ p ∈ l,
      (l.foldl (fun state p => state.meet (g p)) init).toNat ≤ (g p).toNat
  | [], _, p, hp => by simp at hp
  | q :: rest, init, p, hp => by
    simp only [List.foldl_cons]
    rcases List.mem_cons.1 hp with h | h
    · subst h
      have h1 := foldl_meet_le_init g rest (init.meet (g p))
      rw [State.toNat_meet] at h1
      omega
    · exact foldl_meet_le_mem g rest _ p h

theorem foldl_meet_eq (g : SILBasicBlock → State) :
    ∀ (l : List SILBasicBlock) (init : State),
      l.foldl (fun state p => state.meet (g p)) init = init ∨
        ∃ p ∈ l, l.foldl (fun state p => state.meet (g p)) init = g p
  | [], init => by simp
  | q :: rest, init => by
    simp only [List.foldl_cons]
    rcases foldl_meet_eq g rest (init.meet (g q)) with h | ⟨p, hp, h⟩
    · rw [h]
      unfold State.meet
      by_cases hlt : init.toNat < (g q).toNat
      · rw [if_pos hlt]
        exact Or.inl rfl
      · rw [if_neg hlt]
        exact Or.inr ⟨q, List.mem_cons_self _ _, rfl⟩
    · exact Or.inr ⟨p, List.mem_cons_of_mem _ hp, h⟩

/-- Anything below the initial state and below every listed state is below
the fold. -/
theorem le_foldl_meet (g : SILBasicBlock → State) (l : List SILBasicBlock) (init : State)
    (n : Nat) (hinit : n ≤ init.toNat) (hall : ∀ p ∈ l, n ≤ (g p).toNat) :
    n ≤ (l.foldl (fun state p => state.meet (g p)) init).toNat := by
  rcases foldl_meet_eq g l init with h | ⟨p, hp, h⟩
  · rw [h]
    exact hinit
  · rw [h]
    exact hall p hp

theorem foldl_meet_congr (g h : SILBasicBlock → State) :
    ∀ (l : List SILBasicBlock) (init : State), (∀ p ∈ l, g p = h p) →
      l.foldl (fun state p => state.meet (g p)) init =
        l.foldl (fun state p => state.meet (h p)) init
  | [], _, _ => rfl
  | q :: rest, init, hgh => by
    simp only [List.foldl_cons]
    rw [hgh q (List.mem_cons_self _ _)]
    exact foldl_meet_congr g h rest _ (fun p hp => hgh p (List.mem_cons_of_mem _ hp))

theorem Result.getState_setState (r : Result) (block : SILBasicBlock) (s : State)
    (b : SILBasicBlock) :
    (r.setState block s).getState b = if b = block then s else r.getState b := rfl

theorem Result.setState_getState_self (r : Result) (block : SILBasicBlock) :
    r.setState block (r.getState block) = r := by
  cases r with
  | mk states =>
    simp only [Result.setState, Result.getState]
    congr
    funext b
    by_cases h : b = block
    · simp [h]
    · simp [h]

theorem meetPredecessors_le_mem (f : SILFunction) (r : Result) (block p : SILBasicBlock)
    (hp : p ∈ f.getPredecessorBlocks block) :
    (meetPredecessors f r block).toNat ≤ (r.getState p).toNat :=
  foldl_meet_le_mem r.getState _ _ p hp

theorem le_meetPredecessors (f : SILFunction) (r : Result) (block : SILBasicBlock) (n : Nat)
    (hn : n ≤ 2) (hall : ∀ p ∈ f.getPredecessorBlocks block, n ≤ (r.getState p).toNat) :
    n ≤ (meetPredecessors f r block).toNat :=
  le_foldl_meet r.getState _ _ n (by simpa [State.toNat] using hn) hall

/-- The state that `updateState` stores, and its flag. -/
theorem Result.updateState_fst (f : SILFunction) (r : Result) (block : SILBasicBlock) :
    (r.updateState f block).1 = r.setState block
      ((f.getPredecessorBlocks block).foldl
        (fun state p => state.meet (r.getState p)) (r.getState block)) := rfl

theorem Result.updateState_snd (f : SILFunction) (r : Result) (block : SILBasicBlock) :
    (r.updateState f block).2 = true ↔
      (f.getPredecessorBlocks block).foldl
        (fun state p => state.meet (r.getState p)) (r.getState block) ≠ r.getState block := by
  simp [Result.updateState]

/-- `updateState` never raises the state of the block. -/
theorem Result.updateState_le (f : SILFunction) (r : Result) (block : SILBasicBlock) :
    ((r.updateState f block).1.getState block).toNat ≤ (r.getState block).toNat := by
  rw [Result.updateState_fst, Result.getState_setState, if_pos rfl]
  exact foldl_meet_le_init r.getState _ _

theorem potential_le (f : SILFunction) (r : Result) :
    ∀ l : List SILBasicBlock, potential f r l ≤ 2 * successorCount f l
  | [] => by simp [potential, successorCount]
  | b :: rest => by
    have ih := potential_le f r rest
    have h2 := State.toNat_le_two (r.getState b)
    have h3 : (r.getState b).toNat * (f.getSuccessorBlocks b).length ≤
        2 * (f.getSuccessorBlocks b).length := Nat.mul_le_mul_right _ h2
    simp only [potential, successorCount]
    omega

/-- Lowering the state of one block of the list lowers the potential by at
least the number of successors of that block. -/
theorem potential_setState (f : SILFunction) (r : Result) (block : SILBasicBlock) (s : State)
    (hs : s.toNat < (r.getState block).toNat) :
    ∀ l : List SILBasicBlock,
      potential f (r.setState block s) l ≤ potential f r l ∧
      (block ∈ l → potential f (r.setState block s) l +
        (f.getSuccessorBlocks block).length ≤ potential f r l)
  | [] => by simp [potential]
  | b :: rest => by
    obtain ⟨ih1, ih2⟩ := potential_setState f r block s hs rest
    simp only [potential, Result.getState_setState]
    by_cases hb : b = block
    · subst hb
      rw [if_pos rfl]
      have h1 : s.toNat * (f.getSuccessorBlocks b).length + (f.getSuccessorBlocks b).length ≤
          (r.getState b).toNat * (f.getSuccessorBlocks b).length := by
        have : (s.toNat + 1) * (f.getSuccessorBlocks b).length ≤
            (r.getState b).toNat * (f.getSuccessorBlocks b).length :=
          Nat.mul_le_mul_right _ hs
        rw [Nat.add_mul, Nat.one_mul] at this
        exact this
      constructor
      · omega
      · intro _
        omega
    · rw [if_neg hb]
      constructor
      · omega
      · intro hmem
        have hmem2 : block ∈ rest := by
          rcases List.mem_cons.1 hmem with h | h
          · exact absurd h.symm hb
          · exact h
        have := ih2 hmem2
        omega

end AvailabilityBoundaryVisitor

namespace BasicBlockWorklist

theorem consistent_push (w : BasicBlockWorklist) (b : SILBasicBlock) (h : w.Consistent)
    (hb : b ∉ w.worklist) : (w.push b).Consistent := by
  obtain ⟨h1, h2⟩ := h
  refine ⟨fun x => ?_, ?_⟩
  · rw [mem_visited_push, mem_worklist_push, h1]
  · simp only [push]
    exact List.nodup_cons.2 ⟨hb, h2⟩

theorem consistent_pushIfNotVisited (w : BasicBlockWorklist) (b : SILBasicBlock)
    (h : w.Consistent) : (w.pushIfNotVisited b).Consistent := by
  unfold pushIfNotVisited
  by_cases hv : w.visited.contains b = true
  · rw [if_pos hv]
    exact h
  · rw [if_neg hv]
    have hb : b ∉ w.visited := by simpa using hv
    exact consistent_push w b h (fun hc => hb ((h.1 b).2 hc))

theorem length_pushIfNotVisited_le (w : BasicBlockWorklist) (b : SILBasicBlock) :
    (w.pushIfNotVisited b).worklist.length ≤ w.worklist.length + 1 := by
  unfold pushIfNotVisited
  by_cases hv : w.visited.contains b = true
  · rw [if_pos hv]
    omega
  · rw [if_neg hv]
    simp [push]

theorem mem_worklist_pushIfNotVisited_self (w : BasicBlockWorklist) (b : SILBasicBlock)
    (h : w.Consistent) : b ∈ (w.pushIfNotVisited b).worklist := by
  rw [mem_worklist_pushIfNotVisited]
  by_cases hv : b ∈ w.visited
  · exact Or.inl ((h.1 b).1 hv)
  · exact Or.inr ⟨rfl, hv⟩

theorem popAndForget_cons (w : BasicBlockWorklist) (b : SILBasicBlock)
    (rest : List SILBasicBlock) (hw : w.worklist = b :: rest) :
    w.popAndForget =
      some (b, { worklist := rest, visited := w.visited.filter (fun x => x != b) }) := by
  simp [popAndForget, hw]

theorem consistent_popAndForget (w : BasicBlockWorklist) (b : SILBasicBlock)
    (rest : List SILBasicBlock) (hw : w.worklist = b :: rest) (h : w.Consistent) :
    Consistent { worklist := rest, visited := w.visited.filter (fun x => x != b) } := by
  obtain ⟨h1, h2⟩ := h
  rw [hw] at h2
  obtain ⟨hb, hnd⟩ := List.nodup_cons.1 h2
  refine ⟨fun x => ?_, hnd⟩
  simp only [List.mem_filter, h1, hw, List.mem_cons, bne_iff_ne, ne_eq]
  constructor
  · rintro ⟨h3 | h3, h4⟩
    · exact absurd h3 h4
    · exact h3
  · intro h3
    exact ⟨Or.inr h3, fun hc => hb (hc ▸ h3)⟩

end BasicBlockWorklist

namespace AvailabilityBoundaryVisitor

theorem pushSuccessors_spec :
    ∀ (l : List SILBasicBlock) (w : BasicBlockWorklist), w.Consistent →
      (pushSuccessors l w).Consistent ∧
      (∀ x ∈ w.worklist, x ∈ (pushSuccessors l w).worklist) ∧
      (∀ x ∈ l, x ∈ (pushSuccessors l w).worklist) ∧
      (pushSuccessors l w).worklist.length ≤ w.worklist.length + l.length
  | [], w, h => by simp [pushSuccessors, h]
  | s :: rest, w, h => by
    obtain ⟨i1, i2, i3, i4⟩ := pushSuccessors_spec rest (w.pushIfNotVisited s)
      (BasicBlockWorklist.consistent_pushIfNotVisited w s h)
    simp only [pushSuccessors]
    refine ⟨i1, ?_, ?_, ?_⟩
    · intro x hx
      exact i2 x ((BasicBlockWorklist.mem_worklist_pushIfNotVisited w s x).2 (Or.inl hx))
    · intro x hx
      rcases List.mem_cons.1 hx with hxs | hxs
      · subst hxs
        exact i2 x (BasicBlockWorklist.mem_worklist_pushIfNotVisited_self w x h)
      · exact i3 x hxs
    · have := BasicBlockWorklist.length_pushIfNotVisited_le w s
      simp only [List.length_cons]
      omega

theorem propagateSeed_spec (starts : List SILBasicBlock) :
    ∀ (l : List SILBasicBlock) (w : BasicBlockWorklist), w.Consistent →
      (∀ b ∈ l, b ∉ w.worklist) → l.Nodup →
      (propagateSeed starts l w).Consistent ∧
      (∀ x, x ∈ (propagateSeed starts l w).worklist ↔
        x ∈ w.worklist ∨ (x ∈ l ∧ x ∉ starts))
  | [], w, h, _, _ => by simp [propagateSeed, h]
  | b :: rest, w, h, hdisj, hnd => by
    obtain ⟨hb, hnd2⟩ := List.nodup_cons.1 hnd
    rw [propagateSeed]
    by_cases hs : b ∈ starts
    · have e : starts.contains b = true := by simpa using hs
      simp only [e, if_true]
      obtain ⟨i1, i2⟩ := propagateSeed_spec starts rest w h
        (fun x hx => hdisj x (List.mem_cons_of_mem _ hx)) hnd2
      refine ⟨i1, fun x => ?_⟩
      rw [i2, List.mem_cons]
      constructor
      · rintro (hx | ⟨hx, hx2⟩)
        · exact Or.inl hx
        · exact Or.inr ⟨Or.inr hx, hx2⟩
      · rintro (hx | ⟨hx | hx, hx2⟩)
        · exact Or.inl hx
        · exact absurd (hx ▸ hs) hx2
        · exact Or.inr ⟨hx, hx2⟩
    · have e : starts.contains b = false := by simpa using hs
      simp only [e, Bool.false_eq_true, if_false]
      obtain ⟨i1, i2⟩ := propagateSeed_spec starts rest (w.push b)
        (BasicBlockWorklist.consistent_push w b h (hdisj b (List.mem_cons_self _ _)))
        (by
          intro x hx
          rw [BasicBlockWorklist.mem_worklist_push]
          rintro (hc | hc)
          · exact hb (hc ▸ hx)
          · exact hdisj x (List.mem_cons_of_mem _ hx) hc)
        hnd2
      refine ⟨i1, fun x => ?_⟩
      rw [i2, BasicBlockWorklist.mem_worklist_push, List.mem_cons]
      constructor
      · rintro ((hx | hx) | ⟨hx, hx2⟩)
        · exact Or.inr ⟨Or.inl hx, fun hc => hs (hx ▸ hc)⟩
        · exact Or.inl hx
        · exact Or.inr ⟨Or.inr hx, hx2⟩
      · rintro (hx | ⟨hx | hx, hx2⟩)
        · exact Or.inl (Or.inr hx)
        · exact Or.inl (Or.inl hx)
        · exact Or.inr ⟨hx, hx2⟩

theorem propagateInit_spec (starts : List SILBasicBlock) (b : SILBasicBlock) :
    ∀ (l : List SILBasicBlock) (r : Result),
      (propagateInit starts l r).getState b =
        if b ∈ l then (if b ∈ starts then State.Available else State.Unknown)
        else r.getState b
  | [], r => by simp [propagateInit]
  | x :: rest, r => by
    rw [propagateInit, propagateInit_spec starts b rest]
    by_cases hb : b ∈ rest
    · simp [hb]
    · simp only [hb, if_false, List.mem_cons, or_false]
      by_cases hx : b = x
      · subst hx
        by_cases hs : b ∈ starts
        · have e : starts.contains b = true := by simpa using hs
          simp [e, hs, Result.getState_setState]
        · have e : starts.contains b = false := by simpa using hs
          simp [e, hs, Result.getState_setState]
      · by_cases hs : x ∈ starts
        · have e : starts.contains x = true := by simpa using hs
          simp only [e, if_true, Result.getState_setState, if_neg hx]
        · have e : starts.contains x = false := by simpa using hs
          simp only [e, Bool.false_eq_true, if_false, Result.getState_setState, if_neg hx]

end AvailabilityBoundaryVisitor

namespace AvailabilityBoundaryVisitor

theorem meetPredecessors_setState_le (f : SILFunction) (r : Result) (block : SILBasicBlock)
    (s : State) (hs : s.toNat ≤ (r.getState block).toNat) (b : SILBasicBlock) :
    (meetPredecessors f (r.setState block s) b).toNat ≤ (meetPredecessors f r b).toNat := by
  apply le_meetPredecessors
  · exact State.toNat_le_two _
  · intro p hp
    have h1 := meetPredecessors_le_mem f (r.setState block s) b p hp
    rw [Result.getState_setState] at h1
    by_cases hpb : p = block
    · rw [if_pos hpb] at h1
      rw [hpb]
      omega
    · rw [if_neg hpb] at h1
      exact h1

theorem meetPredecessors_setState_eq (f : SILFunction) (r : Result) (block : SILBasicBlock)
    (s : State) (b : SILBasicBlock) (hb : block ∉ f.getPredecessorBlocks b) :
    meetPredecessors f (r.setState block s) b = meetPredecessors f r b := by
  unfold meetPredecessors
  apply foldl_meet_congr
  intro p hp
  rw [Result.getState_setState, if_neg]
  intro hc
  exact hb (hc ▸ hp)

/-- One iteration of the worklist loop that skips the popped block. -/
theorem PropagateInv.skip {self : AvailabilityBoundaryVisitor} {f : SILFunction}
    {worklist : BasicBlockWorklist} {result : Result} {block : SILBasicBlock}
    {rest : List SILBasicBlock} (hw : worklist.worklist = block :: rest)
    (inv : PropagateInv self f worklist result)
    (hskip : block ∉ self.region ∨ block ∈ self.starts) :
    PropagateInv self f
      { worklist := rest, visited := worklist.visited.filter (fun x => x != block) }
      result where
  consistent := BasicBlockWorklist.consistent_popAndForget worklist block rest hw inv.consistent
  atStarts := inv.atStarts
  outside := inv.outside
  above := inv.above
  pending := by
    intro b hb hbs
    rcases inv.pending b hb hbs with h | h
    · rw [hw] at h
      rcases List.mem_cons.1 h with h2 | h2
      · subst h2
        rcases hskip with h3 | h3
        · exact absurd hb h3
        · exact absurd h3 hbs
      · exact Or.inl h2
    · exact Or.inr h

/-- One iteration of the worklist loop in which `updateState` reports no
change. -/
theorem PropagateInv.unchanged {self : AvailabilityBoundaryVisitor} {f : SILFunction}
    {worklist : BasicBlockWorklist} {result : Result} {block : SILBasicBlock}
    {rest : List SILBasicBlock} (hw : worklist.worklist = block :: rest)
    (inv : PropagateInv self f worklist result)
    (hsame : (f.getPredecessorBlocks block).foldl
        (fun state p => state.meet (result.getState p)) (result.getState block) =
      result.getState block) :
    PropagateInv self f
      { worklist := rest, visited := worklist.visited.filter (fun x => x != block) }
      result where
  consistent := BasicBlockWorklist.consistent_popAndForget worklist block rest hw inv.consistent
  atStarts := inv.atStarts
  outside := inv.outside
  above := inv.above
  pending := by
    intro b hb hbs
    rcases inv.pending b hb hbs with h | h
    · rw [hw] at h
      rcases List.mem_cons.1 h with h2 | h2
      · subst h2
        refine Or.inr ?_
        apply le_meetPredecessors
        · exact State.toNat_le_two _
        · intro p hp
          have := foldl_meet_le_mem result.getState (f.getPredecessorBlocks b)
            (result.getState b) p hp
          rw [hsame] at this
          exact this
      · exact Or.inl h2
    · exact Or.inr h

/-- One iteration of the worklist loop in which the state of the popped block
changes and its successors are pushed. -/
theorem PropagateInv.changed {self : AvailabilityBoundaryVisitor} {f : SILFunction}
    (hpred : f.PredecessorsInverse)
    {worklist : BasicBlockWorklist} {result : Result} {block : SILBasicBlock}
    {rest : List SILBasicBlock} (hw : worklist.worklist = block :: rest)
    (inv : PropagateInv self f worklist result)
    (hreg : block ∈ self.region) (hns : block ∉ self.starts) :
    PropagateInv self f
      (pushSuccessors (f.getSuccessorBlocks block)
        { worklist := rest, visited := worklist.visited.filter (fun x => x != block) })
      (result.updateState f block).1 := by
  have hc1 := BasicBlockWorklist.consistent_popAndForget worklist block rest hw inv.consistent
  obtain ⟨p1, p2, p3, _⟩ := pushSuccessors_spec (f.getSuccessorBlocks block) _ hc1
  have hle : ((f.getPredecessorBlocks block).foldl
      (fun state p => state.meet (result.getState p)) (result.getState block)).toNat ≤
      (result.getState block).toNat := foldl_meet_le_init result.getState _ _
  rw [Result.updateState_fst]
  refine ⟨p1, ?_, ?_, ?_, ?_⟩
  · intro b hb
    rw [Result.getState_setState, if_neg (fun (hc : b = block) => hns (hc ▸ hb))]
    exact inv.atStarts b hb
  · intro b hb
    rw [Result.getState_setState, if_neg (fun (hc : b = block) => hb (hc ▸ hreg))]
    exact inv.outside b hb
  · intro b hb hbs
    have hmono := meetPredecessors_setState_le f result block _ hle b
    rw [Result.getState_setState]
    by_cases hbb : b = block
    · rw [if_pos hbb]
      subst hbb
      have habove := inv.above b hb hbs
      refine le_trans hmono ?_
      rcases foldl_meet_eq result.getState (f.getPredecessorBlocks b) (result.getState b) with
        h | ⟨p, hp, h⟩
      · rw [h]
        exact habove
      · rw [h]
        exact meetPredecessors_le_mem f result b p hp
    · rw [if_neg hbb]
      have := inv.above b hb hbs
      omega
  · intro b hb hbs
    by_cases hbb : b = block
    · subst hbb
      refine Or.inr ?_
      rw [Result.getState_setState, if_pos rfl]
      apply le_meetPredecessors
      · exact State.toNat_le_two _
      · intro p hp
        rw [Result.getState_setState]
        by_cases hpb : p = b
        · rw [if_pos hpb]
        · rw [if_neg hpb]
          exact foldl_meet_le_mem result.getState _ _ p hp
    · by_cases hbp : block ∈ f.getPredecessorBlocks b
      · exact Or.inl (p3 b ((hpred block b).1 hbp))
      · rcases inv.pending b hb hbs with h | h
        · rw [hw] at h
          rcases List.mem_cons.1 h with h2 | h2
          · exact absurd h2 hbb
          · exact Or.inl (p2 b h2)
        · refine Or.inr ?_
          rw [Result.getState_setState, if_neg hbb,
            meetPredecessors_setState_eq f result block _ b hbp]
          exact h

/-- The worklist loop returns within the fuel that its potential demands, and
its result satisfies the invariant with nothing pending; no state is raised. -/
theorem propagateLoop_spec (self : AvailabilityBoundaryVisitor) (f : SILFunction)
    (hpred : f.PredecessorsInverse) :
    ∀ (fuel : Nat) (worklist : BasicBlockWorklist) (result : Result),
      worklist.worklist.length + potential f result self.region < fuel →
      PropagateInv self f worklist result →
      ∃ result1, propagateLoop self f fuel worklist result = some result1 ∧
        PropagateInv self f {} result1 ∧
        ∀ b, (result1.getState b).toNat ≤ (result.getState b).toNat
  | 0, _, _, hm, _ => by omega
  | fuel + 1, worklist, result, hm, inv => by
    cases hw : worklist.worklist with
    | nil =>
      refine ⟨result, ?_, ?_, fun b => le_refl _⟩
      · simp [propagateLoop, BasicBlockWorklist.popAndForget, hw]
      · refine ⟨⟨fun b => by simp, List.nodup_nil⟩, inv.atStarts, inv.outside, inv.above, ?_⟩
        intro b hb hbs
        rcases inv.pending b hb hbs with h | h
        · rw [hw] at h
          exact absurd h (List.not_mem_nil b)
        · exact Or.inr h
    | cons block rest =>
      have hpop := BasicBlockWorklist.popAndForget_cons worklist block rest hw
      rw [hw] at hm
      simp only [List.length_cons] at hm
      by_cases hskip : block ∉ self.region ∨ block ∈ self.starts
      · have hcond : (!self.region.contains block || self.starts.contains block) = true := by
          rcases hskip with h | h
          · have e : self.region.contains block = false := by simpa using h
            rw [e]
            rfl
          · have e : self.starts.contains block = true := by simpa using h
            rw [e, Bool.or_true]
        obtain ⟨r1, hrun, hinv, hmono⟩ := propagateLoop_spec self f hpred fuel _ result
          (by simp only; omega) (PropagateInv.skip hw inv hskip)
        refine ⟨r1, ?_, hinv, hmono⟩
        simp only [propagateLoop, hpop, hcond, if_true]
        exact hrun
      · rw [not_or, not_not] at hskip
        obtain ⟨hreg, hns⟩ := hskip
        have hcond : (!self.region.contains block || self.starts.contains block) = false := by
          have e1 : self.region.contains block = true := by simpa using hreg
          have e2 : self.starts.contains block = false := by simpa using hns
          rw [e1, e2]
          rfl
        by_cases hch : (result.updateState f block).2 = true
        · have hne := (Result.updateState_snd f result block).1 hch
          have hlt : ((f.getPredecessorBlocks block).foldl
              (fun state p => state.meet (result.getState p)) (result.getState block)).toNat <
              (result.getState block).toNat := by
            have hle := foldl_meet_le_init result.getState (f.getPredecessorBlocks block)
              (result.getState block)
            rcases Nat.lt_or_ge
              ((f.getPredecessorBlocks block).foldl
                (fun state p => state.meet (result.getState p)) (result.getState block)).toNat
              (result.getState block).toNat with h | h
            · exact h
            · exact absurd (State.toNat_injective _ _ (Nat.le_antisymm hle h)) hne
          have hpot := (potential_setState f result block _ hlt self.region).2 hreg
          have hc1 := BasicBlockWorklist.consistent_popAndForget worklist block rest hw
            inv.consistent
          obtain ⟨_, _, _, p4⟩ := pushSuccessors_spec (f.getSuccessorBlocks block) _ hc1
          simp only at p4
          obtain ⟨r1, hrun, hinv, hmono⟩ := propagateLoop_spec self f hpred fuel _
            (result.updateState f block).1
            (by
              rw [Result.updateState_fst]
              omega)
            (PropagateInv.changed hpred hw inv hreg hns)
          refine ⟨r1, ?_, hinv, ?_⟩
          · simp only [propagateLoop, hpop, hcond, hch]
            exact hrun
          · intro b
            have h1 := hmono b
            rw [Result.updateState_fst, Result.getState_setState] at h1
            by_cases hbb : b = block
            · rw [if_pos hbb] at h1
              rw [hbb] at h1 ⊢
              omega
            · rw [if_neg hbb] at h1
              exact h1
        · have hsame : (f.getPredecessorBlocks block).foldl
              (fun state p => state.meet (result.getState p)) (result.getState block) =
              result.getState block := by
            by_contra hc
            exact hch ((Result.updateState_snd f result block).2 hc)
          have hres : (result.updateState f block).1 = result := by
            rw [Result.updateState_fst, hsame, Result.setState_getState_self]
          obtain ⟨r1, hrun, hinv, hmono⟩ := propagateLoop_spec self f hpred fuel _ result
            (by simp only; omega) (PropagateInv.unchanged hw inv hsame)
          refine ⟨r1, ?_, hinv, hmono⟩
          have hch2 : (result.updateState f block).2 = false := by
            simpa using hch
          simp only [propagateLoop, hpop, hcond, hch2, hres]
          exact hrun

end AvailabilityBoundaryVisitor

namespace AvailabilityBoundaryVisitor

/-- On a new `Result`, `propagateAvailablity` returns, and what it returns
satisfies the loop invariant with an empty worklist. -/
theorem propagateAvailablity_run (self : AvailabilityBoundaryVisitor) (f : SILFunction)
    (hpred : f.PredecessorsInverse) (hsub : ∀ s ∈ self.starts, s ∈ self.region)
    (hnd : self.region.Nodup) :
    ∃ result, self.propagateAvailablity f Result.fresh = some result ∧
      PropagateInv self f {} result := by
  have hinit : ∀ b, (propagateInit self.starts self.region Result.fresh).getState b =
      if b ∈ self.region then (if b ∈ self.starts then State.Available else State.Unknown)
      else State.Unavailable := by
    intro b
    rw [propagateInit_spec]
    rfl
  obtain ⟨s1, s2⟩ := propagateSeed_spec self.starts self.region {}
    ⟨fun b => by simp, List.nodup_nil⟩ (fun b _ => List.not_mem_nil b) hnd
  have hpot := potential_le f (propagateInit self.starts self.region Result.fresh) self.region
  obtain ⟨result, hrun, hinv, _⟩ := propagateLoop_spec self f hpred
    ((propagateSeed self.starts self.region {}).worklist.length +
      2 * successorCount f self.region + 1)
    (propagateSeed self.starts self.region {})
    (propagateInit self.starts self.region Result.fresh)
    (by omega)
    { consistent := s1
      atStarts := by
        intro b hb
        rw [hinit, if_pos (hsub b hb), if_pos hb]
      outside := by
        intro b hb
        rw [hinit, if_neg hb]
      above := by
        intro b hb hbs
        rw [hinit, if_pos hb, if_neg hbs]
        exact State.toNat_le_two _
      pending := by
        intro b hb hbs
        exact Or.inl ((s2 b).2 (Or.inr ⟨hb, hbs⟩)) }
  exact ⟨result, hrun, hinv⟩

/-- C2: on a control-flow graph whose predecessor lists are the inverse of its
successor lists, for a region that is the forward closure of `starts` (a set
vector: no block twice), `propagateAvailablity` on a new `Result` returns a
result in which every start block is Available, every block outside the
region is Unavailable, and the state of every other region block is the meet
of the final states of all its predecessors. -/
theorem propagateAvailablity_spec (self : AvailabilityBoundaryVisitor) (f : SILFunction)
    (hpred : f.PredecessorsInverse)
    (hclosure : f.IsForwardClosure self.starts self.region)
    (hnd : self.region.Nodup) :
    ∃ result, self.propagateAvailablity f Result.fresh = some result ∧
      (∀ b ∈ self.starts, result.getState b = State.Available) ∧
      (∀ b, b ∉ self.region → result.getState b = State.Unavailable) ∧
      (∀ b ∈ self.region, b ∉ self.starts →
        result.getState b = meetPredecessors f result b) := by
  have hsub : ∀ s ∈ self.starts, s ∈ self.region :=
    fun s hs => (hclosure s).2 ⟨s, hs, Relation.ReflTransGen.refl⟩
  obtain ⟨result, hrun, hinv⟩ := propagateAvailablity_run self f hpred hsub hnd
  refine ⟨result, hrun, hinv.atStarts, hinv.outside, ?_⟩
  intro b hb hbs
  apply State.toNat_injective
  have h1 := hinv.above b hb hbs
  rcases hinv.pending b hb hbs with h2 | h2
  · exact absurd h2 (List.not_mem_nil b)
  · omega

end AvailabilityBoundaryVisitor

namespace AvailabilityBoundaryVisitor

theorem length_pushSuccessors_le :
    ∀ (l : List SILBasicBlock) (w : BasicBlockWorklist),
      (pushSuccessors l w).worklist.length ≤ w.worklist.length + l.length
  | [], w => by simp [pushSuccessors]
  | s :: rest, w => by
    have ih := length_pushSuccessors_le rest (w.pushIfNotVisited s)
    have := BasicBlockWorklist.length_pushIfNotVisited_le w s
    simp only [pushSuccessors, List.length_cons]
    omega

/-- The worklist loop of `propagateAvailablity` returns once its fuel exceeds
the length of the worklist plus the potential of the region, for every
control-flow graph, region and set of start blocks. -/
theorem propagateLoop_terminates (self : AvailabilityBoundaryVisitor) (f : SILFunction) :
    ∀ (fuel : Nat) (worklist : BasicBlockWorklist) (result : Result),
      worklist.worklist.length + potential f result self.region < fuel →
      ∃ result1, propagateLoop self f fuel worklist result = some result1
  | 0, _, _, hm => by omega
  | fuel + 1, worklist, result, hm => by
    cases hw : worklist.worklist with
    | nil =>
      exact ⟨result, by simp [propagateLoop, BasicBlockWorklist.popAndForget, hw]⟩
    | cons block rest =>
      have hpop := BasicBlockWorklist.popAndForget_cons worklist block rest hw
      rw [hw] at hm
      simp only [List.length_cons] at hm
      simp only [propagateLoop, hpop]
      by_cases hcond : (!self.region.contains block || self.starts.contains block) = true
      · rw [if_pos hcond]
        exact propagateLoop_terminates self f fuel _ result (by simp only; omega)
      · rw [if_neg hcond]
        have hreg : block ∈ self.region := by
          by_contra hc
          have e : self.region.contains block = false := by simpa using hc
          rw [e] at hcond
          exact hcond rfl
        by_cases hch : (result.updateState f block).2 = true
        · have hne := (Result.updateState_snd f result block).1 hch
          have hlt : ((f.getPredecessorBlocks block).foldl
              (fun state p => state.meet (result.getState p)) (result.getState block)).toNat <
              (result.getState block).toNat := by
            have hle := foldl_meet_le_init result.getState (f.getPredecessorBlocks block)
              (result.getState block)
            rcases Nat.lt_or_ge
              ((f.getPredecessorBlocks block).foldl
                (fun state p => state.meet (result.getState p)) (result.getState block)).toNat
              (result.getState block).toNat with h | h
            · exact h
            · exact absurd (State.toNat_injective _ _ (Nat.le_antisymm hle h)) hne
          have hpot := (potential_setState f result block _ hlt self.region).2 hreg
          have hlen := length_pushSuccessors_le (f.getSuccessorBlocks block)
            { worklist := rest, visited := worklist.visited.filter (fun x => x != block) }
          simp only at hlen
          simp only [hch, Bool.not_true, Bool.false_eq_true, if_false]
          exact propagateLoop_terminates self f fuel _ _
            (by
              rw [Result.updateState_fst]
              omega)
        · have hsame : (f.getPredecessorBlocks block).foldl
              (fun state p => state.meet (result.getState p)) (result.getState block) =
              result.getState block := by
            by_contra hc
            exact hch ((Result.updateState_snd f result block).2 hc)
          have hres : (result.updateState f block).1 = result := by
            rw [Result.updateState_fst, hsame, Result.setState_getState_self]
          have hch2 : (result.updateState f block).2 = false := by
            simpa using hch
          simp only [hch2, Bool.not_false, if_true, hres]
          exact propagateLoop_terminates self f fuel _ result (by simp only; omega)

/-- `propagateAvailablity` returns for every control-flow graph, region, set
of start blocks and initial result. -/
theorem propagateAvailablity_terminates (self : AvailabilityBoundaryVisitor)
    (f : SILFunction) (result : Result) :
    ∃ result1, self.propagateAvailablity f result = some result1 := by
  have hpot := potential_le f (propagateInit self.starts self.region result) self.region
  exact propagateLoop_terminates self f _ _ _ (by omega)

/-- On a function with finitely many blocks, `visit` returns its calls: those
of `visitAvailabilityBoundary` on the computed region and states. -/
theorem visit_run (value : SILValue) (f : SILFunction) (liveness : SSAPrunedLiveness)
    (result : Result) (hfin : f.SuccessorsInFunction) :
    ∃ (v : AvailabilityBoundaryVisitor) (result1 : Result),
      computeRegion { value := value } f liveness = some v ∧
      v.propagateAvailablity f result = some result1 ∧
      visit { value := value } f liveness result =
        some (v.visitAvailabilityBoundary f result1) := by
  obtain ⟨v, hv, _⟩ := computeRegion_run value f liveness hfin
  obtain ⟨result1, hr⟩ := propagateAvailablity_terminates v f result
  refine ⟨v, result1, hv, hr, ?_⟩
  simp only [visit, hv, hr]

end AvailabilityBoundaryVisitor

/-! ## Facts about the example functions -/

namespace Examples

theorem mem_successorsOf (edges : List (SILBasicBlock × SILBasicBlock))
    (a b : SILBasicBlock) : b ∈ successorsOf edges a ↔ (a, b) ∈ edges := by
  unfold successorsOf
  simp only [List.mem_map, List.mem_filter, beq_iff_eq]
  constructor
  · rintro ⟨⟨x, y⟩, ⟨hmem, hx⟩, hy⟩
    simp only at hx hy
    subst hx
    subst hy
    exact hmem
  · intro h
    exact ⟨(a, b), ⟨h, rfl⟩, rfl⟩

theorem mem_predecessorsOf (edges : List (SILBasicBlock × SILBasicBlock))
    (a b : SILBasicBlock) : a ∈ predecessorsOf edges b ↔ (a, b) ∈ edges := by
  unfold predecessorsOf
  simp only [List.mem_map, List.mem_filter, beq_iff_eq]
  constructor
  · rintro ⟨⟨x, y⟩, ⟨hmem, hy⟩, hx⟩
    simp only at hx hy
    subst hx
    subst hy
    exact hmem
  · intro h
    exact ⟨(a, b), ⟨h, rfl⟩, rfl⟩

theorem diamond_successorsInFunction : diamond.SuccessorsInFunction := by
  intro b s hs
  have h : (b, s) ∈ diamondEdges := (mem_successorsOf diamondEdges b s).1 hs
  have hall : ∀ e ∈ diamondEdges, e.2 ∈ diamond.blocks := by decide
  exact hall (b, s) h

theorem diamond_predecessorsInverse : diamond.PredecessorsInverse := by
  intro a b
  show a ∈ predecessorsOf diamondEdges b ↔ b ∈ successorsOf diamondEdges a
  rw [mem_predecessorsOf, mem_successorsOf]

theorem diamond_terminator_injective : Function.Injective diamond.getTerminator := by
  intro a b h
  have h2 : 10 * a + 2 = 10 * b + 2 := h
  exact Nat.eq_of_mul_eq_mul_left (by decide : 0 < 10) (Nat.add_right_cancel h2)

theorem diamond_computeRegion :
    AvailabilityBoundaryVisitor.computeRegion { value := 0 } diamond diamondUsedRight =
      some diamondVisitor := by
  rfl

theorem diamondVisitor_closure :
    diamond.IsForwardClosure diamondVisitor.starts diamondVisitor.region := by
  obtain ⟨v, hv, _, _, hclosure, _⟩ :=
    AvailabilityBoundaryVisitor.computeRegion_run 0 diamond diamondUsedRight
      diamond_successorsInFunction
  rw [diamond_computeRegion] at hv
  cases hv
  exact hclosure

end Examples

namespace AvailabilityBoundaryVisitor

/-- Witness of C1 on the diamond: the terminator of `merge` is visited once. -/
theorem visitAvailabilityBoundary_spec_witness :
    Examples.diamondVisitor.region.Nodup ∧
    Function.Injective Examples.diamond.getTerminator ∧
    List.count (Examples.diamond.getTerminator 3, LifetimeEnd.Boundary)
      (Examples.diamondVisitor.visitAvailabilityBoundary Examples.diamond
        Examples.diamondResult) = 1 :=
  ⟨by decide, Examples.diamond_terminator_injective,
    (visitAvailabilityBoundary_spec Examples.diamond Examples.diamondVisitor
      Examples.diamondResult (by decide) Examples.diamond_terminator_injective).2.1 3
      (by decide)⟩

/-- Witness of C2 on the diamond, with the region computed for a value used
only in `right`. -/
theorem propagateAvailablity_spec_witness :
    Examples.diamond.PredecessorsInverse ∧
    Examples.diamond.IsForwardClosure Examples.diamondVisitor.starts
      Examples.diamondVisitor.region ∧
    Examples.diamondVisitor.region.Nodup ∧
    ∃ result, Examples.diamondVisitor.propagateAvailablity Examples.diamond Result.fresh =
        some result ∧
      (∀ b ∈ Examples.diamondVisitor.starts, result.getState b = State.Available) ∧
      (∀ b, b ∉ Examples.diamondVisitor.region → result.getState b = State.Unavailable) ∧
      (∀ b ∈ Examples.diamondVisitor.region, b ∉ Examples.diamondVisitor.starts →
        result.getState b = meetPredecessors Examples.diamond result b) :=
  ⟨Examples.diamond_predecessorsInverse, Examples.diamondVisitor_closure, by decide,
    propagateAvailablity_spec Examples.diamondVisitor Examples.diamond
      Examples.diamond_predecessorsInverse Examples.diamondVisitor_closure (by decide)⟩

/-- Witness of C3 on the diamond, for a value used only in `right`. -/
theorem computeRegion_spec_witness :
    Examples.diamond.SuccessorsInFunction ∧
    ∃ v : AvailabilityBoundaryVisitor,
      computeRegion { value := 0 } Examples.diamond Examples.diamondUsedRight = some v ∧
      (∀ b, b ∈ v.starts ↔
        ((b ∈ Examples.diamondUsedRight.blockBoundary.endBlocks ∧
            ¬ ∃ u ∈ Examples.diamondUsedRight.users,
              u.2 = true ∧ Examples.diamond.getParent u.1 = b) ∨
          b ∈ Examples.diamondUsedRight.blockBoundary.boundaryEdges)) ∧
      (∀ b, b ∈ v.region ↔ ∃ s ∈ v.starts, Examples.diamond.Reachable s b) ∧
      (∀ s ∈ v.starts, s ∈ v.region) ∧
      (∀ b ∈ v.region, ∀ s ∈ Examples.diamond.getSuccessorBlocks b, s ∈ v.region) :=
  ⟨Examples.diamond_successorsInFunction,
    computeRegion_spec 0 Examples.diamond Examples.diamondUsedRight
      Examples.diamond_successorsInFunction⟩

end AvailabilityBoundaryVisitor

/-! ## Completion at the liveness boundary -/

theorem endAtBuilders_insertions (f : SILFunction) (value : SILValue) :
    ∀ (builders : List InsertionPoint) (c : Completion),
      (endAtBuilders f value builders c).insertions =
        c.insertions ++ builders.map (boundaryInsertion f value)
  | [], c => by simp [endAtBuilders]
  | builder :: rest, c => by
    rw [endAtBuilders, endAtBuilders_insertions f value rest]
    simp [Completion.insert, boundaryInsertion]

theorem endAtBuilders_flag (f : SILFunction) (value : SILValue) :
    ∀ (builders : List InsertionPoint) (c : Completion),
      (endAtBuilders f value builders c).changed = c.changed
  | [], _ => rfl
  | builder :: rest, c => by
    rw [endAtBuilders, endAtBuilders_flag f value rest]
    rfl

/-- The positions of `insertAfter`, with the lifetime end built at each. -/
theorem insertAfter_insertions (f : SILFunction) (value : SILValue)
    (lastUser : SILInstruction) :
    (insertAfter f lastUser).map (boundaryInsertion f value) =
      lastUserInsertions f value lastUser := by
  unfold insertAfter lastUserInsertions
  split
  · rw [List.map_map]
    rfl
  · rfl

theorem endAtLastUsers_insertions (f : SILFunction) (value : SILValue)
    (liveness : SSAPrunedLiveness) :
    ∀ (lastUsers : List SILInstruction) (c : Completion),
      (endAtLastUsers f value liveness lastUsers c).insertions =
        c.insertions ++
          (lastUsers.filter (fun lastUser =>
              liveness.isInterestingUser lastUser != IsInterestingUser.LifetimeEndingUse)).flatMap
            (lastUserInsertions f value)
  | [], c => by simp [endAtLastUsers]
  | lastUser :: rest, c => by
    rw [endAtLastUsers, endAtLastUsers_insertions f value liveness rest]
    by_cases h : (liveness.isInterestingUser lastUser != IsInterestingUser.LifetimeEndingUse)
        = true
    · rw [if_pos h, endAtBuilders_insertions, insertAfter_insertions]
      simp only [List.filter_cons, h, if_true, List.flatMap_cons, List.append_assoc]
    · rw [if_neg h]
      simp only [List.filter_cons, h, Bool.false_eq_true, if_false]

theorem endAtBoundaryEdges_insertions (f : SILFunction) (value : SILValue) :
    ∀ (edges : List SILBasicBlock) (c : Completion),
      (endAtBoundaryEdges f value edges c).insertions =
        c.insertions ++
          edges.map (fun edge => boundaryInsertion f value (InsertionPoint.blockBegin edge))
  | [], c => by simp [endAtBoundaryEdges]
  | edge :: rest, c => by
    rw [endAtBoundaryEdges, endAtBoundaryEdges_insertions f value rest]
    simp [Completion.insert, boundaryInsertion]

theorem endAtDeadDefs_insertions (f : SILFunction) (value : SILValue) :
    ∀ (deadDefs : List SILNode) (c : Completion),
      (endAtDeadDefs f value deadDefs c).insertions =
        c.insertions ++
          deadDefs.map (fun deadDef =>
            boundaryInsertion f value (InsertionPoint.before (nextOfDeadDef f deadDef)))
  | [], c => by simp [endAtDeadDefs]
  | deadDef :: rest, c => by
    rw [endAtDeadDefs, endAtDeadDefs_insertions f value rest]
    simp [Completion.insert, boundaryInsertion]

/-- The insertions of `endLifetimeAtLivenessBoundary`, in order. -/
theorem endLifetimeAtLivenessBoundary_insertions (f : SILFunction) (value : SILValue)
    (liveness : SSAPrunedLiveness) :
    (endLifetimeAtLivenessBoundary f value liveness).insertions =
      (liveness.boundary.lastUsers.filter (fun lastUser =>
          liveness.isInterestingUser lastUser != IsInterestingUser.LifetimeEndingUse)).flatMap
        (lastUserInsertions f value) ++
      liveness.boundary.boundaryEdges.map
        (fun edge => boundaryInsertion f value (InsertionPoint.blockBegin edge)) ++
      liveness.boundary.deadDefs.map (fun deadDef =>
        boundaryInsertion f value (InsertionPoint.before (nextOfDeadDef f deadDef))) := by
  simp only [endLifetimeAtLivenessBoundary, endAtDeadDefs_insertions,
    endAtBoundaryEdges_insertions, endAtLastUsers_insertions, List.nil_append]

/-- C5, as amended: the insertions of `endLifetimeAtLivenessBoundary` are, in
this order and nothing else: for each `lastUser` that is not a lifetime-ending
use, one Boundary lifetime end right after it when it is not a terminator, and
one at the beginning of each successor of its block when it is a terminator
(none for a lifetime-ending `lastUser`); one at the beginning of each block of
`boundaryEdges`; and one in front of the instruction that follows each
`deadDef`.  In particular, for an owned value whose boundary is the single dead
definition `def` (a value defined and never used), the only insertion is one
destroy (a dealloc-box for a box) right after `def`. -/
theorem endLifetimeAtLivenessBoundary_spec (f : SILFunction) (value : SILValue)
    (liveness : SSAPrunedLiveness) :
    (endLifetimeAtLivenessBoundary f value liveness).insertions =
      (liveness.boundary.lastUsers.filter (fun lastUser =>
          liveness.isInterestingUser lastUser != IsInterestingUser.LifetimeEndingUse)).flatMap
        (fun lastUser =>
          if f.isTermInst lastUser then
            (f.getSuccessorBlocks (f.getParent lastUser)).map (fun succBlock =>
              boundaryInsertion f value (InsertionPoint.blockBegin succBlock))
          else
            [boundaryInsertion f value (InsertionPoint.after lastUser)]) ++
      liveness.boundary.boundaryEdges.map
        (fun edge => boundaryInsertion f value (InsertionPoint.blockBegin edge)) ++
      liveness.boundary.deadDefs.map (fun deadDef =>
        boundaryInsertion f value (InsertionPoint.before (nextOfDeadDef f deadDef))) ∧
    (∀ lastUser ∈ liveness.boundary.lastUsers,
      liveness.isInterestingUser lastUser = IsInterestingUser.LifetimeEndingUse →
      ∀ ins ∈ (endLifetimeAtLivenessBoundary f value liveness).insertions,
        ins.point ≠ InsertionPoint.after lastUser) ∧
    (∀ deadInst : SILInstruction,
      liveness.boundary.lastUsers = [] → liveness.boundary.boundaryEdges = [] →
      liveness.boundary.deadDefs = [SILNode.instruction deadInst] →
      f.getOwnershipKind value = OwnershipKind.Owned →
      (endLifetimeAtLivenessBoundary f value liveness).insertions =
        [{ point := InsertionPoint.before (f.getNextInstruction deadInst),
           inst :=
            if f.isBoxType value then
              CreatedInst.DeallocBox value
                (f.isDeadEnd (f.getParent (f.getNextInstruction deadInst)))
            else
              CreatedInst.DestroyValue value
                (f.isDeadEnd (f.getParent (f.getNextInstruction deadInst))) }]) := by
  refine ⟨endLifetimeAtLivenessBoundary_insertions f value liveness, ?_, ?_⟩
  · intro lastUser _ hending ins hins hpoint
    rw [endLifetimeAtLivenessBoundary_insertions] at hins
    simp only [List.mem_append, List.mem_map, List.mem_flatMap, List.mem_filter] at hins
    rcases hins with (⟨u, ⟨_, hu⟩, hmem⟩ | ⟨e, _, rfl⟩) | ⟨d, _, rfl⟩
    · unfold lastUserInsertions at hmem
      split at hmem
      · simp only [List.mem_map] at hmem
        obtain ⟨b, _, rfl⟩ := hmem
        simp [boundaryInsertion] at hpoint
      · simp only [List.mem_singleton] at hmem
        subst hmem
        simp only [boundaryInsertion, InsertionPoint.after.injEq] at hpoint
        subst hpoint
        rw [hending] at hu
        simp at hu
    · simp [boundaryInsertion] at hpoint
    · simp [boundaryInsertion] at hpoint
  · intro deadInst h1 h2 h3 hown
    rw [endLifetimeAtLivenessBoundary_insertions, h1, h2, h3]
    simp [boundaryInsertion, endOSSALifetime, hown, nextOfDeadDef,
      InsertionPoint.getInsertionBB]

/-- Witness of the amended C5: the owned value of the diamond that is defined
in `entry` and never used gets one destroy right after its definition; and
when it is last used by instruction 21 in `right`, which is not a terminator,
with `left` a boundary edge, it gets one destroy right after 21 and one at the
beginning of `left`. -/
theorem endLifetimeAtLivenessBoundary_spec_witness :
    Examples.diamondUnused.boundary.lastUsers = [] ∧
    Examples.diamondUnused.boundary.boundaryEdges = [] ∧
    Examples.diamondUnused.boundary.deadDefs = [SILNode.instruction 0] ∧
    Examples.diamond.getOwnershipKind 0 = OwnershipKind.Owned ∧
    (endLifetimeAtLivenessBoundary Examples.diamond 0 Examples.diamondUsedRight).insertions =
      [{ point := InsertionPoint.after 21, inst := CreatedInst.DestroyValue 0 false },
       { point := InsertionPoint.blockBegin 1, inst := CreatedInst.DestroyValue 0 false }] ∧
    (endLifetimeAtLivenessBoundary Examples.diamond 0 Examples.diamondUnused).insertions =
      [{ point := InsertionPoint.before 1, inst := CreatedInst.DestroyValue 0 false }] :=
  ⟨rfl, rfl, rfl, rfl, by decide,
    (endLifetimeAtLivenessBoundary_spec Examples.diamond 0 Examples.diamondUnused).2.2 0
      rfl rfl rfl rfl⟩

/-- C5 fails on the diamond when the last user of value 0 is the terminator 2
of `entry`, in a use that is not lifetime-ending: two lifetime ends are
inserted, at the beginning of `left` and at the beginning of `right`, and none
right after instruction 2 or anywhere in `entry`. -/
theorem endLifetimeAtLivenessBoundary_spec_counterexample :
    Examples.diamond.isTermInst 2 = true ∧
    (Examples.diamondLastUser 2).boundary.lastUsers = [2] ∧
    (Examples.diamondLastUser 2).isInterestingUser 2 ≠ IsInterestingUser.LifetimeEndingUse ∧
    (endLifetimeAtLivenessBoundary Examples.diamond 0 (Examples.diamondLastUser 2)).insertions =
      [{ point := InsertionPoint.blockBegin 1, inst := CreatedInst.DestroyValue 0 false },
       { point := InsertionPoint.blockBegin 2, inst := CreatedInst.DestroyValue 0 false }] ∧
    ((endLifetimeAtLivenessBoundary Examples.diamond 0
        (Examples.diamondLastUser 2)).insertions.filter
      (fun ins => ins.point.getInsertionBB Examples.diamond == 0)).length ≠ 1 := by
  decide

/-! ## Completion at the availability boundary -/

theorem endAtVisits_insertions (f : SILFunction) (value : SILValue) :
    ∀ (visits : List AvailabilityBoundaryVisitor.VisitCall) (c : Completion),
      (endAtVisits f value visits c).insertions =
        c.insertions ++ visits.map (visitInsertion f value)
  | [], c => by simp [endAtVisits]
  | (unreachable, lifetimeEnd) :: rest, c => by
    rw [endAtVisits, endAtVisits_insertions f value rest]
    simp [Completion.insert, visitInsertion]

theorem mem_visitUsersOutsideLoop (f : SILFunction) (liveness : SSAPrunedLiveness)
    (user : SILInstruction) :
    ∀ users : List (SILInstruction × Bool),
      user ∈ visitUsersOutsideLoop f liveness users ↔
        ((user, false) ∈ users ∧ f.isExtendLifetimeInst user = false ∧
          liveness.linearIsWithinBoundary user = false)
  | [] => by simp [visitUsersOutsideLoop]
  | (u, isEnding) :: rest => by
    have ih := mem_visitUsersOutsideLoop f liveness user rest
    rw [visitUsersOutsideLoop]
    by_cases h1 : (isEnding || f.isExtendLifetimeInst u) = true
    · rw [if_pos h1, ih]
      constructor
      · rintro ⟨h, h2, h3⟩
        exact ⟨List.mem_cons_of_mem _ h, h2, h3⟩
      · rintro ⟨h, h2, h3⟩
        refine ⟨?_, h2, h3⟩
        rcases List.mem_cons.1 h with h4 | h4
        · simp only [Prod.mk.injEq] at h4
          obtain ⟨hu, he⟩ := h4
          subst hu
          subst he
          simp [h2] at h1
        · exact h4
    · rw [if_neg h1]
      simp only [Bool.or_eq_true, not_or, Bool.not_eq_true] at h1
      obtain ⟨he, hx⟩ := h1
      subst he
      by_cases h2 : liveness.linearIsWithinBoundary u = true
      · rw [if_pos h2, ih]
        constructor
        · rintro ⟨h, h3, h4⟩
          exact ⟨List.mem_cons_of_mem _ h, h3, h4⟩
        · rintro ⟨h, h3, h4⟩
          refine ⟨?_, h3, h4⟩
          rcases List.mem_cons.1 h with h5 | h5
          · simp only [Prod.mk.injEq, and_true] at h5
            subst h5
            rw [h2] at h4
            exact absurd h4 (by decide)
          · exact h5
      · rw [if_neg h2, List.mem_cons, ih]
        simp only [Bool.not_eq_true] at h2
        constructor
        · rintro (h | ⟨h, h3, h4⟩)
          · subst h
            exact ⟨List.mem_cons_self _ _, hx, h2⟩
          · exact ⟨List.mem_cons_of_mem _ h, h3, h4⟩
        · rintro ⟨h, h3, h4⟩
          rcases List.mem_cons.1 h with h5 | h5
          · simp only [Prod.mk.injEq, and_true] at h5
            exact Or.inl h5
          · exact Or.inr ⟨h5, h3, h4⟩

theorem OSSALifetimeCompletion.mem_loopVisits (f : SILFunction)
    (p : AvailabilityBoundaryVisitor.VisitCall) :
    ∀ l : List SILInstruction, p ∈ OSSALifetimeCompletion.loopVisits f l ↔
      ∃ instruction ∈ l, ∃ next ∈ f.subsequentInstructions instruction,
        p = (next, LifetimeEnd.Loop)
  | [] => by simp [OSSALifetimeCompletion.loopVisits]
  | instruction :: rest => by
    rw [OSSALifetimeCompletion.loopVisits, List.mem_append,
      OSSALifetimeCompletion.mem_loopVisits f p rest]
    simp only [List.mem_map, List.mem_cons, exists_eq_or_imp]
    constructor
    · rintro (⟨next, hn, rfl⟩ | h)
      · exact Or.inl ⟨next, hn, rfl⟩
      · exact Or.inr h
    · rintro (⟨next, hn, rfl⟩ | h)
      · exact Or.inl ⟨next, hn, rfl⟩
      · exact Or.inr h

/-- On a function with finitely many blocks,
`OSSALifetimeCompletion::visitAvailabilityBoundary` returns: first the calls of
the availability-boundary visitor, then the Loop calls. -/
theorem OSSALifetimeCompletion.visitAvailabilityBoundary_run (f : SILFunction)
    (value : SILValue) (liveness : SSAPrunedLiveness) (hfin : f.SuccessorsInFunction) :
    ∃ boundaryVisits,
      AvailabilityBoundaryVisitor.visit { value := value } f liveness
        AvailabilityBoundaryVisitor.Result.fresh = some boundaryVisits ∧
      OSSALifetimeCompletion.visitAvailabilityBoundary f value liveness =
        some (boundaryVisits ++ OSSALifetimeCompletion.loopVisits f
          (visitUsersOutsideLinearLivenessBoundary f value liveness)) := by
  obtain ⟨v, result1, _, _, hvisit⟩ :=
    AvailabilityBoundaryVisitor.visit_run value f liveness
      AvailabilityBoundaryVisitor.Result.fresh hfin
  refine ⟨_, hvisit, ?_⟩
  simp only [OSSALifetimeCompletion.visitAvailabilityBoundary, hvisit]

theorem endLifetimeAtAvailabilityBoundary_returns (f : SILFunction) (value : SILValue)
    (liveness : SSAPrunedLiveness) (hfin : f.SuccessorsInFunction) :
    ∃ c, endLifetimeAtAvailabilityBoundary f value liveness = some c := by
  obtain ⟨boundaryVisits, _, hrun⟩ :=
    OSSALifetimeCompletion.visitAvailabilityBoundary_run f value liveness hfin
  simp only [endLifetimeAtAvailabilityBoundary, hrun]
  exact ⟨_, rfl⟩

theorem endAtVisits_changed (f : SILFunction) (value : SILValue) :
    ∀ (visits : List AvailabilityBoundaryVisitor.VisitCall) (c : Completion),
      (endAtVisits f value visits c).changed = (c.changed || !visits.isEmpty)
  | [], c => by simp [endAtVisits]
  | (unreachable, lifetimeEnd) :: rest, c => by
    rw [endAtVisits, endAtVisits_changed f value rest]
    simp

/-! ## Inner scopes -/

/-- Induction over an interior liveness: a property that holds of an interior
liveness whenever it holds of those of its inner scopes holds of every one. -/
theorem InteriorLiveness.induct (P : InteriorLiveness → Prop)
    (h : ∀ interior : InteriorLiveness,
      (∀ scope ∈ interior.innerScopes, P scope.2) → P interior) :
    ∀ interior : InteriorLiveness, P interior := by
  have key : ∀ (n : Nat) (interior : InteriorLiveness), sizeOf interior < n → P interior := by
    intro n
    induction n with
    | zero =>
      intro interior hlt
      exact absurd hlt (Nat.not_lt_zero _)
    | succ n ih =>
      intro interior hlt
      apply h
      intro scope hscope
      apply ih
      obtain ⟨liveness, phis, innerScopes⟩ := interior
      obtain ⟨value, inner⟩ := scope
      have h1 : sizeOf (value, inner) < sizeOf innerScopes := List.sizeOf_lt_of_mem hscope
      simp only [Prod.mk.sizeOf_spec, InteriorLiveness.mk.sizeOf_spec] at h1 hlt ⊢
      omega
  exact fun interior => key _ interior (Nat.lt_succ_self _)

namespace OSSALifetimeCompletion

theorem analyzeAndUpdateLifetime_eq (f : SILFunction) (value : SILValue)
    (interior : InteriorLiveness) (boundary : Boundary) :
    analyzeAndUpdateLifetime f value interior boundary =
      match handleInnerScopes f interior.innerScopes boundary with
      | none => none
      | some inserted =>
        match endLifetimeAtBoundary f value interior.liveness boundary with
        | none => none
        | some c => some { changed := c.changed, insertions := inserted ++ c.insertions } := by
  obtain ⟨liveness, phis, innerScopes⟩ := interior
  rw [analyzeAndUpdateLifetime]

theorem handleInnerScopes_cons (f : SILFunction) (scope : SILValue × InteriorLiveness)
    (rest : List (SILValue × InteriorLiveness)) (boundary : Boundary) :
    handleInnerScopes f (scope :: rest) boundary =
      match analyzeAndUpdateLifetime f scope.1 scope.2 boundary with
      | none => none
      | some c =>
        match handleInnerScopes f rest boundary with
        | none => none
        | some more => some (c.insertions ++ more) := by
  obtain ⟨value, interior⟩ := scope
  rw [handleInnerScopes, handleInnerScope]
  cases analyzeAndUpdateLifetime f value interior boundary with
  | none => rfl
  | some c => rfl

/-- When the completion of each inner scope returns, `handleInnerScopes`
returns the insertions of these completions, in order. -/
theorem handleInnerScopes_run (f : SILFunction) (boundary : Boundary) :
    ∀ innerScopes : List (SILValue × InteriorLiveness),
      (∀ scope ∈ innerScopes,
        ∃ c, analyzeAndUpdateLifetime f scope.1 scope.2 boundary = some c) →
      ∃ completions : List Completion,
        List.Forall₂
          (fun scope c => analyzeAndUpdateLifetime f scope.1 scope.2 boundary = some c)
          innerScopes completions ∧
        handleInnerScopes f innerScopes boundary =
          some (completions.map Completion.insertions).flatten
  | [], _ => ⟨[], List.Forall₂.nil, by rw [handleInnerScopes]; rfl⟩
  | scope :: rest, h => by
    obtain ⟨c, hc⟩ := h scope (List.mem_cons_self _ _)
    obtain ⟨completions, hall, hrun⟩ := handleInnerScopes_run f boundary rest
      (fun scope2 h2 => h scope2 (List.mem_cons_of_mem _ h2))
    refine ⟨c :: completions, List.Forall₂.cons hc hall, ?_⟩
    rw [handleInnerScopes_cons, hc, hrun]
    rfl

theorem endLifetimeAtBoundary_returns (f : SILFunction) (value : SILValue)
    (liveness : SSAPrunedLiveness) (boundary : Boundary) (hfin : f.SuccessorsInFunction) :
    ∃ c, endLifetimeAtBoundary f value liveness boundary = some c := by
  cases boundary with
  | Liveness => exact ⟨_, rfl⟩
  | Availability => exact endLifetimeAtAvailabilityBoundary_returns f value liveness hfin

/-- On a function with finitely many blocks `analyzeAndUpdateLifetime`
returns, whatever the inner scopes are. -/
theorem analyzeAndUpdateLifetime_returns (f : SILFunction) (boundary : Boundary)
    (hfin : f.SuccessorsInFunction) :
    ∀ (interior : InteriorLiveness) (value : SILValue),
      ∃ c, analyzeAndUpdateLifetime f value interior boundary = some c := by
  apply InteriorLiveness.induct
  intro interior ih value
  obtain ⟨completions, _, hrun⟩ := handleInnerScopes_run f boundary interior.innerScopes
    (fun scope hscope => ih scope hscope scope.1)
  obtain ⟨c, hc⟩ := endLifetimeAtBoundary_returns f value interior.liveness boundary hfin
  rw [analyzeAndUpdateLifetime_eq, hrun, hc]
  exact ⟨_, rfl⟩

end OSSALifetimeCompletion

/-- C4, as amended: with boundary kind Availability, `analyzeAndUpdateLifetime`
first completes, with the same boundary kind, every inner scope that the
interior liveness computation discovers, in the order of discovery, and then
ends the lifetime of the value at its availability boundary only.  On a
function with finitely many blocks it returns; its insertions are those of the
completions of the inner scopes followed by exactly one lifetime end in front
of each position that `visitAvailabilityBoundary` visits for the value, in the
order of the visits; and it returns true exactly when there is such a visit.
The liveness-boundary completer is not run. -/
theorem OSSALifetimeCompletion.analyzeAndUpdateLifetime_availability (f : SILFunction)
    (value : SILValue) (interior : InteriorLiveness) (hfin : f.SuccessorsInFunction) :
    ∃ (completions : List Completion) (visits : List AvailabilityBoundaryVisitor.VisitCall)
      (c : Completion),
      List.Forall₂
        (fun scope inner =>
          OSSALifetimeCompletion.analyzeAndUpdateLifetime f scope.1 scope.2
            Boundary.Availability = some inner)
        interior.innerScopes completions ∧
      OSSALifetimeCompletion.visitAvailabilityBoundary f value interior.liveness =
        some visits ∧
      OSSALifetimeCompletion.analyzeAndUpdateLifetime f value interior
        Boundary.Availability = some c ∧
      c.insertions =
        (completions.map Completion.insertions).flatten ++
          visits.map (visitInsertion f value) ∧
      (c.changed = true ↔ visits ≠ []) := by
  obtain ⟨completions, hall, hinner⟩ :=
    OSSALifetimeCompletion.handleInnerScopes_run f Boundary.Availability interior.innerScopes
      (fun scope _ =>
        OSSALifetimeCompletion.analyzeAndUpdateLifetime_returns f Boundary.Availability hfin
          scope.2 scope.1)
  obtain ⟨boundaryVisits, _, hrun⟩ :=
    OSSALifetimeCompletion.visitAvailabilityBoundary_run f value interior.liveness hfin
  refine ⟨completions, _,
    { changed := (endAtVisits f value (boundaryVisits ++ OSSALifetimeCompletion.loopVisits f
        (visitUsersOutsideLinearLivenessBoundary f value interior.liveness)) {}).changed
      insertions := (completions.map Completion.insertions).flatten ++
        (endAtVisits f value (boundaryVisits ++ OSSALifetimeCompletion.loopVisits f
          (visitUsersOutsideLinearLivenessBoundary f value interior.liveness)) {}).insertions },
    hall, hrun, ?_, ?_, ?_⟩
  · rw [OSSALifetimeCompletion.analyzeAndUpdateLifetime_eq, hinner]
    simp only [OSSALifetimeCompletion.endLifetimeAtBoundary,
      endLifetimeAtAvailabilityBoundary, hrun]
  · simp only [endAtVisits_insertions]
    rfl
  · simp only [endAtVisits_changed]
    simp

/-- Witness of the amended C4 on the diamond: value 0 is used only in `right`
and has the inner scope 9, a borrow that is never ended. -/
theorem OSSALifetimeCompletion.analyzeAndUpdateLifetime_availability_witness :
    Examples.diamondBorrow.SuccessorsInFunction ∧
    OSSALifetimeCompletion.analyzeAndUpdateLifetime Examples.diamondBorrow 0
        Examples.diamondUsedInner Boundary.Availability =
      some { changed := true
             insertions :=
              [{ point := InsertionPoint.before 32, inst := CreatedInst.EndBorrow 9 },
               { point := InsertionPoint.before 12, inst := CreatedInst.DestroyValue 0 false },
               { point := InsertionPoint.before 32,
                 inst := CreatedInst.DestroyValue 0 false }] } ∧
    ∃ (completions : List Completion) (visits : List AvailabilityBoundaryVisitor.VisitCall)
      (c : Completion),
      List.Forall₂
        (fun scope inner =>
          OSSALifetimeCompletion.analyzeAndUpdateLifetime Examples.diamondBorrow scope.1
            scope.2 Boundary.Availability = some inner)
        Examples.diamondUsedInner.innerScopes completions ∧
      OSSALifetimeCompletion.visitAvailabilityBoundary Examples.diamondBorrow 0
        Examples.diamondUsedInner.liveness = some visits ∧
      OSSALifetimeCompletion.analyzeAndUpdateLifetime Examples.diamondBorrow 0
        Examples.diamondUsedInner Boundary.Availability = some c ∧
      c.insertions =
        (completions.map Completion.insertions).flatten ++
          visits.map (visitInsertion Examples.diamondBorrow 0) ∧
      (c.changed = true ↔ visits ≠ []) :=
  ⟨Examples.diamond_successorsInFunction, by decide,
    OSSALifetimeCompletion.analyzeAndUpdateLifetime_availability Examples.diamondBorrow 0
      Examples.diamondUsedInner Examples.diamond_successorsInFunction⟩

/-- C4 fails on the diamond, for the value used only in `right` and without
inner scopes: the liveness-boundary completer would insert after the last user
21 and at the beginning of `left`, while completion with boundary kind
Availability inserts in front of the terminators 12 of `left` and 32 of `merge`
and nowhere else. -/
theorem OSSALifetimeCompletion.analyzeAndUpdateLifetime_availability_counterexample :
    (endLifetimeAtLivenessBoundary Examples.diamond 0 Examples.diamondUsedRight).insertions =
      [{ point := InsertionPoint.after 21, inst := CreatedInst.DestroyValue 0 false },
       { point := InsertionPoint.blockBegin 1, inst := CreatedInst.DestroyValue 0 false }] ∧
    OSSALifetimeCompletion.analyzeAndUpdateLifetime Examples.diamond 0
        { liveness := Examples.diamondUsedRight, innerScopes := [] } Boundary.Availability =
      some { changed := true
             insertions :=
              [{ point := InsertionPoint.before 12, inst := CreatedInst.DestroyValue 0 false },
               { point := InsertionPoint.before 32,
                 inst := CreatedInst.DestroyValue 0 false }] } ∧
    ¬ (∀ c, OSSALifetimeCompletion.analyzeAndUpdateLifetime Examples.diamond 0
          { liveness := Examples.diamondUsedRight, innerScopes := [] }
          Boundary.Availability = some c →
        ∀ ins ∈ (endLifetimeAtLivenessBoundary Examples.diamond 0
            Examples.diamondUsedRight).insertions, ins ∈ c.insertions) := by
  refine ⟨by decide, by decide, ?_⟩
  intro h
  have h1 := h _ (by decide :
    OSSALifetimeCompletion.analyzeAndUpdateLifetime Examples.diamond 0
        { liveness := Examples.diamondUsedRight, innerScopes := [] } Boundary.Availability =
      some { changed := true
             insertions :=
              [{ point := InsertionPoint.before 12, inst := CreatedInst.DestroyValue 0 false },
               { point := InsertionPoint.before 32,
                 inst := CreatedInst.DestroyValue 0 false }] })
  exact absurd h1 (by decide)

/-- C6, as amended: on a function with finitely many blocks
`OSSALifetimeCompletion::visitAvailabilityBoundary` returns its visits, and an
instruction is visited with end-kind Loop if and only if the ownership kind of
the value is not None and the instruction is subsequent to a user recorded by
the liveness result that is not lifetime-ending, is not an extend-lifetime
instruction and is not within the linear liveness boundary.  So for a value
whose ownership kind is not None every instruction subsequent to such a user
is visited with end-kind Loop; for a value of ownership kind None nothing is
visited with end-kind Loop; and a user that is an extend-lifetime instruction
is skipped: it gives rise to no visit. -/
theorem OSSALifetimeCompletion.visitAvailabilityBoundary_loop (f : SILFunction)
    (value : SILValue) (liveness : SSAPrunedLiveness) (hfin : f.SuccessorsInFunction) :
    ∃ visits,
      OSSALifetimeCompletion.visitAvailabilityBoundary f value liveness = some visits ∧
      (∀ next : SILInstruction, (next, LifetimeEnd.Loop) ∈ visits ↔
        (f.getOwnershipKind value ≠ OwnershipKind.None ∧
          ∃ user : SILInstruction, (user, false) ∈ liveness.users ∧
            f.isExtendLifetimeInst user = false ∧
            liveness.linearIsWithinBoundary user = false ∧
            next ∈ f.subsequentInstructions user)) ∧
      (f.getOwnershipKind value ≠ OwnershipKind.None →
        ∀ user : SILInstruction, (user, false) ∈ liveness.users →
          f.isExtendLifetimeInst user = false →
          liveness.linearIsWithinBoundary user = false →
          ∀ next ∈ f.subsequentInstructions user, (next, LifetimeEnd.Loop) ∈ visits) ∧
      (f.getOwnershipKind value = OwnershipKind.None →
        ∀ next : SILInstruction, (next, LifetimeEnd.Loop) ∉ visits) ∧
      (∀ next : SILInstruction,
        (∀ user : SILInstruction, (user, false) ∈ liveness.users →
          next ∈ f.subsequentInstructions user → f.isExtendLifetimeInst user = true) →
        (next, LifetimeEnd.Loop) ∉ visits) := by
  obtain ⟨v, result1, _, _, hvisit⟩ :=
    AvailabilityBoundaryVisitor.visit_run value f liveness
      AvailabilityBoundaryVisitor.Result.fresh hfin
  have hrun : OSSALifetimeCompletion.visitAvailabilityBoundary f value liveness =
      some (v.visitAvailabilityBoundary f result1 ++ OSSALifetimeCompletion.loopVisits f
        (visitUsersOutsideLinearLivenessBoundary f value liveness)) := by
    simp only [OSSALifetimeCompletion.visitAvailabilityBoundary, hvisit]
  have hiff : ∀ next : SILInstruction,
      (next, LifetimeEnd.Loop) ∈ v.visitAvailabilityBoundary f result1 ++
          OSSALifetimeCompletion.loopVisits f
            (visitUsersOutsideLinearLivenessBoundary f value liveness) ↔
        (f.getOwnershipKind value ≠ OwnershipKind.None ∧
          ∃ user : SILInstruction, (user, false) ∈ liveness.users ∧
            f.isExtendLifetimeInst user = false ∧
            liveness.linearIsWithinBoundary user = false ∧
            next ∈ f.subsequentInstructions user) := by
    intro next
    rw [List.mem_append, OSSALifetimeCompletion.mem_loopVisits]
    constructor
    · rintro (h | ⟨user, huser, next2, hnext, heq⟩)
      · obtain ⟨_, _, _, hp⟩ :=
          (AvailabilityBoundaryVisitor.mem_visitLoop f result1 _ v.region).1 h
        have h2 : LifetimeEnd.Loop = LifetimeEnd.Boundary := congrArg Prod.snd hp
        exact absurd h2 (by decide)
      · have h1 : next = next2 := congrArg Prod.fst heq
        subst h1
        unfold visitUsersOutsideLinearLivenessBoundary at huser
        by_cases hown : f.getOwnershipKind value = OwnershipKind.None
        · rw [if_pos hown] at huser
          exact absurd huser (List.not_mem_nil _)
        · rw [if_neg hown] at huser
          obtain ⟨h3, h4, h5⟩ :=
            (mem_visitUsersOutsideLoop f liveness user liveness.users).1 huser
          exact ⟨hown, user, h3, h4, h5, hnext⟩
    · rintro ⟨hown, user, h3, h4, h5, hnext⟩
      refine Or.inr ⟨user, ?_, next, hnext, rfl⟩
      unfold visitUsersOutsideLinearLivenessBoundary
      rw [if_neg hown]
      exact (mem_visitUsersOutsideLoop f liveness user liveness.users).2 ⟨h3, h4, h5⟩
  refine ⟨_, hrun, hiff, ?_, ?_, ?_⟩
  · intro hown user h3 h4 h5 next hnext
    exact (hiff next).2 ⟨hown, user, h3, h4, h5, hnext⟩
  · intro hnone next hmem
    exact ((hiff next).1 hmem).1 hnone
  · intro next hall hmem
    obtain ⟨_, user, h3, h4, _, hnext⟩ := (hiff next).1 hmem
    rw [hall user h3 hnext] at h4
    exact absurd h4 (by decide)

/-- Witness of the amended C6 on the diamond: instruction 21 is an ordinary
user outside the linear liveness boundary, and instruction 22 after it is
visited with end-kind Loop. -/
theorem OSSALifetimeCompletion.visitAvailabilityBoundary_loop_witness :
    Examples.diamond.SuccessorsInFunction ∧
    OSSALifetimeCompletion.visitAvailabilityBoundary Examples.diamond 0
        Examples.diamondOutside =
      some [(12, LifetimeEnd.Boundary), (32, LifetimeEnd.Boundary), (22, LifetimeEnd.Loop)] ∧
    ∃ visits,
      OSSALifetimeCompletion.visitAvailabilityBoundary Examples.diamond 0
        Examples.diamondOutside = some visits ∧
      (∀ next : SILInstruction, (next, LifetimeEnd.Loop) ∈ visits ↔
        (Examples.diamond.getOwnershipKind 0 ≠ OwnershipKind.None ∧
          ∃ user : SILInstruction, (user, false) ∈ Examples.diamondOutside.users ∧
            Examples.diamond.isExtendLifetimeInst user = false ∧
            Examples.diamondOutside.linearIsWithinBoundary user = false ∧
            next ∈ Examples.diamond.subsequentInstructions user)) ∧
      (Examples.diamond.getOwnershipKind 0 ≠ OwnershipKind.None →
        ∀ user : SILInstruction, (user, false) ∈ Examples.diamondOutside.users →
          Examples.diamond.isExtendLifetimeInst user = false →
          Examples.diamondOutside.linearIsWithinBoundary user = false →
          ∀ next ∈ Examples.diamond.subsequentInstructions user,
            (next, LifetimeEnd.Loop) ∈ visits) ∧
      (Examples.diamond.getOwnershipKind 0 = OwnershipKind.None →
        ∀ next : SILInstruction, (next, LifetimeEnd.Loop) ∉ visits) ∧
      (∀ next : SILInstruction,
        (∀ user : SILInstruction, (user, false) ∈ Examples.diamondOutside.users →
          next ∈ Examples.diamond.subsequentInstructions user →
          Examples.diamond.isExtendLifetimeInst user = true) →
        (next, LifetimeEnd.Loop) ∉ visits) :=
  ⟨Examples.diamond_successorsInFunction, by decide,
    OSSALifetimeCompletion.visitAvailabilityBoundary_loop Examples.diamond 0
      Examples.diamondOutside Examples.diamond_successorsInFunction⟩

/-- C6 fails in two ways.  For a user that is an extend-lifetime instruction:
in the diamond whose instruction 21 is one, 21 is a user that is not
lifetime-ending and not within the linear liveness boundary, instruction 22
follows it, and 22 is not visited with end-kind Loop.  And for a value of
ownership kind None: in the diamond whose value 0 has that kind, 21 is an
ordinary user that is not lifetime-ending and not within the linear liveness
boundary, instruction 22 follows it, and 22 is not visited with end-kind
Loop. -/
theorem OSSALifetimeCompletion.visitAvailabilityBoundary_loop_counterexample :
    (21, false) ∈ Examples.diamondOutside.users ∧
    Examples.diamondOutside.linearIsWithinBoundary 21 = false ∧
    (22 ∈ Examples.diamondExtend.subsequentInstructions 21 ∧
      Examples.diamondExtend.isExtendLifetimeInst 21 = true ∧
      Examples.diamondExtend.getOwnershipKind 0 = OwnershipKind.Owned ∧
      OSSALifetimeCompletion.visitAvailabilityBoundary Examples.diamondExtend 0
          Examples.diamondOutside =
        some [(12, LifetimeEnd.Boundary), (32, LifetimeEnd.Boundary)] ∧
      (22, LifetimeEnd.Loop) ∉ [(12, LifetimeEnd.Boundary), (32, LifetimeEnd.Boundary)]) ∧
    (22 ∈ Examples.diamondNone.subsequentInstructions 21 ∧
      Examples.diamondNone.isExtendLifetimeInst 21 = false ∧
      Examples.diamondNone.getOwnershipKind 0 = OwnershipKind.None ∧
      OSSALifetimeCompletion.visitAvailabilityBoundary Examples.diamondNone 0
          Examples.diamondOutside =
        some [(12, LifetimeEnd.Boundary), (32, LifetimeEnd.Boundary)] ∧
      (22, LifetimeEnd.Loop) ∉ [(12, LifetimeEnd.Boundary), (32, LifetimeEnd.Boundary)]) := by
  decide

/-! ## The driver for newly unreachable code -/

theorem unvisited_filter_congr (v1 v2 : List SILBasicBlock)
    (h : ∀ x, x ∈ v1 ↔ x ∈ v2) (l : List SILBasicBlock) :
    (l.filter (fun x => !v1.contains x)).length = (l.filter (fun x => !v2.contains x)).length := by
  have e : (fun x => !v1.contains x) = (fun x => !v2.contains x) := by
    funext x
    have h1 : v1.contains x = v2.contains x := by
      rw [Bool.eq_iff_iff]
      simp only [List.contains_iff_exists_mem_beq, beq_iff_eq, exists_eq_right']
      simpa using h x
    rw [h1]
  rw [e]

theorem BasicBlockSetVector.insert_eq_append (s : List SILBasicBlock) (b : SILBasicBlock) :
    ∃ extra, BasicBlockSetVector.insert s b = s ++ extra := by
  unfold BasicBlockSetVector.insert
  by_cases h : s.contains b = true
  · rw [if_pos h]
    exact ⟨[], (List.append_nil s).symm⟩
  · rw [if_neg h]
    exact ⟨[b], rfl⟩

theorem BasicBlockSetVector.weight_insert (f : SILFunction) (s : List SILBasicBlock)
    (b : SILBasicBlock) (hb : b ∈ f.blocks) :
    f.unvisited (BasicBlockSetVector.insert s b) + (BasicBlockSetVector.insert s b).length ≤
      f.unvisited s + s.length := by
  unfold BasicBlockSetVector.insert
  by_cases h : s.contains b = true
  · rw [if_pos h]
  · rw [if_neg h]
    have hbs : b ∉ s := by simpa using h
    have h1 := f.unvisited_insert_lt s b hb hbs
    have h2 : f.unvisited (s ++ [b]) = f.unvisited (BasicBlockSet.insert s b) := by
      unfold SILFunction.unvisited
      apply unvisited_filter_congr
      intro x
      rw [BasicBlockSet.mem_set_insert]
      simp [or_comm]
    rw [h2]
    simp only [List.length_append, List.length_singleton]
    omega

namespace UnreachableLifetimeCompletion

theorem Grows.refl (a : UnreachableLifetimeCompletion) : Grows a a :=
  ⟨⟨[], (List.append_nil _).symm⟩, fun _ h => h, fun _ h => h, rfl⟩

theorem Grows.trans {a b c : UnreachableLifetimeCompletion} (h1 : Grows a b)
    (h2 : Grows b c) : Grows a c := by
  obtain ⟨e1, he1⟩ := h1.blocks
  obtain ⟨e2, he2⟩ := h2.blocks
  refine ⟨⟨e1 ++ e2, ?_⟩, fun x hx => h2.insts x (h1.insts x hx),
    fun x hx => h2.values x (h1.values x hx), h2.flag.trans h1.flag⟩
  rw [he2, he1, List.append_assoc]

theorem Grows.mem_blocks {a b : UnreachableLifetimeCompletion} (h : Grows a b)
    {x : SILBasicBlock} (hx : x ∈ a.unreachableBlocks) : x ∈ b.unreachableBlocks := by
  obtain ⟨e, he⟩ := h.blocks
  rw [he]
  exact List.mem_append_left _ hx

theorem DefUnreachable.grows {f : SILFunction} {a b : UnreachableLifetimeCompletion}
    {value : SILValue} (h : DefUnreachable f a value) (hg : Grows a b) :
    DefUnreachable f b value := by
  rcases h with h | ⟨d, hd, hd2⟩
  · exact Or.inl (hg.mem_blocks h)
  · exact Or.inr ⟨d, hd, hg.insts d hd2⟩

theorem Settled.extend {f : SILFunction} {a b : UnreachableLifetimeCompletion}
    {operand : Operand} (h : Settled f a operand) (hg : Grows a b) :
    Settled f b operand := by
  intro hend
  rcases h hend with h1 | h1
  · exact Or.inl (h1.grows hg)
  · exact Or.inr (hg.values _ h1)

/-- What the marking of the successors of an unreachable terminator does. -/
theorem markSuccessors_spec (f : SILFunction) (block : SILBasicBlock) :
    ∀ (l : List SILBasicBlock) (self : UnreachableLifetimeCompletion),
      Grows self (markSuccessors f block l self) ∧
      (markSuccessors f block l self).unreachableInsts = self.unreachableInsts ∧
      (markSuccessors f block l self).incompleteValues = self.incompleteValues ∧
      (∀ s ∈ l, (∀ p ∈ f.getPredecessorBlocks s, p = block ∨ p ∈ self.unreachableBlocks) →
        s ∈ (markSuccessors f block l self).unreachableBlocks) ∧
      ((∀ s ∈ l, s ∈ f.blocks) → weight f (markSuccessors f block l self) ≤ weight f self)
  | [], self => by
    have e : markSuccessors f block [] self = self := rfl
    rw [e]
    exact ⟨Grows.refl self, rfl, rfl, fun s hs => absurd hs (List.not_mem_nil s),
      fun _ => le_refl _⟩
  | succBlock :: rest, self => by
    rw [markSuccessors]
    by_cases hall : (f.getPredecessorBlocks succBlock).all
        (fun predBlock => predBlock == block || self.unreachableBlocks.contains predBlock) = true
    · rw [if_pos hall]
      obtain ⟨i1, i2, i3, i4, i5⟩ := markSuccessors_spec f block rest
        { self with
          unreachableBlocks := BasicBlockSetVector.insert self.unreachableBlocks succBlock }
      have hg : Grows self { self with
          unreachableBlocks := BasicBlockSetVector.insert self.unreachableBlocks succBlock } :=
        ⟨BasicBlockSetVector.insert_eq_append _ _, fun _ h => h, fun _ h => h, rfl⟩
      refine ⟨hg.trans i1, i2, i3, ?_, ?_⟩
      · intro s hs hp
        rcases List.mem_cons.1 hs with h | h
        · subst h
          exact i1.mem_blocks
            ((BasicBlockSetVector.mem_setvector_insert _ _ _).2 (Or.inl rfl))
        · refine i4 s h (fun p hp2 => ?_)
          rcases hp p hp2 with h2 | h2
          · exact Or.inl h2
          · exact Or.inr ((BasicBlockSetVector.mem_setvector_insert _ _ _).2 (Or.inr h2))
      · intro hfin
        have h1 := i5 (fun s hs => hfin s (List.mem_cons_of_mem _ hs))
        have h2 := BasicBlockSetVector.weight_insert f self.unreachableBlocks succBlock
          (hfin succBlock (List.mem_cons_self _ _))
        simp only [weight] at h1 ⊢
        omega
    · rw [if_neg hall]
      obtain ⟨i1, i2, i3, i4, i5⟩ := markSuccessors_spec f block rest self
      refine ⟨i1, i2, i3, ?_, fun hfin => i5 (fun s hs => hfin s (List.mem_cons_of_mem _ hs))⟩
      intro s hs hp
      rcases List.mem_cons.1 hs with h | h
      · subst h
        exfalso
        apply hall
        rw [List.all_eq_true]
        intro p hp2
        rw [Bool.or_eq_true]
        rcases hp p hp2 with h2 | h2
        · exact Or.inl (by simpa using h2)
        · exact Or.inr (by simpa using h2)
      · exact i4 s h hp

/-- An operand that is not lifetime-ending, or whose definition is already
unreachable, leaves the state as it is. -/
theorem visitOperand_skip (f : SILFunction) (instruction : SILInstruction)
    (block : SILBasicBlock) (inReachableBlock : Bool) (self : UnreachableLifetimeCompletion)
    (operand : Operand)
    (h : operand.isLifetimeEnding = false ∨ DefUnreachable f self operand.get) :
    visitOperand f instruction block inReachableBlock self operand = self := by
  unfold visitOperand
  cases hle : operand.isLifetimeEnding with
  | false => rfl
  | true =>
    simp only [Bool.not_true, Bool.false_eq_true, if_false]
    rcases h with h | h | ⟨d, hd, hd2⟩
    · rw [hle] at h
      exact absurd h (by decide)
    · have e : self.unreachableBlocks.contains (f.getParentBlock operand.get) = true := by
        simpa using h
      rw [if_pos e]
    · have e : self.unreachableInsts.contains d = true := by simpa using hd2
      by_cases hb : self.unreachableBlocks.contains (f.getParentBlock operand.get) = true
      · rw [if_pos hb]
      · rw [if_neg hb]
        have hm : (match f.getDefiningInstruction operand.get with
            | some d => self.unreachableInsts.contains d
            | none => false) = true := by
          rw [hd]
          exact e
        rw [if_pos hm]

/-- A lifetime-ending operand whose definition is not unreachable is recorded,
and for a terminator the successors are marked. -/
theorem visitOperand_take (f : SILFunction) (instruction : SILInstruction)
    (block : SILBasicBlock) (inReachableBlock : Bool) (self : UnreachableLifetimeCompletion)
    (operand : Operand) (h1 : operand.isLifetimeEnding = true)
    (h2 : ¬ DefUnreachable f self operand.get) :
    Grows self (visitOperand f instruction block inReachableBlock self operand) ∧
    (∀ x, x ∈ (visitOperand f instruction block inReachableBlock self operand).incompleteValues
      ↔ x = operand.get ∨ x ∈ self.incompleteValues) ∧
    (∀ x ∈ (visitOperand f instruction block inReachableBlock self operand).unreachableInsts,
      x = instruction ∨ x ∈ self.unreachableInsts) ∧
    (f.isTermInst instruction = false →
      (visitOperand f instruction block inReachableBlock self operand).unreachableBlocks =
        self.unreachableBlocks) ∧
    (f.isTermInst instruction = true → ∀ s ∈ f.getSuccessorBlocks block,
      (∀ p ∈ f.getPredecessorBlocks s, p = block ∨ p ∈ self.unreachableBlocks) →
      s ∈ (visitOperand f instruction block inReachableBlock self
        operand).unreachableBlocks) ∧
    ((∀ s ∈ f.getSuccessorBlocks block, s ∈ f.blocks) →
      weight f (visitOperand f instruction block inReachableBlock self operand) ≤
        weight f self) := by
  have hb : self.unreachableBlocks.contains (f.getParentBlock operand.get) = false := by
    have : f.getParentBlock operand.get ∉ self.unreachableBlocks := fun hc => h2 (Or.inl hc)
    simpa using this
  have hd : (match f.getDefiningInstruction operand.get with
      | some d => self.unreachableInsts.contains d
      | none => false) = false := by
    cases hdef : f.getDefiningInstruction operand.get with
    | none => rfl
    | some d =>
      have : d ∉ self.unreachableInsts := fun hc => h2 (Or.inr ⟨d, hdef, hc⟩)
      simpa using this
  have hg2 : Grows self
      { (if inReachableBlock = true then
          { self with
            unreachableInsts := BasicBlockSet.insert self.unreachableInsts instruction }
        else self) with
        incompleteValues := BasicBlockSetVector.insert
          (if inReachableBlock = true then
            { self with
              unreachableInsts := BasicBlockSet.insert self.unreachableInsts instruction }
          else self).incompleteValues operand.get } := by
    cases inReachableBlock with
    | false =>
      exact ⟨⟨[], (List.append_nil _).symm⟩, fun _ h => h,
        fun x hx => (BasicBlockSetVector.mem_setvector_insert _ _ _).2 (Or.inr hx), rfl⟩
    | true =>
      exact ⟨⟨[], (List.append_nil _).symm⟩,
        fun x hx => (BasicBlockSet.mem_set_insert _ _ _).2 (Or.inr hx),
        fun x hx => (BasicBlockSetVector.mem_setvector_insert _ _ _).2 (Or.inr hx), rfl⟩
  unfold visitOperand
  simp only [h1, hb, hd, Bool.not_true, Bool.false_eq_true, if_false]
  cases hterm : f.isTermInst instruction with
  | false =>
    simp only [Bool.false_eq_true, if_false]
    refine ⟨hg2, ?_, ?_, ?_, ?_, ?_⟩
    · intro x
      cases inReachableBlock <;> simp [BasicBlockSetVector.mem_setvector_insert]
    · intro x hx
      cases inReachableBlock with
      | false => exact Or.inr hx
      | true => exact (BasicBlockSet.mem_set_insert _ _ _).1 hx
    · intro _
      cases inReachableBlock <;> rfl
    · intro hc
      exact absurd hc (by decide)
    · intro _
      cases inReachableBlock <;> exact le_refl _
  | true =>
    simp only [if_true]
    obtain ⟨m1, m2, m3, m4, m5⟩ := markSuccessors_spec f block (f.getSuccessorBlocks block)
      { (if inReachableBlock = true then
          { self with
            unreachableInsts := BasicBlockSet.insert self.unreachableInsts instruction }
        else self) with
        incompleteValues := BasicBlockSetVector.insert
          (if inReachableBlock = true then
            { self with
              unreachableInsts := BasicBlockSet.insert self.unreachableInsts instruction }
          else self).incompleteValues operand.get }
    refine ⟨hg2.trans m1, ?_, ?_, ?_, ?_, ?_⟩
    · intro x
      rw [m3]
      cases inReachableBlock <;> simp [BasicBlockSetVector.mem_setvector_insert]
    · intro x hx
      rw [m2] at hx
      cases inReachableBlock with
      | false => exact Or.inr hx
      | true => exact (BasicBlockSet.mem_set_insert _ _ _).1 hx
    · intro hc
      exact absurd hc (by decide)
    · intro _ s hs hp
      refine m4 s hs (fun p hp2 => ?_)
      rcases hp p hp2 with h3 | h3
      · exact Or.inl h3
      · refine Or.inr ?_
        cases inReachableBlock <;> exact h3
    · intro hfin
      have h3 := m5 hfin
      refine le_trans h3 ?_
      cases inReachableBlock <;> exact le_refl _

end UnreachableLifetimeCompletion

namespace UnreachableLifetimeCompletion

/-- Every operand of the loop leaves a state that extends the one before. -/
theorem visitOperand_grows (f : SILFunction) (instruction : SILInstruction)
    (block : SILBasicBlock) (inReachableBlock : Bool) (self : UnreachableLifetimeCompletion)
    (operand : Operand) :
    Grows self (visitOperand f instruction block inReachableBlock self operand) := by
  by_cases h : operand.isLifetimeEnding = false ∨ DefUnreachable f self operand.get
  · rw [visitOperand_skip f instruction block inReachableBlock self operand h]
    exact Grows.refl self
  · rw [not_or] at h
    exact (visitOperand_take f instruction block inReachableBlock self operand
      (by simpa using h.1) h.2).1

theorem visitOperand_settled (f : SILFunction) (instruction : SILInstruction)
    (block : SILBasicBlock) (inReachableBlock : Bool) (self : UnreachableLifetimeCompletion)
    (operand : Operand) :
    Settled f (visitOperand f instruction block inReachableBlock self operand) operand := by
  intro hend
  by_cases h : DefUnreachable f self operand.get
  · rw [visitOperand_skip f instruction block inReachableBlock self operand (Or.inr h)]
    exact Or.inl h
  · exact Or.inr (((visitOperand_take f instruction block inReachableBlock self operand
      hend h).2.1 operand.get).2 (Or.inl rfl))

theorem visitOperand_weight (f : SILFunction) (instruction : SILInstruction)
    (block : SILBasicBlock) (inReachableBlock : Bool) (self : UnreachableLifetimeCompletion)
    (operand : Operand) (hfin : ∀ s ∈ f.getSuccessorBlocks block, s ∈ f.blocks) :
    weight f (visitOperand f instruction block inReachableBlock self operand) ≤
      weight f self := by
  by_cases h : operand.isLifetimeEnding = false ∨ DefUnreachable f self operand.get
  · rw [visitOperand_skip f instruction block inReachableBlock self operand h]
  · rw [not_or] at h
    exact (visitOperand_take f instruction block inReachableBlock self operand
      (by simpa using h.1) h.2).2.2.2.2.2 hfin

/-- The operand loop of `visitUnreachableInst`. -/
theorem visitOperands_spec (f : SILFunction) (instruction : SILInstruction)
    (block : SILBasicBlock) (inReachableBlock : Bool) :
    ∀ (l : List Operand) (self : UnreachableLifetimeCompletion),
      Grows self (visitOperands f instruction block inReachableBlock l self) ∧
      (∀ x ∈ (visitOperands f instruction block inReachableBlock l self).incompleteValues,
        x ∈ self.incompleteValues ∨
          ∃ op ∈ l, op.isLifetimeEnding = true ∧ op.get = x ∧ ¬ DefUnreachable f self x) ∧
      (∀ op ∈ l, Settled f (visitOperands f instruction block inReachableBlock l self) op) ∧
      (∀ x ∈ (visitOperands f instruction block inReachableBlock l self).unreachableInsts,
        x = instruction ∨ x ∈ self.unreachableInsts) ∧
      (f.isTermInst instruction = false →
        (visitOperands f instruction block inReachableBlock l self).unreachableBlocks =
          self.unreachableBlocks) ∧
      ((∃ op ∈ l, op.isLifetimeEnding = true ∧ ¬ DefUnreachable f self op.get) →
        f.isTermInst instruction = true → ∀ s ∈ f.getSuccessorBlocks block,
        (∀ p ∈ f.getPredecessorBlocks s, p = block ∨ p ∈ self.unreachableBlocks) →
        s ∈ (visitOperands f instruction block inReachableBlock l self).unreachableBlocks) ∧
      ((∀ s ∈ f.getSuccessorBlocks block, s ∈ f.blocks) →
        weight f (visitOperands f instruction block inReachableBlock l self) ≤ weight f self)
  | [], self => by
    have e : visitOperands f instruction block inReachableBlock [] self = self := rfl
    rw [e]
    refine ⟨Grows.refl self, fun x hx => Or.inl hx,
      fun op hop => absurd hop (List.not_mem_nil op), fun x hx => Or.inr hx, fun _ => rfl, ?_,
      fun _ => le_refl _⟩
    rintro ⟨op, hop, _⟩
    exact absurd hop (List.not_mem_nil op)
  | operand :: rest, self => by
    rw [visitOperands]
    obtain ⟨i1, i2, i3, i4, i5, i6, i7⟩ := visitOperands_spec f instruction block
      inReachableBlock rest (visitOperand f instruction block inReachableBlock self operand)
    have hg := visitOperand_grows f instruction block inReachableBlock self operand
    refine ⟨hg.trans i1, ?_, ?_, ?_, ?_, ?_, ?_⟩
    · intro x hx
      rcases i2 x hx with h | ⟨op, hop, h1, h2, h3⟩
      · by_cases hs : operand.isLifetimeEnding = false ∨ DefUnreachable f self operand.get
        · rw [visitOperand_skip f instruction block inReachableBlock self operand hs] at h
          exact Or.inl h
        · rw [not_or] at hs
          have ht := visitOperand_take f instruction block inReachableBlock self operand
            (by simpa using hs.1) hs.2
          rcases (ht.2.1 x).1 h with h4 | h4
          · refine Or.inr ⟨operand, List.mem_cons_self _ _, by simpa using hs.1, h4.symm, ?_⟩
            rw [h4]
            exact hs.2
          · exact Or.inl h4
      · exact Or.inr ⟨op, List.mem_cons_of_mem _ hop, h1, h2, fun hc => h3 (hc.grows hg)⟩
    · intro op hop
      rcases List.mem_cons.1 hop with h | h
      · subst h
        exact (visitOperand_settled f instruction block inReachableBlock self op).extend i1
      · exact i3 op h
    · intro x hx
      rcases i4 x hx with h | h
      · exact Or.inl h
      · by_cases hs : operand.isLifetimeEnding = false ∨ DefUnreachable f self operand.get
        · rw [visitOperand_skip f instruction block inReachableBlock self operand hs] at h
          exact Or.inr h
        · rw [not_or] at hs
          exact (visitOperand_take f instruction block inReachableBlock self operand
            (by simpa using hs.1) hs.2).2.2.1 x h
    · intro hterm
      rw [i5 hterm]
      by_cases hs : operand.isLifetimeEnding = false ∨ DefUnreachable f self operand.get
      · rw [visitOperand_skip f instruction block inReachableBlock self operand hs]
      · rw [not_or] at hs
        exact (visitOperand_take f instruction block inReachableBlock self operand
          (by simpa using hs.1) hs.2).2.2.2.1 hterm
    · rintro ⟨op, hop, h1, h2⟩ hterm s hs hp
      by_cases hsk : operand.isLifetimeEnding = false ∨ DefUnreachable f self operand.get
      · have hop2 : op ∈ rest := by
          rcases List.mem_cons.1 hop with h | h
          · subst h
            rcases hsk with h3 | h3
            · rw [h1] at h3
              exact absurd h3 (by decide)
            · exact absurd h3 h2
          · exact h
        have hskip := visitOperand_skip f instruction block inReachableBlock self operand hsk
        rw [hskip] at i6 ⊢
        exact i6 ⟨op, hop2, h1, h2⟩ hterm s hs hp
      · rw [not_or] at hsk
        exact i1.mem_blocks
          ((visitOperand_take f instruction block inReachableBlock self operand
            (by simpa using hsk.1) hsk.2).2.2.2.2.1 hterm s hs hp)
    · intro hfin
      exact le_trans (i7 hfin)
        (visitOperand_weight f instruction block inReachableBlock self operand hfin)

/-- Whether `visitUnreachableInst` goes on to the operand loop. -/
theorem visitUnreachableInst_processed (f : SILFunction) (self : UnreachableLifetimeCompletion)
    (instruction : SILInstruction)
    (hproc : f.getParent instruction ∉ self.unreachableBlocks ∨ self.updatingLifetimes = true) :
    visitUnreachableInst f self instruction =
      visitOperands f instruction (f.getParent instruction)
        (!self.unreachableBlocks.contains (f.getParent instruction))
        (f.getAllOperands instruction) self := by
  unfold visitUnreachableInst
  have hcond : (!(!self.unreachableBlocks.contains (f.getParent instruction)) &&
      !self.updatingLifetimes) = false := by
    rcases hproc with h | h
    · have e : self.unreachableBlocks.contains (f.getParent instruction) = false := by
        simpa using h
      rw [e]
      rfl
    · rw [h]
      simp
  simp only [hcond, Bool.false_eq_true, if_false]

theorem visitUnreachableInst_not_processed (f : SILFunction)
    (self : UnreachableLifetimeCompletion) (instruction : SILInstruction)
    (hin : f.getParent instruction ∈ self.unreachableBlocks)
    (hflag : self.updatingLifetimes = false) :
    visitUnreachableInst f self instruction = self := by
  unfold visitUnreachableInst
  have e : self.unreachableBlocks.contains (f.getParent instruction) = true := by
    simpa using hin
  have hcond : (!(!self.unreachableBlocks.contains (f.getParent instruction)) &&
      !self.updatingLifetimes) = true := by
    rw [e, hflag]
    rfl
  simp only [hcond, if_true]

theorem visitUnreachableInst_grows (f : SILFunction) (self : UnreachableLifetimeCompletion)
    (instruction : SILInstruction) : Grows self (visitUnreachableInst f self instruction) := by
  by_cases hproc : f.getParent instruction ∉ self.unreachableBlocks ∨
      self.updatingLifetimes = true
  · rw [visitUnreachableInst_processed f self instruction hproc]
    exact (visitOperands_spec f instruction _ _ _ self).1
  · rw [not_or, not_not] at hproc
    rw [visitUnreachableInst_not_processed f self instruction hproc.1 (by simpa using hproc.2)]
    exact Grows.refl self

theorem visitUnreachableInst_weight (f : SILFunction) (hfin : f.SuccessorsInFunction)
    (self : UnreachableLifetimeCompletion) (instruction : SILInstruction) :
    weight f (visitUnreachableInst f self instruction) ≤ weight f self := by
  by_cases hproc : f.getParent instruction ∉ self.unreachableBlocks ∨
      self.updatingLifetimes = true
  · rw [visitUnreachableInst_processed f self instruction hproc]
    exact (visitOperands_spec f instruction _ _ _ self).2.2.2.2.2.2 (hfin _)
  · rw [not_or, not_not] at hproc
    rw [visitUnreachableInst_not_processed f self instruction hproc.1 (by simpa using hproc.2)]

end UnreachableLifetimeCompletion

namespace UnreachableLifetimeCompletion

/-- C7, as amended: for an instruction that `visitUnreachableInst` processes,
every value added to `incompleteValues` is a lifetime-ending operand of the
instruction whose definition was not unreachable when the call began (so no
operand that is not lifetime-ending, and none whose definition was already
unreachable, is added), nothing is removed, and every lifetime-ending operand
whose definition is still not unreachable when the call ends has been added.
When the instruction is not a terminator and defines none of its operands, the
values added are exactly the lifetime-ending operands whose definition was not
unreachable when the call began. -/
theorem visitUnreachableInst_incompleteValues (f : SILFunction)
    (self : UnreachableLifetimeCompletion) (instruction : SILInstruction)
    (hproc : f.getParent instruction ∉ self.unreachableBlocks ∨ self.updatingLifetimes = true) :
    (∀ v ∈ (visitUnreachableInst f self instruction).incompleteValues,
      v ∈ self.incompleteValues ∨
        ∃ op ∈ f.getAllOperands instruction,
          op.isLifetimeEnding = true ∧ op.get = v ∧ ¬ DefUnreachable f self v) ∧
    (∀ v ∈ self.incompleteValues, v ∈ (visitUnreachableInst f self instruction).incompleteValues) ∧
    (∀ op ∈ f.getAllOperands instruction, op.isLifetimeEnding = true →
      ¬ DefUnreachable f (visitUnreachableInst f self instruction) op.get →
      op.get ∈ (visitUnreachableInst f self instruction).incompleteValues) ∧
    (f.isTermInst instruction = false →
      (∀ op ∈ f.getAllOperands instruction,
        f.getDefiningInstruction op.get ≠ some instruction) →
      ∀ v, v ∈ (visitUnreachableInst f self instruction).incompleteValues ↔
        (v ∈ self.incompleteValues ∨
          ∃ op ∈ f.getAllOperands instruction,
            op.isLifetimeEnding = true ∧ op.get = v ∧ ¬ DefUnreachable f self v)) := by
  rw [visitUnreachableInst_processed f self instruction hproc]
  obtain ⟨i1, i2, i3, i4, i5, _, _⟩ := visitOperands_spec f instruction
    (f.getParent instruction) (!self.unreachableBlocks.contains (f.getParent instruction))
    (f.getAllOperands instruction) self
  have hlower : ∀ op ∈ f.getAllOperands instruction, op.isLifetimeEnding = true →
      ¬ DefUnreachable f (visitOperands f instruction (f.getParent instruction)
        (!self.unreachableBlocks.contains (f.getParent instruction))
        (f.getAllOperands instruction) self) op.get →
      op.get ∈ (visitOperands f instruction (f.getParent instruction)
        (!self.unreachableBlocks.contains (f.getParent instruction))
        (f.getAllOperands instruction) self).incompleteValues := by
    intro op hop hend hnd
    rcases i3 op hop hend with h | h
    · exact absurd h hnd
    · exact h
  refine ⟨i2, i1.values, hlower, ?_⟩
  intro hterm hnodef v
  constructor
  · exact i2 v
  · rintro (h | ⟨op, hop, hend, hv, hnd⟩)
    · exact i1.values v h
    · rw [← hv]
      apply hlower op hop hend
      rintro (hb | ⟨d, hd, hd2⟩)
      · rw [i5 hterm, hv] at hb
        exact hnd (Or.inl hb)
      · rcases i4 d hd2 with h | h
        · rw [h] at hd
          exact hnodef op hop hd
        · rw [hv] at hd
          exact hnd (Or.inr ⟨d, hd, h⟩)

/-- Witness of the amended C7: the terminator of `entry` in the diamond with
operands, visited in a new driver. -/
theorem visitUnreachableInst_incompleteValues_witness :
    (Examples.driverDiamond.getParent 2 ∉
        ({} : UnreachableLifetimeCompletion).unreachableBlocks ∨
      ({} : UnreachableLifetimeCompletion).updatingLifetimes = true) ∧
    ∀ op ∈ Examples.driverDiamond.getAllOperands 2, op.isLifetimeEnding = true →
      ¬ DefUnreachable Examples.driverDiamond
        (visitUnreachableInst Examples.driverDiamond {} 2) op.get →
      op.get ∈ (visitUnreachableInst Examples.driverDiamond {} 2).incompleteValues :=
  ⟨Or.inl (by decide),
    (visitUnreachableInst_incompleteValues Examples.driverDiamond {} 2
      (Or.inl (by decide))).2.2.1⟩

/-- C7 fails for the terminator of the latch of the loop: its operand 8 is
lifetime-ending, its defining block (the header) was not in `unreachableBlocks`
and it has no defining instruction, so its definition was not unreachable when
the call began; the call marks the header unreachable while it handles the
operand 7, and then does not add 8 to `incompleteValues`. -/
theorem visitUnreachableInst_incompleteValues_counterexample :
    Examples.loopFunction.getParent 2 ∉ Examples.loopDriver.unreachableBlocks ∧
    ({ get := 8, isLifetimeEnding := true } : Operand) ∈
      Examples.loopFunction.getAllOperands 2 ∧
    Examples.loopFunction.getParentBlock 8 ∉ Examples.loopDriver.unreachableBlocks ∧
    Examples.loopFunction.getDefiningInstruction 8 = none ∧
    visitUnreachableInst Examples.loopFunction Examples.loopDriver 2 =
      { unreachableBlocks := [9, 1], unreachableInsts := [2], incompleteValues := [7],
        updatingLifetimes := false } ∧
    8 ∉ (visitUnreachableInst Examples.loopFunction Examples.loopDriver 2).incompleteValues := by
  decide

/-- C8 at its failing input: the terminator 22 of `right` in the diamond is a
branch without operands; `merge` is its successor and has `right` as its only
predecessor; the call leaves `unreachableBlocks` empty. -/
theorem visitUnreachableInst_terminator_without_operand :
    Examples.driverDiamond.isTermInst 22 = true ∧
    Examples.driverDiamond.getParent 22 = 2 ∧
    Examples.driverDiamond.getAllOperands 22 = [] ∧
    3 ∈ Examples.driverDiamond.getSuccessorBlocks 2 ∧
    Examples.driverDiamond.getPredecessorBlocks 3 = [2] ∧
    visitUnreachableInst Examples.driverDiamond {} 22 = {} ∧
    3 ∉ (visitUnreachableInst Examples.driverDiamond {} 22).unreachableBlocks := by
  decide

theorem visitUnreachableInst_settled (f : SILFunction) (self : UnreachableLifetimeCompletion)
    (instruction : SILInstruction) (hflag : self.updatingLifetimes = true) :
    ∀ op ∈ f.getAllOperands instruction,
      Settled f (visitUnreachableInst f self instruction) op := by
  rw [visitUnreachableInst_processed f self instruction (Or.inr hflag)]
  exact (visitOperands_spec f instruction _ _ _ self).2.2.1

/-- The loop of `completeLifetimes` over the instructions of one block. -/
theorem visitInstructions_spec (f : SILFunction) :
    ∀ (l : List SILInstruction) (self : UnreachableLifetimeCompletion),
      Grows self (visitInstructions f l self) ∧
      (self.updatingLifetimes = true → ∀ instruction ∈ l,
        ∀ op ∈ f.getAllOperands instruction, Settled f (visitInstructions f l self) op) ∧
      (f.SuccessorsInFunction → weight f (visitInstructions f l self) ≤ weight f self)
  | [], self => by
    have e : visitInstructions f [] self = self := rfl
    rw [e]
    exact ⟨Grows.refl self, fun _ i hi => absurd hi (List.not_mem_nil i), fun _ => le_refl _⟩
  | instruction :: rest, self => by
    rw [visitInstructions]
    obtain ⟨i1, i2, i3⟩ := visitInstructions_spec f rest (visitUnreachableInst f self instruction)
    have hg := visitUnreachableInst_grows f self instruction
    refine ⟨hg.trans i1, ?_, ?_⟩
    · intro hflag i hi op hop
      rcases List.mem_cons.1 hi with h | h
      · subst h
        exact (visitUnreachableInst_settled f self i hflag op hop).extend i1
      · exact i2 (hg.flag.trans hflag) i h op hop
    · intro hfin
      exact le_trans (i3 hfin) (visitUnreachableInst_weight f hfin self instruction)

theorem BlockSettled.persist {f : SILFunction} {a b : UnreachableLifetimeCompletion}
    {block : SILBasicBlock} (h : BlockSettled f a block) (hg : Grows a b) :
    BlockSettled f b block :=
  fun i hi op hop => (h i hi op hop).extend hg

/-- The loop of `completeLifetimes` over the growing set of unreachable blocks
returns, and when it does every block of the set has had all its instructions
visited. -/
theorem completeLifetimesLoop_spec (f : SILFunction) (hfin : f.SuccessorsInFunction) :
    ∀ (fuel index : Nat) (self : UnreachableLifetimeCompletion),
      self.updatingLifetimes = true →
      index ≤ self.unreachableBlocks.length →
      weight f self < fuel + index →
      (∀ j < index, ∀ blk, self.unreachableBlocks[j]? = some blk → BlockSettled f self blk) →
      ∃ r, completeLifetimesLoop f fuel index self = some r ∧ Grows self r ∧
        ∀ blk ∈ r.unreachableBlocks, BlockSettled f r blk
  | 0, index, self, _, hle, hw, _ => by
    simp only [weight] at hw
    omega
  | fuel + 1, index, self, hflag, hle, hw, hdone => by
    rw [completeLifetimesLoop]
    cases hget : self.unreachableBlocks[index]? with
    | none =>
      refine ⟨self, rfl, Grows.refl self, ?_⟩
      intro blk hblk
      obtain ⟨j, hj⟩ := List.mem_iff_getElem?.1 hblk
      have hlen : self.unreachableBlocks.length ≤ index := List.getElem?_eq_none_iff.1 hget
      have hj2 : j < self.unreachableBlocks.length := by
        by_contra hc
        rw [List.getElem?_eq_none_iff.2 (Nat.le_of_not_lt hc)] at hj
        exact absurd hj (by simp)
      exact hdone j (by omega) blk hj
    | some block =>
      have hlt : index < self.unreachableBlocks.length := by
        by_contra hc
        rw [List.getElem?_eq_none_iff.2 (Nat.le_of_not_lt hc)] at hget
        exact absurd hget (by simp)
      obtain ⟨g1, g2, g3⟩ := visitInstructions_spec f (f.getInstructions block) self
      obtain ⟨extra, hextra⟩ := g1.blocks
      have hsame : ∀ j < self.unreachableBlocks.length,
          (visitInstructions f (f.getInstructions block) self).unreachableBlocks[j]? =
            self.unreachableBlocks[j]? := by
        intro j hj
        rw [hextra]
        exact List.getElem?_append_left hj
      have hlen2 : self.unreachableBlocks.length ≤
          (visitInstructions f (f.getInstructions block) self).unreachableBlocks.length := by
        rw [hextra, List.length_append]
        omega
      have hw2 := g3 hfin
      obtain ⟨r, hrun, hg, hall⟩ := completeLifetimesLoop_spec f hfin fuel (index + 1)
        (visitInstructions f (f.getInstructions block) self)
        (g1.flag.trans hflag) (by omega) (by omega)
        (by
          intro j hj blk hblk
          rw [hsame j (by omega)] at hblk
          rcases Nat.lt_or_ge j index with h | h
          · exact (hdone j h blk hblk).persist g1
          · have hji : j = index := by omega
            rw [hji, hget] at hblk
            cases hblk
            exact fun i hi op hop => g2 hflag i hi op hop)
      exact ⟨r, hrun, g1.trans hg, hall⟩

/-- The first part of `completeLifetimes` returns on a function with finitely
many blocks; the sets only grow, and in the end every block of
`unreachableBlocks` has had all its instructions visited. -/
theorem propagateUnreachableBlocks_spec (f : SILFunction) (hfin : f.SuccessorsInFunction)
    (self : UnreachableLifetimeCompletion) :
    ∃ r, propagateUnreachableBlocks f self = some r ∧
      (∀ b ∈ self.unreachableBlocks, b ∈ r.unreachableBlocks) ∧
      (∀ v ∈ self.incompleteValues, v ∈ r.incompleteValues) ∧
      r.updatingLifetimes = true ∧
      ∀ blk ∈ r.unreachableBlocks, BlockSettled f r blk := by
  have hunv : f.unvisited self.unreachableBlocks ≤ f.blocks.length := by
    unfold SILFunction.unvisited
    exact List.length_filter_le _ _
  obtain ⟨r, hrun, hg, hall⟩ := completeLifetimesLoop_spec f hfin
    (f.blocks.length + self.unreachableBlocks.length + 1) 0
    { self with updatingLifetimes := true } rfl (Nat.zero_le _)
    (by simp only [weight]; omega)
    (fun j hj => absurd hj (Nat.not_lt_zero j))
  exact ⟨r, hrun, fun b hb => hg.mem_blocks hb, hg.values, hg.flag, hall⟩

end UnreachableLifetimeCompletion

namespace UnreachableLifetimeCompletion

/-- C9, as amended: on a function with finitely many blocks, let block `B` have
`A` as its only predecessor and let `visitUnreachableInst` process the
terminator of `A`, which has a lifetime-ending operand whose definition is not
yet unreachable.  Then the propagation loop of `completeLifetimes` returns, `B`
is in `unreachableBlocks`, and every value consumed by an instruction of `B`
whose definition is not unreachable in the final state is in
`incompleteValues`. -/
theorem propagation_closure (f : SILFunction) (hfin : f.SuccessorsInFunction)
    (self : UnreachableLifetimeCompletion) (A B : SILBasicBlock)
    (terminator : SILInstruction)
    (hparent : f.getParent terminator = A) (hterm : f.isTermInst terminator = true)
    (hsucc : B ∈ f.getSuccessorBlocks A)
    (honly : ∀ p ∈ f.getPredecessorBlocks B, p = A)
    (hproc : A ∉ self.unreachableBlocks ∨ self.updatingLifetimes = true)
    (hop : ∃ op ∈ f.getAllOperands terminator,
      op.isLifetimeEnding = true ∧ ¬ DefUnreachable f self op.get) :
    ∃ r, propagateUnreachableBlocks f (visitUnreachableInst f self terminator) = some r ∧
      B ∈ r.unreachableBlocks ∧
      ∀ instruction ∈ f.getInstructions B, ∀ op ∈ f.getAllOperands instruction,
        op.isLifetimeEnding = true → ¬ DefUnreachable f r op.get →
        op.get ∈ r.incompleteValues := by
  have hB : B ∈ (visitUnreachableInst f self terminator).unreachableBlocks := by
    rw [visitUnreachableInst_processed f self terminator (by rw [hparent]; exact hproc)]
    have h := (visitOperands_spec f terminator (f.getParent terminator)
      (!self.unreachableBlocks.contains (f.getParent terminator))
      (f.getAllOperands terminator) self).2.2.2.2.2.1 hop hterm
    rw [hparent] at h ⊢
    exact h B hsucc (fun p hp => Or.inl (honly p hp))
  obtain ⟨r, hrun, hblocks, _, _, hall⟩ :=
    propagateUnreachableBlocks_spec f hfin (visitUnreachableInst f self terminator)
  refine ⟨r, hrun, hblocks B hB, ?_⟩
  intro instruction hi op hop2 hend hnd
  rcases hall B (hblocks B hB) instruction hi op hop2 hend with h | h
  · exact absurd h hnd
  · exact h

/-- Witness of the amended C9 on the diamond with operands: `left` has `entry`
as its only predecessor, and the terminator of `entry` consumes value 5.
Instruction 11 of `left` consumes value 6, defined in `entry`, and value 8,
defined in `left`: after the propagation loop `left` is in `unreachableBlocks`
and value 6 is in `incompleteValues`. -/
theorem propagation_closure_witness :
    Examples.driverDiamondOuter.SuccessorsInFunction ∧
    Examples.driverDiamondOuter.getParent 2 = 0 ∧
    Examples.driverDiamondOuter.isTermInst 2 = true ∧
    1 ∈ Examples.driverDiamondOuter.getSuccessorBlocks 0 ∧
    (∀ p ∈ Examples.driverDiamondOuter.getPredecessorBlocks 1, p = 0) ∧
    (∃ op ∈ Examples.driverDiamondOuter.getAllOperands 2,
      op.isLifetimeEnding = true ∧
      ¬ DefUnreachable Examples.driverDiamondOuter {} op.get) ∧
    11 ∈ Examples.driverDiamondOuter.getInstructions 1 ∧
    ({ get := 6, isLifetimeEnding := true } : Operand) ∈
      Examples.driverDiamondOuter.getAllOperands 11 ∧
    propagateUnreachableBlocks Examples.driverDiamondOuter
        (visitUnreachableInst Examples.driverDiamondOuter {} 2) =
      some { unreachableBlocks := [1, 2], unreachableInsts := [2],
             incompleteValues := [5, 6], updatingLifetimes := true } ∧
    ∃ r, propagateUnreachableBlocks Examples.driverDiamondOuter
        (visitUnreachableInst Examples.driverDiamondOuter {} 2) = some r ∧
      1 ∈ r.unreachableBlocks ∧
      ∀ instruction ∈ Examples.driverDiamondOuter.getInstructions 1,
        ∀ op ∈ Examples.driverDiamondOuter.getAllOperands instruction,
        op.isLifetimeEnding = true →
        ¬ DefUnreachable Examples.driverDiamondOuter r op.get →
        op.get ∈ r.incompleteValues :=
  have hfin : Examples.driverDiamondOuter.SuccessorsInFunction :=
    Examples.diamond_successorsInFunction
  have hop : ∃ op ∈ Examples.driverDiamondOuter.getAllOperands 2,
      op.isLifetimeEnding = true ∧
      ¬ DefUnreachable Examples.driverDiamondOuter {} op.get :=
    ⟨{ get := 5, isLifetimeEnding := true }, by decide, rfl, by
      rintro (h | ⟨d, _, h⟩)
      · exact absurd h (List.not_mem_nil _)
      · exact absurd h (List.not_mem_nil _)⟩
  ⟨hfin, rfl, rfl, by decide, by decide, hop, by decide, by decide, by decide,
    propagation_closure Examples.driverDiamondOuter hfin {} 0 1 2 rfl rfl (by decide)
      (by decide) (Or.inl (by decide)) hop⟩

/-- C9 fails in two ways on the diamond with operands.  For a value defined in
`B` itself: `left` (1) has `entry` (0) as its only predecessor and the
terminator 2 of `entry` is processed by `visitUnreachableInst` in a new driver;
value 8 is consumed by instruction 11 of `left` and by no instruction of
another block; after the propagation loop `left` is in `unreachableBlocks`, and
8 is not in `incompleteValues`.  And for a terminator without operands: `merge`
(3) has `right` (2) as its only predecessor and the terminator 22 of `right`,
which has no operand, is processed by `visitUnreachableInst` in a new driver;
after the propagation loop `merge` is not in `unreachableBlocks`. -/
theorem propagation_closure_counterexample :
    (Examples.driverDiamond.getPredecessorBlocks 1 = [0] ∧
      Examples.driverDiamond.getParent 2 = 0 ∧
      Examples.driverDiamond.getTerminator 0 = 2 ∧
      Examples.driverDiamond.getParent 2 ∉
        ({} : UnreachableLifetimeCompletion).unreachableBlocks ∧
      11 ∈ Examples.driverDiamond.getInstructions 1 ∧
      ({ get := 8, isLifetimeEnding := true } : Operand) ∈
        Examples.driverDiamond.getAllOperands 11 ∧
      (∀ b ∈ Examples.driverDiamond.blocks, ∀ i ∈ Examples.driverDiamond.getInstructions b,
        ∀ op ∈ Examples.driverDiamond.getAllOperands i, op.get = 8 → b = 1) ∧
      propagateUnreachableBlocks Examples.driverDiamond
          (visitUnreachableInst Examples.driverDiamond {} 2) =
        some { unreachableBlocks := [1, 2], unreachableInsts := [2], incompleteValues := [5],
               updatingLifetimes := true } ∧
      ¬ (∀ r, propagateUnreachableBlocks Examples.driverDiamond
            (visitUnreachableInst Examples.driverDiamond {} 2) = some r →
          1 ∈ r.unreachableBlocks ∧ 8 ∈ r.incompleteValues)) ∧
    (Examples.driverDiamond.getPredecessorBlocks 3 = [2] ∧
      Examples.driverDiamond.getParent 22 = 2 ∧
      Examples.driverDiamond.getTerminator 2 = 22 ∧
      Examples.driverDiamond.isTermInst 22 = true ∧
      Examples.driverDiamond.getAllOperands 22 = [] ∧
      Examples.driverDiamond.getParent 22 ∉
        ({} : UnreachableLifetimeCompletion).unreachableBlocks ∧
      propagateUnreachableBlocks Examples.driverDiamond
          (visitUnreachableInst Examples.driverDiamond {} 22) =
        some { unreachableBlocks := [], unreachableInsts := [], incompleteValues := [],
               updatingLifetimes := true } ∧
      ¬ (∀ r, propagateUnreachableBlocks Examples.driverDiamond
            (visitUnreachableInst Examples.driverDiamond {} 22) = some r →
          3 ∈ r.unreachableBlocks)) := by
  refine ⟨⟨by decide, by decide, by decide, by decide, by decide, by decide, by decide,
    by decide, ?_⟩, by decide, by decide, by decide, by decide, by decide, by decide,
    by decide, ?_⟩
  · intro h
    have h1 := (h _ (by decide :
      propagateUnreachableBlocks Examples.driverDiamond
          (visitUnreachableInst Examples.driverDiamond {} 2) =
        some { unreachableBlocks := [1, 2], unreachableInsts := [2], incompleteValues := [5],
               updatingLifetimes := true })).2
    exact absurd h1 (by decide)
  · intro h
    have h1 := h _ (by decide :
      propagateUnreachableBlocks Examples.driverDiamond
          (visitUnreachableInst Examples.driverDiamond {} 22) =
        some { unreachableBlocks := [], unreachableInsts := [], incompleteValues := [],
               updatingLifetimes := true })
    exact absurd h1 (by decide)

end UnreachableLifetimeCompletion

namespace AvailabilityBoundaryVisitor

/-- In the result of `propagateAvailablity`, a successor that is not a start
block of an Unavailable block is Unavailable. -/
theorem unavailable_step (self : AvailabilityBoundaryVisitor) (f : SILFunction)
    (hpred : f.PredecessorsInverse) (result : Result)
    (hinv : PropagateInv self f {} result) (y z : SILBasicBlock)
    (hy : result.getState y = State.Unavailable) (hz : z ∈ f.getSuccessorBlocks y)
    (hzs : z ∉ self.starts) : result.getState z = State.Unavailable := by
  by_cases hreg : z ∈ self.region
  · apply State.toNat_injective
    rcases hinv.pending z hreg hzs with h | h
    · exact absurd h (List.not_mem_nil z)
    · have h2 := meetPredecessors_le_mem f result z y ((hpred y z).2 hz)
      rw [hy] at h2
      have h3 : State.Unavailable.toNat = 0 := rfl
      omega
  · exact hinv.outside z hreg

theorem unavailable_path (self : AvailabilityBoundaryVisitor) (f : SILFunction)
    (hpred : f.PredecessorsInverse) (result : Result)
    (hinv : PropagateInv self f {} result) (y z : SILBasicBlock)
    (hy : result.getState y = State.Unavailable)
    (hpath : Relation.ReflTransGen
      (fun a b => b ∈ f.getSuccessorBlocks a ∧ b ∉ self.starts) y z) :
    result.getState z = State.Unavailable := by
  induction hpath with
  | refl => exact hy
  | tail _ hbc ih => exact unavailable_step self f hpred result hinv _ _ ih hbc.1 hbc.2

theorem nodup_visitLoop (f : SILFunction) (result : Result)
    (hterm : Function.Injective f.getTerminator) :
    ∀ l : List SILBasicBlock, l.Nodup → (visitAvailabilityBoundaryLoop f result l).Nodup
  | [], _ => by simp [visitAvailabilityBoundaryLoop]
  | block :: rest, hnd => by
    obtain ⟨hb, hnd2⟩ := List.nodup_cons.1 hnd
    have ih := nodup_visitLoop f result hterm rest hnd2
    by_cases h : onBoundary f result block
    · rw [visitLoop_cons_pos f result block rest h]
      refine List.nodup_cons.2 ⟨?_, ih⟩
      intro hmem
      obtain ⟨b, hbr, _, hp⟩ := (mem_visitLoop f result _ rest).1 hmem
      have hbb : block = b := hterm (congrArg Prod.fst hp)
      exact hb (hbb ▸ hbr)
    · rw [visitLoop_cons_neg f result block rest h]
      exact ih

/-- In the result of `propagateAvailablity`, an Unavailable successor of an
Available region block has a further predecessor: on a function without
critical edges it is the only successor of that block. -/
theorem single_unavailable_successor (self : AvailabilityBoundaryVisitor) (f : SILFunction)
    (hcrit : f.NoCriticalEdges)
    (hclosed : ∀ b ∈ self.region, ∀ s ∈ f.getSuccessorBlocks b, s ∈ self.region)
    (result : Result) (hinv : PropagateInv self f {} result) (b s : SILBasicBlock)
    (hb : b ∈ self.region) (hav : result.getState b = State.Available)
    (hs : s ∈ f.getSuccessorBlocks b) (hun : result.getState s = State.Unavailable) :
    f.getSuccessorBlocks b = [s] := by
  rcases hcrit b s hs with h | h
  · exact h
  · exfalso
    have hsr : s ∈ self.region := hclosed b hb s hs
    have hss : s ∉ self.starts := by
      intro hss
      rw [hinv.atStarts s hss] at hun
      exact absurd hun (by decide)
    have habove := hinv.above s hsr hss
    have hmeet : meetPredecessors f result s = State.Unknown.meet (result.getState b) := by
      unfold meetPredecessors
      rw [h]
      rfl
    rw [hmeet, hav, hun] at habove
    exact absurd habove (by decide)

/-- Along a path that enters no start block, Unavailable is passed on. -/
theorem unavailable_chain (self : AvailabilityBoundaryVisitor) (f : SILFunction)
    (hpred : f.PredecessorsInverse) (result : Result)
    (hinv : PropagateInv self f {} result) :
    ∀ (path : List SILBasicBlock) (x : SILBasicBlock),
      result.getState x = State.Unavailable →
      List.Chain (fun a c => c ∈ f.getSuccessorBlocks a) x path →
      (∀ y ∈ path, y ∉ self.starts) →
      result.getState ((x :: path).getLast (List.cons_ne_nil x path)) = State.Unavailable
  | [], _, hx, _, _ => hx
  | y :: rest, x, hx, hchain, hns => by
    obtain ⟨hxy, hrest⟩ := List.chain_cons.1 hchain
    have hy := unavailable_step self f hpred result hinv x y hx hxy
      (hns y (List.mem_cons_self _ _))
    exact unavailable_chain self f hpred result hinv rest y hy hrest
      (fun z hz => hns z (List.mem_cons_of_mem _ hz))

/-- C10, as amended: on a function with finitely many blocks whose predecessor
lists are the inverse of its successor lists and whose blocks have distinct
terminators, the availability-boundary visitor returns its visits; no position
is visited twice; and no block that is reached from an Unavailable block along
successor edges that do not enter a start block is visited.  When the function
has no critical edge, a visited block that has a successor has exactly one,
and that successor is Unavailable; so every path from a visited block to a
visited block passes, after its first block, through a start block: on a path
there is no second Boundary visit until a start block is entered again. -/
theorem boundary_minimality (value : SILValue) (f : SILFunction)
    (liveness : SSAPrunedLiveness) (hfin : f.SuccessorsInFunction)
    (hpred : f.PredecessorsInverse) (hterm : Function.Injective f.getTerminator) :
    ∃ (v : AvailabilityBoundaryVisitor) (result : Result) (visits : List VisitCall),
      computeRegion { value := value } f liveness = some v ∧
      v.propagateAvailablity f Result.fresh = some result ∧
      visit { value := value } f liveness Result.fresh = some visits ∧
      visits.Nodup ∧
      (∀ y z : SILBasicBlock, result.getState y = State.Unavailable →
        Relation.ReflTransGen
          (fun a b => b ∈ f.getSuccessorBlocks a ∧ b ∉ v.starts) y z →
        (f.getTerminator z, LifetimeEnd.Boundary) ∉ visits) ∧
      (f.NoCriticalEdges →
        (∀ b : SILBasicBlock, (f.getTerminator b, LifetimeEnd.Boundary) ∈ visits →
          f.getSuccessorBlocks b ≠ [] →
          ∃ s, f.getSuccessorBlocks b = [s] ∧ result.getState s = State.Unavailable) ∧
        (∀ (b : SILBasicBlock) (path : List SILBasicBlock), path ≠ [] →
          List.Chain (fun a c => c ∈ f.getSuccessorBlocks a) b path →
          (f.getTerminator b, LifetimeEnd.Boundary) ∈ visits →
          (f.getTerminator ((b :: path).getLast (List.cons_ne_nil b path)),
            LifetimeEnd.Boundary) ∈ visits →
          ∃ s ∈ path, s ∈ v.starts)) := by
  obtain ⟨v, hv, _, _, _, hsub, hclosed, hnd⟩ := computeRegion_run value f liveness hfin
  obtain ⟨result, hr, hinv⟩ := propagateAvailablity_run v f hpred hsub hnd
  have hvisited : ∀ b : SILBasicBlock,
      (f.getTerminator b, LifetimeEnd.Boundary) ∈ v.visitAvailabilityBoundary f result →
      b ∈ v.region ∧ onBoundary f result b := by
    intro b hmem
    obtain ⟨b2, hb2, hob, hp⟩ := (mem_visitLoop f result _ v.region).1 hmem
    have hbb : b = b2 := hterm (congrArg Prod.fst hp)
    rw [hbb]
    exact ⟨hb2, hob⟩
  refine ⟨v, result, v.visitAvailabilityBoundary f result, hv, hr, ?_, ?_, ?_, ?_⟩
  · simp only [visit, hv, hr]
  · exact nodup_visitLoop f result hterm v.region hnd
  · intro y z hy hpath hmem
    have hz := unavailable_path v f hpred result hinv y z hy hpath
    have hob := (hvisited z hmem).2
    rw [hob.1] at hz
    exact absurd hz (by decide)
  · intro hcrit
    have hsingle : ∀ b : SILBasicBlock,
        (f.getTerminator b, LifetimeEnd.Boundary) ∈ v.visitAvailabilityBoundary f result →
        f.getSuccessorBlocks b ≠ [] →
        ∃ s, f.getSuccessorBlocks b = [s] ∧ result.getState s = State.Unavailable := by
      intro b hmem hne
      obtain ⟨hb, hav, hsucc⟩ := hvisited b hmem
      rcases hsucc with h | ⟨s, hs, hun⟩
      · exact absurd h hne
      · exact ⟨s, single_unavailable_successor v f hcrit hclosed result hinv b s hb hav hs hun,
          hun⟩
    refine ⟨hsingle, ?_⟩
    intro b path hpath hchain hb hlast
    cases path with
    | nil => exact absurd rfl hpath
    | cons s1 rest =>
      obtain ⟨hbs, hrest⟩ := List.chain_cons.1 hchain
      obtain ⟨s, hs, hun⟩ := hsingle b hb (List.ne_nil_of_mem hbs)
      rw [hs, List.mem_singleton] at hbs
      subst hbs
      by_contra hno
      have hns : ∀ y ∈ s1 :: rest, y ∉ v.starts := fun y hy hys => hno ⟨y, hy, hys⟩
      have hs1 : s1 ∉ v.starts := hns s1 (List.mem_cons_self _ _)
      have hz := unavailable_chain v f hpred result hinv rest s1 hun hrest
        (fun y hy => hns y (List.mem_cons_of_mem _ hy))
      have hlast2 : (f.getTerminator ((s1 :: rest).getLast (List.cons_ne_nil s1 rest)),
          LifetimeEnd.Boundary) ∈ v.visitAvailabilityBoundary f result := hlast
      have hob := (hvisited _ hlast2).2
      rw [hob.1] at hz
      exact absurd hz (by decide)

end AvailabilityBoundaryVisitor

namespace Examples

theorem fork_successorsInFunction : forkFunction.SuccessorsInFunction := by
  intro b s hs
  have h : (b, s) ∈ forkEdges := (mem_successorsOf forkEdges b s).1 hs
  have hall : ∀ e ∈ forkEdges, e.2 ∈ forkFunction.blocks := by decide
  exact hall (b, s) h

theorem fork_predecessorsInverse : forkFunction.PredecessorsInverse := by
  intro a b
  show a ∈ predecessorsOf forkEdges b ↔ b ∈ successorsOf forkEdges a
  rw [mem_predecessorsOf, mem_successorsOf]

theorem fork_terminator_injective : Function.Injective forkFunction.getTerminator := by
  intro a b h
  have h2 : 10 * a + 2 = 10 * b + 2 := h
  exact Nat.eq_of_mul_eq_mul_left (by decide : 0 < 10) (Nat.add_right_cancel h2)

theorem headerLoop_successorsInFunction : headerLoop.SuccessorsInFunction := by
  intro b s hs
  have h : (b, s) ∈ headerLoopEdges := (mem_successorsOf headerLoopEdges b s).1 hs
  have hall : ∀ e ∈ headerLoopEdges, e.2 ∈ headerLoop.blocks := by decide
  exact hall (b, s) h

theorem headerLoop_predecessorsInverse : headerLoop.PredecessorsInverse := by
  intro a b
  show a ∈ predecessorsOf headerLoopEdges b ↔ b ∈ successorsOf headerLoopEdges a
  rw [mem_predecessorsOf, mem_successorsOf]

theorem headerLoop_terminator_injective : Function.Injective headerLoop.getTerminator := by
  intro a b h
  have h2 : 10 * a + 2 = 10 * b + 2 := h
  exact Nat.eq_of_mul_eq_mul_left (by decide : 0 < 10) (Nat.add_right_cancel h2)

theorem headerLoop_noCriticalEdges : headerLoop.NoCriticalEdges := by
  intro a b hs
  have h : (a, b) ∈ headerLoopEdges := (mem_successorsOf headerLoopEdges a b).1 hs
  have hall : ∀ e ∈ headerLoopEdges,
      headerLoop.getSuccessorBlocks e.1 = [e.2] ∨
        headerLoop.getPredecessorBlocks e.2 = [e.1] := by
    decide
  exact hall (a, b) h

end Examples

namespace AvailabilityBoundaryVisitor

/-- Witness of the amended C10 on the loop with a dead-end exit, which has no
critical edge: the terminators of the body and of the exit are visited, and
the path from the body to the exit re-enters a start block, the exit itself,
after the Unavailable header. -/
theorem boundary_minimality_witness :
    Examples.headerLoop.SuccessorsInFunction ∧
    Examples.headerLoop.PredecessorsInverse ∧
    Function.Injective Examples.headerLoop.getTerminator ∧
    Examples.headerLoop.NoCriticalEdges ∧
    computeRegion { value := 0 } Examples.headerLoop Examples.headerLoopLiveness =
      some { value := 0, starts := [3, 2], region := [2, 3, 1] } ∧
    visit { value := 0 } Examples.headerLoop Examples.headerLoopLiveness Result.fresh =
      some [(22, LifetimeEnd.Boundary), (32, LifetimeEnd.Boundary)] ∧
    ∃ (v : AvailabilityBoundaryVisitor) (result : Result) (visits : List VisitCall),
      computeRegion { value := 0 } Examples.headerLoop Examples.headerLoopLiveness = some v ∧
      v.propagateAvailablity Examples.headerLoop Result.fresh = some result ∧
      visit { value := 0 } Examples.headerLoop Examples.headerLoopLiveness Result.fresh =
        some visits ∧
      visits.Nodup ∧
      (∀ y z : SILBasicBlock, result.getState y = State.Unavailable →
        Relation.ReflTransGen
          (fun a b => b ∈ Examples.headerLoop.getSuccessorBlocks a ∧ b ∉ v.starts) y z →
        (Examples.headerLoop.getTerminator z, LifetimeEnd.Boundary) ∉ visits) ∧
      (Examples.headerLoop.NoCriticalEdges →
        (∀ b : SILBasicBlock,
          (Examples.headerLoop.getTerminator b, LifetimeEnd.Boundary) ∈ visits →
          Examples.headerLoop.getSuccessorBlocks b ≠ [] →
          ∃ s, Examples.headerLoop.getSuccessorBlocks b = [s] ∧
            result.getState s = State.Unavailable) ∧
        (∀ (b : SILBasicBlock) (path : List SILBasicBlock), path ≠ [] →
          List.Chain (fun a c => c ∈ Examples.headerLoop.getSuccessorBlocks a) b path →
          (Examples.headerLoop.getTerminator b, LifetimeEnd.Boundary) ∈ visits →
          (Examples.headerLoop.getTerminator
              ((b :: path).getLast (List.cons_ne_nil b path)),
            LifetimeEnd.Boundary) ∈ visits →
          ∃ s ∈ path, s ∈ v.starts)) :=
  ⟨Examples.headerLoop_successorsInFunction, Examples.headerLoop_predecessorsInverse,
    Examples.headerLoop_terminator_injective, Examples.headerLoop_noCriticalEdges,
    rfl, by decide,
    boundary_minimality 0 Examples.headerLoop Examples.headerLoopLiveness
      Examples.headerLoop_successorsInFunction Examples.headerLoop_predecessorsInverse
      Examples.headerLoop_terminator_injective⟩

/-- C10 fails on the loop with a dead-end exit, a function without critical
edges.  Value 0 is defined in the header and last used in the body; the edge
from the header to the exit is a boundary edge.  The header is Unavailable,
because it is also entered from `entry`, so the body is visited; the exit is
Available and has no successor, so it is visited too; and the exit is reached
from the body through the header.  Every region block without successors ends
in an `unreachable`. -/
theorem boundary_minimality_counterexample :
    Examples.headerLoop.NoCriticalEdges ∧
    (computeRegionChecked { value := 0 } Examples.headerLoop
      Examples.headerLoopLiveness).map Prod.snd = some true ∧
    visit { value := 0 } Examples.headerLoop Examples.headerLoopLiveness Result.fresh =
      some [(22, LifetimeEnd.Boundary), (32, LifetimeEnd.Boundary)] ∧
    Examples.headerLoop.getTerminator 2 = 22 ∧
    Examples.headerLoop.getTerminator 3 = 32 ∧
    1 ∈ Examples.headerLoop.getSuccessorBlocks 2 ∧
    3 ∈ Examples.headerLoop.getSuccessorBlocks 1 ∧
    ¬ (∀ visits, visit { value := 0 } Examples.headerLoop Examples.headerLoopLiveness
          Result.fresh = some visits →
        ∀ x z : SILBasicBlock,
          (Examples.headerLoop.getTerminator x, LifetimeEnd.Boundary) ∈ visits →
          (Examples.headerLoop.getTerminator z, LifetimeEnd.Boundary) ∈ visits →
          x ≠ z → ¬ Examples.headerLoop.Reachable x z) := by
  refine ⟨Examples.headerLoop_noCriticalEdges, by decide, by decide, rfl, rfl, by decide,
    by decide, ?_⟩
  intro h
  exact h _ (by decide :
      visit { value := 0 } Examples.headerLoop Examples.headerLoopLiveness Result.fresh =
        some [(22, LifetimeEnd.Boundary), (32, LifetimeEnd.Boundary)])
    2 3 (by decide) (by decide) (by decide)
    (Relation.ReflTransGen.tail
      (Relation.ReflTransGen.single
        (by decide : (1 : SILBasicBlock) ∈ Examples.headerLoop.getSuccessorBlocks 2))
      (by decide : (3 : SILBasicBlock) ∈ Examples.headerLoop.getSuccessorBlocks 1))

end AvailabilityBoundaryVisitor

/-! ## The meet of availability states -/

namespace AvailabilityBoundaryVisitor

/-- C18: `State::meet` returns the minimum of its two arguments under the total
order Unavailable < Available < Unknown given by the numeric values of the
enumerators; so `meet` is commutative, associative and idempotent, `Unknown` is
its identity and `Unavailable` is absorbing. -/
theorem State.meet_min :
    (State.Unavailable.toNat < State.Available.toNat ∧
      State.Available.toNat < State.Unknown.toNat) ∧
    (∀ a b : State, a.toNat ≤ b.toNat ∨ b.toNat ≤ a.toNat) ∧
    (∀ a b : State, a.toNat = b.toNat → a = b) ∧
    (∀ a b : State, (a.meet b).toNat = min a.toNat b.toNat) ∧
    (∀ a b : State, a.meet b = if a.toNat ≤ b.toNat then a else b) ∧
    (∀ a b : State, a.meet b = b.meet a) ∧
    (∀ a b c : State, (a.meet b).meet c = a.meet (b.meet c)) ∧
    (∀ a : State, a.meet a = a) ∧
    (∀ a : State, a.meet State.Unknown = a ∧ State.Unknown.meet a = a) ∧
    (∀ a : State, a.meet State.Unavailable = State.Unavailable ∧
      State.Unavailable.meet a = State.Unavailable) := by
  refine ⟨by decide, ?_, State.toNat_injective, State.toNat_meet, ?_, ?_, ?_, ?_, ?_, ?_⟩
  · intro a b
    exact Nat.le_total _ _
  · intro a b
    cases a <;> cases b <;> rfl
  · intro a b
    cases a <;> cases b <;> rfl
  · intro a b c
    cases a <;> cases b <;> cases c <;> rfl
  · intro a
    cases a <;> rfl
  · intro a
    cases a <;> exact ⟨rfl, rfl⟩
  · intro a
    cases a <;> exact ⟨rfl, rfl⟩

end AvailabilityBoundaryVisitor

/-! ## The emitted instruction and the returned flag -/

/-- C13: `endOSSALifetime` creates one instruction at the builder's position: an
extend-lifetime of the value when the end-kind is Loop, whatever the ownership
kind; otherwise, for an Owned value, a dealloc-box if the type of the value is
a box and else a destroy-value, each with the dead-end flag of the insertion
block; otherwise an end-borrow of the value that `lookThroughBorrowedFromUser`
returns.  Inserting through it adds exactly that one instruction. -/
theorem endOSSALifetime_spec (f : SILFunction) (value : SILValue) (builder : InsertionPoint) :
    endOSSALifetime f value LifetimeEnd.Loop builder = CreatedInst.ExtendLifetime value ∧
    (f.getOwnershipKind value = OwnershipKind.Owned → f.isBoxType value = true →
      endOSSALifetime f value LifetimeEnd.Boundary builder =
        CreatedInst.DeallocBox value (f.isDeadEnd (builder.getInsertionBB f))) ∧
    (f.getOwnershipKind value = OwnershipKind.Owned → f.isBoxType value = false →
      endOSSALifetime f value LifetimeEnd.Boundary builder =
        CreatedInst.DestroyValue value (f.isDeadEnd (builder.getInsertionBB f))) ∧
    (f.getOwnershipKind value ≠ OwnershipKind.Owned →
      endOSSALifetime f value LifetimeEnd.Boundary builder =
        CreatedInst.EndBorrow (f.lookThroughBorrowedFromUser value)) ∧
    (∀ (c : Completion) (lifetimeEnd : LifetimeEnd),
      (c.insert f value lifetimeEnd builder).insertions =
        c.insertions ++
          [{ point := builder, inst := endOSSALifetime f value lifetimeEnd builder }]) := by
  refine ⟨rfl, ?_, ?_, ?_, fun _ _ => rfl⟩
  · intro hown hbox
    simp [endOSSALifetime, hown, hbox]
  · intro hown hbox
    simp [endOSSALifetime, hown, hbox]
  · intro hown
    simp [endOSSALifetime, hown]

/-- Witness of C13 on the diamond, whose value 0 is owned and not a box. -/
theorem endOSSALifetime_spec_witness :
    Examples.diamond.getOwnershipKind 0 = OwnershipKind.Owned ∧
    Examples.diamond.isBoxType 0 = false ∧
    endOSSALifetime Examples.diamond 0 LifetimeEnd.Boundary (InsertionPoint.before 12) =
      CreatedInst.DestroyValue 0
        (Examples.diamond.isDeadEnd
          ((InsertionPoint.before 12).getInsertionBB Examples.diamond)) :=
  ⟨rfl, rfl,
    (endOSSALifetime_spec Examples.diamond 0 (InsertionPoint.before 12)).2.2.1 rfl rfl⟩

theorem endAtLastUsers_changed (f : SILFunction) (value : SILValue)
    (liveness : SSAPrunedLiveness) :
    ∀ (lastUsers : List SILInstruction) (c : Completion),
      (endAtLastUsers f value liveness lastUsers c).changed =
        (c.changed || lastUsers.any (fun lastUser =>
          liveness.isInterestingUser lastUser != IsInterestingUser.LifetimeEndingUse))
  | [], c => by simp [endAtLastUsers]
  | lastUser :: rest, c => by
    rw [endAtLastUsers, endAtLastUsers_changed f value liveness rest]
    by_cases h : (liveness.isInterestingUser lastUser != IsInterestingUser.LifetimeEndingUse)
        = true
    · simp only [h, if_true, endAtBuilders_flag, List.any_cons, Bool.true_or, Bool.or_true]
    · simp only [Bool.not_eq_true] at h
      simp only [h, Bool.false_eq_true, if_false, List.any_cons, Bool.false_or]

theorem endAtBoundaryEdges_changed (f : SILFunction) (value : SILValue) :
    ∀ (edges : List SILBasicBlock) (c : Completion),
      (endAtBoundaryEdges f value edges c).changed = (c.changed || !edges.isEmpty)
  | [], c => by simp [endAtBoundaryEdges]
  | edge :: rest, c => by
    rw [endAtBoundaryEdges, endAtBoundaryEdges_changed f value rest]
    simp [Completion.insert]

theorem endAtDeadDefs_changed (f : SILFunction) (value : SILValue) :
    ∀ (deadDefs : List SILNode) (c : Completion),
      (endAtDeadDefs f value deadDefs c).changed = (c.changed || !deadDefs.isEmpty)
  | [], c => by simp [endAtDeadDefs]
  | deadDef :: rest, c => by
    rw [endAtDeadDefs, endAtDeadDefs_changed f value rest]
    simp [Completion.insert]

/-- The flag that `endLifetimeAtLivenessBoundary` returns. -/
theorem endLifetimeAtLivenessBoundary_changed (f : SILFunction) (value : SILValue)
    (liveness : SSAPrunedLiveness) :
    (endLifetimeAtLivenessBoundary f value liveness).changed =
      ((liveness.boundary.lastUsers.any (fun lastUser =>
          liveness.isInterestingUser lastUser != IsInterestingUser.LifetimeEndingUse) ||
        !liveness.boundary.boundaryEdges.isEmpty) ||
        !liveness.boundary.deadDefs.isEmpty) := by
  simp only [endLifetimeAtLivenessBoundary, endAtDeadDefs_changed, endAtBoundaryEdges_changed,
    endAtLastUsers_changed, Bool.false_or]

theorem Completion.eq_empty (c : Completion) (h1 : c.changed = false)
    (h2 : c.insertions = []) : c = {} := by
  cases c
  simp only at h1 h2
  subst h1
  subst h2
  rfl

namespace AvailabilityBoundaryVisitor

theorem collectEndBlocks_consuming (consuming : List SILBasicBlock) :
    ∀ (endBlocks : List SILBasicBlock) (st : RegionState),
      (∀ b ∈ endBlocks, b ∈ consuming) → collectEndBlocks consuming endBlocks st = st
  | [], _, _ => rfl
  | endBlock :: rest, st, h => by
    have e : consuming.contains endBlock = true := by
      simpa using h endBlock (List.mem_cons_self _ _)
    rw [collectEndBlocks]
    simp only [e, Bool.not_true, Bool.false_eq_true, if_false]
    exact collectEndBlocks_consuming consuming rest st
      (fun b hb => h b (List.mem_cons_of_mem _ hb))

end AvailabilityBoundaryVisitor

theorem visitUsersOutsideLoop_eq_nil (f : SILFunction) (liveness : SSAPrunedLiveness)
    (users : List (SILInstruction × Bool))
    (h : ∀ u, (u, false) ∈ users → liveness.linearIsWithinBoundary u = true) :
    visitUsersOutsideLoop f liveness users = [] := by
  rw [List.eq_nil_iff_forall_not_mem]
  intro u hu
  obtain ⟨h1, _, h3⟩ := (mem_visitUsersOutsideLoop f liveness u users).1 hu
  rw [h u h1] at h3
  exact absurd h3 (by decide)

/-- What completion does for a liveness result that describes a complete
lifetime: nothing. -/
theorem complete_own (f : SILFunction) (value : SILValue) (liveness : SSAPrunedLiveness)
    (hcomplete : liveness.Complete f) :
    endLifetimeAtLivenessBoundary f value liveness = {} ∧
    AvailabilityBoundaryVisitor.computeRegion { value := value } f liveness =
      some { value := value, starts := [], region := [] } ∧
    OSSALifetimeCompletion.visitAvailabilityBoundary f value liveness = some [] ∧
    endLifetimeAtAvailabilityBoundary f value liveness = some {} := by
  obtain ⟨hco, hlast, hedges, hdead, houtside⟩ := hcomplete
  have hfilter : liveness.boundary.lastUsers.filter (fun lastUser =>
      liveness.isInterestingUser lastUser != IsInterestingUser.LifetimeEndingUse) = [] := by
    rw [List.filter_eq_nil_iff]
    intro u hu
    rw [hlast u hu]
    decide
  have hany : liveness.boundary.lastUsers.any (fun lastUser =>
      liveness.isInterestingUser lastUser != IsInterestingUser.LifetimeEndingUse) = false := by
    rw [List.any_eq_false]
    intro u hu
    rw [hlast u hu]
    decide
  have hliveness : endLifetimeAtLivenessBoundary f value liveness = {} := by
    apply Completion.eq_empty
    · rw [endLifetimeAtLivenessBoundary_changed, hany, hedges, hdead]
      rfl
    · rw [endLifetimeAtLivenessBoundary_insertions, hfilter, hedges, hdead]
      rfl
  have hstarts : AvailabilityBoundaryVisitor.computeRegionStarts { value := value } f liveness
      = {} := by
    unfold AvailabilityBoundaryVisitor.computeRegionStarts
    simp only [hco.boundaryEdges, hedges, AvailabilityBoundaryVisitor.collectEdges]
    apply AvailabilityBoundaryVisitor.collectEndBlocks_consuming
    intro b hb
    rw [AvailabilityBoundaryVisitor.mem_consumingBlocks]
    refine Or.inr ?_
    rcases hco.endBlocks b hb with ⟨u, hu, hub⟩ | ⟨d, hd, _⟩
    · exact ⟨(u, true), (hco.ending u).1 (hlast u hu), rfl, hub⟩
    · rw [hdead] at hd
      exact absurd hd (List.not_mem_nil d)
  have hregion : AvailabilityBoundaryVisitor.computeRegion { value := value } f liveness =
      some { value := value, starts := [], region := [] } := by
    unfold AvailabilityBoundaryVisitor.computeRegion
    rw [hstarts]
    rfl
  have hvisit : AvailabilityBoundaryVisitor.visit { value := value } f liveness
      AvailabilityBoundaryVisitor.Result.fresh = some [] := by
    unfold AvailabilityBoundaryVisitor.visit
    rw [hregion]
    rfl
  have houtsideUsers : visitUsersOutsideLinearLivenessBoundary f value liveness = [] := by
    unfold visitUsersOutsideLinearLivenessBoundary
    split
    · rfl
    · exact visitUsersOutsideLoop_eq_nil f liveness liveness.users houtside
  have hvisits : OSSALifetimeCompletion.visitAvailabilityBoundary f value liveness = some [] := by
    unfold OSSALifetimeCompletion.visitAvailabilityBoundary
    simp only [hvisit, houtsideUsers]
    rfl
  refine ⟨hliveness, hregion, hvisits, ?_⟩
  simp only [endLifetimeAtAvailabilityBoundary, hvisits]
  rfl

namespace OSSALifetimeCompletion

/-- When the completion of each inner scope inserts nothing,
`handleInnerScopes` inserts nothing. -/
theorem handleInnerScopes_nothing (f : SILFunction) (boundary : Boundary) :
    ∀ innerScopes : List (SILValue × InteriorLiveness),
      (∀ scope ∈ innerScopes,
        analyzeAndUpdateLifetime f scope.1 scope.2 boundary = some {}) →
      handleInnerScopes f innerScopes boundary = some []
  | [], _ => by rw [handleInnerScopes]
  | scope :: rest, h => by
    rw [handleInnerScopes_cons, h scope (List.mem_cons_self _ _),
      handleInnerScopes_nothing f boundary rest
        (fun scope2 h2 => h scope2 (List.mem_cons_of_mem _ h2))]
    rfl

/-- Completion of a value whose lifetime and whose inner scopes are complete
inserts nothing and returns false. -/
theorem analyzeAndUpdateLifetime_complete (f : SILFunction) (boundary : Boundary)
    (interior : InteriorLiveness)
    (hcomplete : interior.All (SSAPrunedLiveness.Complete f)) :
    ∀ value : SILValue, analyzeAndUpdateLifetime f value interior boundary = some {} := by
  induction hcomplete with
  | intro interior own _ ih =>
    intro value
    have hinner := handleInnerScopes_nothing f boundary interior.innerScopes
      (fun scope hscope => ih scope hscope scope.1)
    obtain ⟨h1, _, _, h4⟩ := complete_own f value interior.liveness own
    rw [analyzeAndUpdateLifetime_eq, hinner]
    cases boundary with
    | Liveness =>
      simp only [endLifetimeAtBoundary, h1]
      rfl
    | Availability =>
      simp only [endLifetimeAtBoundary, h4]
      rfl

end OSSALifetimeCompletion

/-- C12, as amended: for a value whose lifetime is already complete (every
last user of its liveness boundary is a lifetime-ending use, there are no
boundary edges and no dead definitions, and every user that is not
lifetime-ending lies within the linear liveness boundary) and whose inner
scopes, their inner scopes and so on, are complete in the same sense,
completion with either boundary kind inserts no instruction and returns
`changed == false`; for the Availability kind `starts` and `region` are empty
and `visit` is never called.  Each liveness result is coherent: its two
boundaries and its users describe the same liveness. -/
theorem idempotence (f : SILFunction) (value : SILValue) (interior : InteriorLiveness)
    (hco : interior.liveness.Coherent f)
    (hlast : ∀ u ∈ interior.liveness.boundary.lastUsers,
      interior.liveness.isInterestingUser u = IsInterestingUser.LifetimeEndingUse)
    (hedges : interior.liveness.boundary.boundaryEdges = [])
    (hdead : interior.liveness.boundary.deadDefs = [])
    (houtside : ∀ u, (u, false) ∈ interior.liveness.users →
      interior.liveness.linearIsWithinBoundary u = true)
    (hinner : ∀ scope ∈ interior.innerScopes,
      scope.2.All (SSAPrunedLiveness.Complete f)) :
    OSSALifetimeCompletion.analyzeAndUpdateLifetime f value interior Boundary.Liveness =
      some { changed := false, insertions := [] } ∧
    OSSALifetimeCompletion.analyzeAndUpdateLifetime f value interior Boundary.Availability =
      some { changed := false, insertions := [] } ∧
    AvailabilityBoundaryVisitor.computeRegion { value := value } f interior.liveness =
      some { value := value, starts := [], region := [] } ∧
    OSSALifetimeCompletion.visitAvailabilityBoundary f value interior.liveness = some [] := by
  have hown : interior.liveness.Complete f := ⟨hco, hlast, hedges, hdead, houtside⟩
  have hall : interior.All (SSAPrunedLiveness.Complete f) :=
    InteriorLiveness.All.intro interior hown hinner
  obtain ⟨_, hregion, hvisits, _⟩ := complete_own f value interior.liveness hown
  exact ⟨OSSALifetimeCompletion.analyzeAndUpdateLifetime_complete f Boundary.Liveness
      interior hall value,
    OSSALifetimeCompletion.analyzeAndUpdateLifetime_complete f Boundary.Availability
      interior hall value, hregion, hvisits⟩

namespace Examples

theorem diamondEndedAt_complete (f : SILFunction) (hparent : f.getParent = fun i => i / 10)
    (user : SILInstruction) : (diamondEndedAt user).Complete f where
  coherent :=
    { endBlocks := by
        intro b hb
        refine Or.inl ⟨user, List.mem_singleton_self _, ?_⟩
        have hb2 : b = user / 10 := by simpa [diamondEndedAt] using hb
        rw [hb2, hparent]
      boundaryEdges := rfl
      ending := by
        intro u
        by_cases h : u = user
        · subst h
          simp [diamondEndedAt]
        · simp [diamondEndedAt, h] }
  lastUsers := by
    intro u hu
    have hu2 : u = user := by simpa [diamondEndedAt] using hu
    subst hu2
    simp [diamondEndedAt]
  boundaryEdges := rfl
  deadDefs := rfl
  outside := fun _ _ => rfl

end Examples

/-- Witness of the amended C12 on the diamond: value 0 is consumed by the
terminator 22 of `right`, and its inner scope, the borrow 9, is ended by
instruction 21. -/
theorem idempotence_witness :
    Examples.diamondInnerEnded.liveness.Coherent Examples.diamond ∧
    (∀ u ∈ Examples.diamondInnerEnded.liveness.boundary.lastUsers,
      Examples.diamondInnerEnded.liveness.isInterestingUser u =
        IsInterestingUser.LifetimeEndingUse) ∧
    Examples.diamondInnerEnded.liveness.boundary.boundaryEdges = [] ∧
    Examples.diamondInnerEnded.liveness.boundary.deadDefs = [] ∧
    (∀ u, (u, false) ∈ Examples.diamondInnerEnded.liveness.users →
      Examples.diamondInnerEnded.liveness.linearIsWithinBoundary u = true) ∧
    Examples.diamondInnerEnded.innerScopes ≠ [] ∧
    (∀ scope ∈ Examples.diamondInnerEnded.innerScopes,
      scope.2.All (SSAPrunedLiveness.Complete Examples.diamond)) ∧
    OSSALifetimeCompletion.analyzeAndUpdateLifetime Examples.diamond 0
      Examples.diamondInnerEnded Boundary.Liveness =
        some { changed := false, insertions := [] } ∧
    OSSALifetimeCompletion.analyzeAndUpdateLifetime Examples.diamond 0
      Examples.diamondInnerEnded Boundary.Availability =
        some { changed := false, insertions := [] } ∧
    AvailabilityBoundaryVisitor.computeRegion { value := 0 } Examples.diamond
      Examples.diamondInnerEnded.liveness = some { value := 0, starts := [], region := [] } ∧
    OSSALifetimeCompletion.visitAvailabilityBoundary Examples.diamond 0
      Examples.diamondInnerEnded.liveness = some [] :=
  have hinner : ∀ scope ∈ Examples.diamondInnerEnded.innerScopes,
      scope.2.All (SSAPrunedLiveness.Complete Examples.diamond) := by
    intro scope hscope
    have hs : scope = (9, { liveness := Examples.diamondEndedAt 21, innerScopes := [] }) := by
      simpa [Examples.diamondInnerEnded] using hscope
    subst hs
    exact InteriorLiveness.All.intro _ (Examples.diamondEndedAt_complete Examples.diamond rfl 21)
      (fun _ h => absurd h (List.not_mem_nil _))
  ⟨(Examples.diamondEndedAt_complete Examples.diamond rfl 22).coherent, (Examples.diamondEndedAt_complete Examples.diamond rfl 22).lastUsers,
    rfl, rfl, fun _ _ => rfl, by simp [Examples.diamondInnerEnded], hinner,
    idempotence Examples.diamond 0 Examples.diamondInnerEnded
      (Examples.diamondEndedAt_complete Examples.diamond rfl 22).coherent
      (Examples.diamondEndedAt_complete Examples.diamond rfl 22).lastUsers rfl rfl (fun _ _ => rfl) hinner⟩

/-- C12 fails on the diamond when the terminator 22 of `right` consumes value 0
and the borrow 9 of value 0, begun at instruction 20, is never ended: the
boundary of value 0 meets every condition of the claim, and completion of
value 0 returns false, yet it inserts an end-borrow of value 9, in front of
instruction 21 with boundary kind Liveness and in front of the terminator 32
of `merge` with boundary kind Availability. -/
theorem idempotence_counterexample :
    Examples.diamondInnerOpen.liveness.Coherent Examples.diamondBorrow ∧
    (∀ u ∈ Examples.diamondInnerOpen.liveness.boundary.lastUsers,
      Examples.diamondInnerOpen.liveness.isInterestingUser u =
        IsInterestingUser.LifetimeEndingUse) ∧
    Examples.diamondInnerOpen.liveness.boundary.boundaryEdges = [] ∧
    Examples.diamondInnerOpen.liveness.boundary.deadDefs = [] ∧
    (∀ u, (u, false) ∈ Examples.diamondInnerOpen.liveness.users →
      Examples.diamondInnerOpen.liveness.linearIsWithinBoundary u = true) ∧
    OSSALifetimeCompletion.analyzeAndUpdateLifetime Examples.diamondBorrow 0
      Examples.diamondInnerOpen Boundary.Liveness =
        some { changed := false
               insertions :=
                [{ point := InsertionPoint.before 21, inst := CreatedInst.EndBorrow 9 }] } ∧
    OSSALifetimeCompletion.analyzeAndUpdateLifetime Examples.diamondBorrow 0
      Examples.diamondInnerOpen Boundary.Availability =
        some { changed := false
               insertions :=
                [{ point := InsertionPoint.before 32, inst := CreatedInst.EndBorrow 9 }] } :=
  ⟨(Examples.diamondEndedAt_complete Examples.diamondBorrow rfl 22).coherent, (Examples.diamondEndedAt_complete Examples.diamondBorrow rfl 22).lastUsers,
    rfl, rfl, fun _ _ => rfl, by decide, by decide⟩

/-! ## Dead ends and the assertions -/

namespace AvailabilityBoundaryVisitor

/-- C20: when the assertion of `computeRegion` holds (every region block
without successors ends in an `unreachable`), the assertion in
`visitAvailabilityBoundary` holds at every visit: every region block that is
Available and has no successor or an Unavailable successor has a successor
whose state is Unavailable or ends in an `unreachable`. -/
theorem visit_assertion_valid (f : SILFunction) (self : AvailabilityBoundaryVisitor)
    (result : Result) (hregion : ∀ b ∈ self.region, computeRegionAssertion f b = true) :
    visitAvailabilityBoundaryAsserts f result self.region = true ∧
    ∀ block ∈ self.region, result.getState block = State.Available →
      (f.getSuccessorBlocks block = [] ∨
        ∃ s ∈ f.getSuccessorBlocks block, result.getState s = State.Unavailable) →
      ((∃ s ∈ f.getSuccessorBlocks block, result.getState s = State.Unavailable) ∨
        f.isUnreachableInst (f.getTerminator block) = true) := by
  have hpoint : ∀ block ∈ self.region,
      (f.getSuccessorBlocks block = [] ∨
        ∃ s ∈ f.getSuccessorBlocks block, result.getState s = State.Unavailable) →
      ((∃ s ∈ f.getSuccessorBlocks block, result.getState s = State.Unavailable) ∨
        f.isUnreachableInst (f.getTerminator block) = true) := by
    intro block hblock hcond
    rcases hcond with h | h
    · have ha := hregion block hblock
      simp only [computeRegionAssertion, SILFunction.succ_empty, h, List.isEmpty_nil,
        Bool.not_true, Bool.false_or] at ha
      exact Or.inr ha
    · exact Or.inl h
  refine ⟨?_, fun block hblock _ hcond => hpoint block hblock hcond⟩
  have hloop : ∀ l : List SILBasicBlock, (∀ b ∈ l, b ∈ self.region) →
      visitAvailabilityBoundaryAsserts f result l = true := by
    intro l
    induction l with
    | nil => intro _; rfl
    | cons block rest ih =>
      intro hl
      have ihr := ih (fun b hb => hl b (List.mem_cons_of_mem _ hb))
      rw [visitAvailabilityBoundaryAsserts]
      split
      · exact ihr
      · split
        · exact ihr
        · rename_i h1 h2
          rw [ihr, Bool.and_true]
          have hcond : f.getSuccessorBlocks block = [] ∨
              ∃ s ∈ f.getSuccessorBlocks block, result.getState s = State.Unavailable := by
            by_contra hc
            rw [not_or] at hc
            apply h2
            have e1 : f.succ_empty block = false := by
              simp [SILFunction.succ_empty, hc.1]
            have e2 : hasUnavailableSuccessor f result block = false := by
              rw [← Bool.not_eq_true, hasUnavailableSuccessor_iff]
              exact hc.2
            rw [e1, e2]
            rfl
          rcases hpoint block (hl block (List.mem_cons_self _ _)) hcond with h | h
          · simp [visitAssertion, (hasUnavailableSuccessor_iff f result block).2 h]
          · simp [visitAssertion, h]
  exact hloop self.region (fun b hb => hb)

/-- Witness of C20 on the diamond: the region of the value used only in `right`
satisfies the assertion of `computeRegion`. -/
theorem visit_assertion_valid_witness :
    (∀ b ∈ Examples.diamondVisitor.region,
      computeRegionAssertion Examples.diamond b = true) ∧
    visitAvailabilityBoundaryAsserts Examples.diamond Examples.diamondResult
      Examples.diamondVisitor.region = true :=
  ⟨by decide,
    (visit_assertion_valid Examples.diamond Examples.diamondVisitor Examples.diamondResult
      (by decide)).1⟩

end AvailabilityBoundaryVisitor

namespace AvailabilityBoundaryVisitor

/-- The checked walk returns the region of the walk, and its flag tells
whether the asserted condition holds for every block that the walk pops: the
pending blocks and the blocks it adds to the region. -/
theorem regionWalkChecked_spec (f : SILFunction) (hfin : f.SuccessorsInFunction) :
    ∀ (fuel : Nat) (worklist : BasicBlockWorklist) (region : List SILBasicBlock),
      worklist.worklist.length + f.unvisited worklist.visited < fuel →
      (∀ b, b ∈ worklist.visited ↔ b ∈ region) →
      (∀ b ∈ worklist.worklist, b ∈ region) →
      (∀ b ∈ region, b ∈ worklist.worklist ∨ ∀ s ∈ f.getSuccessorBlocks b, s ∈ region) →
      ∃ region1 ok, regionWalk f fuel worklist region = some region1 ∧
        regionWalkChecked f fuel worklist region = some (region1, ok) ∧
        (ok = true ↔ ∀ b, (b ∈ worklist.worklist ∨ (b ∈ region1 ∧ b ∉ region)) →
          computeRegionAssertion f b = true)
  | 0, _, _, hm, _, _, _ => by omega
  | fuel + 1, worklist, region, hm, hvr, hwr, hdone => by
    cases hw : worklist.worklist with
    | nil =>
      obtain ⟨r, hr, _, _, hreach, _⟩ :=
        regionWalk_spec f hfin (fuel + 1) worklist region hm hvr hwr hdone
      have hr2 : regionWalk f (fuel + 1) worklist region = some region := by
        simp [regionWalk, BasicBlockWorklist.pop, hw]
      refine ⟨region, true, hr2, ?_, ?_⟩
      · simp [regionWalkChecked, BasicBlockWorklist.pop, hw]
      · constructor
        · rintro _ b (h | ⟨h1, h2⟩)
          · exact absurd h (List.not_mem_nil b)
          · exact absurd h1 h2
        · intro _
          rfl
    | cons block rest =>
      have hpop : worklist.pop = some (block, { worklist with worklist := rest }) := by
        simp [BasicBlockWorklist.pop, hw]
      obtain ⟨w1, w2, w3, w4, _⟩ := walkSuccessors_spec f (f.getSuccessorBlocks block)
        { worklist with worklist := rest } region hvr (fun s hs => hfin block s hs)
      have hm2 : (walkSuccessors (f.getSuccessorBlocks block)
          ({ worklist with worklist := rest }, region)).1.worklist.length +
          f.unvisited (walkSuccessors (f.getSuccessorBlocks block)
          ({ worklist with worklist := rest }, region)).1.visited < fuel := by
        rw [hw] at hm
        simp only [List.length_cons] at hm
        simp only at w4
        omega
      have hwr2 : ∀ b ∈ (walkSuccessors (f.getSuccessorBlocks block)
          ({ worklist with worklist := rest }, region)).1.worklist,
          b ∈ (walkSuccessors (f.getSuccessorBlocks block)
            ({ worklist with worklist := rest }, region)).2 := by
        intro b hb
        rcases (w3 b).1 hb with h | h
        · exact (w2 b).2 (Or.inl (hwr b (by rw [hw]; exact List.mem_cons_of_mem _ h)))
        · exact (w2 b).2 (Or.inr h.1)
      have hdone2 : ∀ b ∈ (walkSuccessors (f.getSuccessorBlocks block)
          ({ worklist with worklist := rest }, region)).2,
          b ∈ (walkSuccessors (f.getSuccessorBlocks block)
            ({ worklist with worklist := rest }, region)).1.worklist ∨
          ∀ s ∈ f.getSuccessorBlocks b, s ∈ (walkSuccessors (f.getSuccessorBlocks block)
            ({ worklist with worklist := rest }, region)).2 := by
        intro b hb
        by_cases hbr : b ∈ region
        · rcases hdone b hbr with h2 | h2
          · rw [hw] at h2
            rcases List.mem_cons.1 h2 with h3 | h3
            · subst h3
              exact Or.inr (fun s hs => (w2 s).2 (Or.inr hs))
            · exact Or.inl ((w3 b).2 (Or.inl h3))
          · exact Or.inr (fun s hs => (w2 s).2 (Or.inl (h2 s hs)))
        · rcases (w2 b).1 hb with h | h
          · exact absurd h hbr
          · exact Or.inl ((w3 b).2 (Or.inr ⟨h, hbr⟩))
      obtain ⟨region1, ok, hrun, hchk, hiff⟩ :=
        regionWalkChecked_spec f hfin fuel _ _ hm2 w1 hwr2 hdone2
      obtain ⟨r, hr, hsub, _, _, _⟩ := regionWalk_spec f hfin fuel _ _ hm2 w1 hwr2 hdone2
      rw [hrun] at hr
      cases hr
      refine ⟨region1, computeRegionAssertion f block && ok, ?_, ?_, ?_⟩
      · simp only [regionWalk, hpop]
        exact hrun
      · simp only [regionWalkChecked, hpop, hchk]
      · rw [Bool.and_eq_true, hiff]
        constructor
        · rintro ⟨ha, hall⟩ b (h | ⟨h1, h2⟩)
          · rcases List.mem_cons.1 h with h3 | h3
            · rw [h3]
              exact ha
            · exact hall b (Or.inl ((w3 b).2 (Or.inl h3)))
          · by_cases hb2 : b ∈ (walkSuccessors (f.getSuccessorBlocks block)
                ({ worklist with worklist := rest }, region)).2
            · rcases (w2 b).1 hb2 with h3 | h3
              · exact absurd h3 h2
              · exact hall b (Or.inl ((w3 b).2 (Or.inr ⟨h3, h2⟩)))
            · exact hall b (Or.inr ⟨h1, hb2⟩)
        · intro hall
          refine ⟨hall block (Or.inl (List.mem_cons_self _ _)), ?_⟩
          rintro b (h | ⟨h1, h2⟩)
          · rcases (w3 b).1 h with h3 | ⟨h3, h4⟩
            · exact hall b (Or.inl (List.mem_cons_of_mem _ h3))
            · exact hall b (Or.inr ⟨hsub b ((w2 b).2 (Or.inr h3)), h4⟩)
          · exact hall b (Or.inr ⟨h1, fun hc => h2 ((w2 b).2 (Or.inl hc))⟩)

/-- The assertion of `computeRegion` holds throughout the walk exactly when
every block of the computed region that has no successors ends in an
`unreachable`. -/
theorem computeRegionChecked_spec (value : SILValue) (f : SILFunction)
    (liveness : SSAPrunedLiveness) (hfin : f.SuccessorsInFunction) :
    ∃ (v : AvailabilityBoundaryVisitor) (ok : Bool),
      computeRegion { value := value } f liveness = some v ∧
      computeRegionChecked { value := value } f liveness = some (v, ok) ∧
      (ok = true ↔ ∀ b ∈ v.region, computeRegionAssertion f b = true) := by
  obtain ⟨⟨c1, c2, c3, _⟩, _⟩ := computeRegionStarts_spec value f liveness
  have hunv : f.unvisited (computeRegionStarts { value := value } f liveness).regionWorklist.visited
      ≤ f.blocks.length := by
    unfold SILFunction.unvisited
    exact List.length_filter_le _ _
  obtain ⟨region1, ok, hrun, hchk, hiff⟩ := regionWalkChecked_spec f hfin
    ((computeRegionStarts { value := value } f liveness).regionWorklist.worklist.length +
      f.blocks.length + 1)
    (computeRegionStarts { value := value } f liveness).regionWorklist
    (computeRegionStarts { value := value } f liveness).region
    (by omega)
    (fun b => by rw [c2, c1])
    (fun b hb => by rw [c1]; exact (c3 b).1 hb)
    (fun b hb => Or.inl ((c3 b).2 ((c1 b).1 hb)))
  obtain ⟨r, hr, hsub, _, _, _⟩ := regionWalk_spec f hfin
    ((computeRegionStarts { value := value } f liveness).regionWorklist.worklist.length +
      f.blocks.length + 1)
    (computeRegionStarts { value := value } f liveness).regionWorklist
    (computeRegionStarts { value := value } f liveness).region
    (by omega)
    (fun b => by rw [c2, c1])
    (fun b hb => by rw [c1]; exact (c3 b).1 hb)
    (fun b hb => Or.inl ((c3 b).2 ((c1 b).1 hb)))
  rw [hrun] at hr
  cases hr
  refine ⟨{ value := value,
            starts := (computeRegionStarts { value := value } f liveness).starts,
            region := region1 }, ok, ?_, ?_, ?_⟩
  · simp only [computeRegion, hrun]
  · simp only [computeRegionChecked, hchk]
  · rw [hiff]
    constructor
    · intro h b hb
      by_cases hb0 : b ∈ (computeRegionStarts { value := value } f liveness).region
      · exact h b (Or.inl ((c3 b).2 ((c1 b).1 hb0)))
      · exact h b (Or.inr ⟨hb, hb0⟩)
    · rintro h b (hb | ⟨hb, _⟩)
      · exact h b (hsub b ((c1 b).2 ((c3 b).1 hb)))
      · exact h b hb

end AvailabilityBoundaryVisitor

namespace AvailabilityBoundaryVisitor

/-- C11: on a function with finitely many blocks the availability-boundary
visitor returns its visits, and when the precondition of region discovery
holds (the assertion of `computeRegion` holds throughout the walk, that is,
every region block without successors ends in an `unreachable`), every
position it visits with end-kind Boundary is the terminator of a region block,
and every block without successors that is reachable along successor edges
from that block, the block itself included, ends in an `unreachable`. -/
theorem dead_end_correctness (value : SILValue) (f : SILFunction)
    (liveness : SSAPrunedLiveness) (hfin : f.SuccessorsInFunction) :
    ∃ (v : AvailabilityBoundaryVisitor) (ok : Bool) (result : Result)
      (visits : List VisitCall),
      computeRegionChecked { value := value } f liveness = some (v, ok) ∧
      computeRegion { value := value } f liveness = some v ∧
      v.propagateAvailablity f Result.fresh = some result ∧
      visit { value := value } f liveness Result.fresh = some visits ∧
      (ok = true ↔ ∀ b ∈ v.region, computeRegionAssertion f b = true) ∧
      (ok = true →
        ∀ p ∈ visits, ∃ block ∈ v.region,
          p = (f.getTerminator block, LifetimeEnd.Boundary) ∧
          ∀ z, f.Reachable block z → f.getSuccessorBlocks z = [] →
            f.isUnreachableInst (f.getTerminator z) = true) := by
  obtain ⟨v, ok, hv, hchk, hiff⟩ := computeRegionChecked_spec value f liveness hfin
  obtain ⟨v2, hv2, _, _, _, _, hclosed, _⟩ := computeRegion_run value f liveness hfin
  rw [hv] at hv2
  cases hv2
  obtain ⟨result, hr⟩ := propagateAvailablity_terminates v f Result.fresh
  refine ⟨v, ok, result, v.visitAvailabilityBoundary f result, hchk, hv, hr, ?_, hiff, ?_⟩
  · simp only [visit, hv, hr]
  · intro hok p hp
    have hassert := hiff.1 hok
    obtain ⟨block, hblock, _, hpe⟩ := (mem_visitLoop f result p v.region).1 hp
    refine ⟨block, hblock, hpe, ?_⟩
    intro z hz hsucc
    have hzr : z ∈ v.region :=
      reachable_mem_of_closed f (fun x => x ∈ v.region) hclosed hblock hz
    have ha := hassert z hzr
    simp only [computeRegionAssertion, SILFunction.succ_empty, hsucc, List.isEmpty_nil,
      Bool.not_true, Bool.false_or] at ha
    exact ha

/-- Witness of C11 on the diamond, for the value used only in `right`. -/
theorem dead_end_correctness_witness :
    Examples.diamond.SuccessorsInFunction ∧
    ∃ (v : AvailabilityBoundaryVisitor) (ok : Bool) (result : Result)
      (visits : List VisitCall),
      computeRegionChecked { value := 0 } Examples.diamond Examples.diamondUsedRight =
        some (v, ok) ∧
      computeRegion { value := 0 } Examples.diamond Examples.diamondUsedRight = some v ∧
      v.propagateAvailablity Examples.diamond Result.fresh = some result ∧
      visit { value := 0 } Examples.diamond Examples.diamondUsedRight Result.fresh =
        some visits ∧
      (ok = true ↔ ∀ b ∈ v.region, computeRegionAssertion Examples.diamond b = true) ∧
      (ok = true →
        ∀ p ∈ visits, ∃ block ∈ v.region,
          p = (Examples.diamond.getTerminator block, LifetimeEnd.Boundary) ∧
          ∀ z, Examples.diamond.Reachable block z →
            Examples.diamond.getSuccessorBlocks z = [] →
            Examples.diamond.isUnreachableInst (Examples.diamond.getTerminator z) = true) :=
  ⟨Examples.diamond_successorsInFunction,
    dead_end_correctness 0 Examples.diamond Examples.diamondUsedRight
      Examples.diamond_successorsInFunction⟩

end AvailabilityBoundaryVisitor

/-! ## The diamond with a dead-end `left` -/

namespace AvailabilityBoundaryVisitor

theorem consumingBlocks_not_ending (f : SILFunction) :
    ∀ (users : List (SILInstruction × Bool)) (s : List SILBasicBlock),
      (∀ u ∈ users, u.2 = false) → consumingBlocks f users s = s
  | [], _, _ => rfl
  | (instruction, lifetimeEnding) :: rest, s, h => by
    have e : lifetimeEnding = false := h (instruction, lifetimeEnding) (List.mem_cons_self _ _)
    subst e
    rw [consumingBlocks]
    simp only [Bool.false_eq_true, if_false]
    exact consumingBlocks_not_ending f rest s (fun u hu => h u (List.mem_cons_of_mem _ hu))

/-- C14, as amended: in the diamond, whatever its instructions, when the
boundary of the value has `right` as its end block and `left` as its boundary
edge and no user of the value is lifetime-ending, the availability-boundary
visitor visits with end-kind Boundary the terminator of `left` and then the
terminator of `merge`, and nothing else: `left`, a boundary edge, is a start
block, so it is Available, and it has no successors. -/
theorem diamond_availability (g : SILFunction) (value : SILValue)
    (liveness : SSAPrunedLiveness)
    (hboundary : liveness.blockBoundary = { endBlocks := [2], boundaryEdges := [1] })
    (husers : ∀ u ∈ liveness.users, u.2 = false) :
    visit { value := value } (Examples.diamondOf g) liveness Result.fresh =
      some [((Examples.diamondOf g).getTerminator 1, LifetimeEnd.Boundary),
            ((Examples.diamondOf g).getTerminator 3, LifetimeEnd.Boundary)] := by
  have hstarts : computeRegionStarts { value := value } (Examples.diamondOf g) liveness =
      collectEdges [1] (collectEndBlocks [] [2] {}) := by
    unfold computeRegionStarts
    rw [consumingBlocks_not_ending (Examples.diamondOf g) liveness.users [] husers, hboundary]
  unfold visit computeRegion
  rw [hstarts]
  rfl

/-- Witness of the amended C14: the diamond with the value used only in
`right`. -/
theorem diamond_availability_witness :
    Examples.diamondUsedRight.blockBoundary = { endBlocks := [2], boundaryEdges := [1] } ∧
    (∀ u ∈ Examples.diamondUsedRight.users, u.2 = false) ∧
    visit { value := 0 } (Examples.diamondOf Examples.diamond) Examples.diamondUsedRight
        Result.fresh =
      some [((Examples.diamondOf Examples.diamond).getTerminator 1, LifetimeEnd.Boundary),
            ((Examples.diamondOf Examples.diamond).getTerminator 3, LifetimeEnd.Boundary)] :=
  ⟨rfl, by decide,
    diamond_availability Examples.diamond 0 Examples.diamondUsedRight rfl (by decide)⟩

/-- C14 fails on the diamond whose `left` ends in the `unreachable` 12 and whose
value 0 is used, without being consumed, only by instruction 21 in `right`:
the terminator 32 of `merge` is visited, and so is the terminator 12 of `left`,
a position in `left`. -/
theorem diamond_availability_counterexample :
    Examples.diamond.isUnreachableInst (Examples.diamond.getTerminator 1) = true ∧
    Examples.diamondUsedRight.blockBoundary = { endBlocks := [2], boundaryEdges := [1] } ∧
    visit { value := 0 } Examples.diamond Examples.diamondUsedRight Result.fresh =
      some [(12, LifetimeEnd.Boundary), (32, LifetimeEnd.Boundary)] ∧
    Examples.diamond.getTerminator 3 = 32 ∧
    Examples.diamond.getParent 12 = 1 ∧
    ¬ (∀ visits, visit { value := 0 } Examples.diamond Examples.diamondUsedRight
          Result.fresh = some visits →
        ∀ p ∈ visits, Examples.diamond.getParent p.1 ≠ 1) := by
  refine ⟨rfl, rfl, by decide, rfl, rfl, ?_⟩
  intro h
  exact h _ (by decide :
      visit { value := 0 } Examples.diamond Examples.diamondUsedRight Result.fresh =
        some [(12, LifetimeEnd.Boundary), (32, LifetimeEnd.Boundary)])
    (12, LifetimeEnd.Boundary) (by decide) (by decide)

end AvailabilityBoundaryVisitor

/-! ## Termination and monotonicity of the propagation -/

namespace AvailabilityBoundaryVisitor

/-- The loop that records the changes computes the result of the worklist
loop. -/
theorem propagateLoopChanges_fst (self : AvailabilityBoundaryVisitor) (f : SILFunction) :
    ∀ (fuel : Nat) (worklist : BasicBlockWorklist) (result : Result),
      (propagateLoopChanges self f fuel worklist result).map Prod.fst =
        propagateLoop self f fuel worklist result
  | 0, _, _ => rfl
  | fuel + 1, worklist, result => by
    rw [propagateLoopChanges, propagateLoop]
    cases hpop : worklist.popAndForget with
    | none => rfl
    | some p =>
      obtain ⟨block, worklist1⟩ := p
      simp only
      split
      · exact propagateLoopChanges_fst self f fuel worklist1 result
      · split
        · exact propagateLoopChanges_fst self f fuel worklist1 _
        · have ih := propagateLoopChanges_fst self f fuel
            (pushSuccessors (f.getSuccessorBlocks block) worklist1)
            (result.updateState f block).1
          rw [← ih]
          cases propagateLoopChanges self f fuel
            (pushSuccessors (f.getSuccessorBlocks block) worklist1)
            (result.updateState f block).1 with
          | none => rfl
          | some q => rfl

/-- `updateState` changes the state of no other block, and never raises the
state of its block. -/
theorem Result.updateState_le_all (f : SILFunction) (r : Result) (block b : SILBasicBlock) :
    ((r.updateState f block).1.getState b).toNat ≤ (r.getState b).toNat := by
  by_cases hb : b = block
  · rw [hb]
    exact Result.updateState_le f r block
  · rw [Result.updateState_fst, Result.getState_setState, if_neg hb]

/-- Every recorded change of a block lowers its state by at least one. -/
theorem propagateLoopChanges_count (self : AvailabilityBoundaryVisitor) (f : SILFunction) :
    ∀ (fuel : Nat) (worklist : BasicBlockWorklist) (result result1 : Result)
      (changes : List SILBasicBlock),
      propagateLoopChanges self f fuel worklist result = some (result1, changes) →
      ∀ b, changes.count b + (result1.getState b).toNat ≤ (result.getState b).toNat
  | 0, _, _, _, _, h => by simp [propagateLoopChanges] at h
  | fuel + 1, worklist, result, result1, changes, h => by
    rw [propagateLoopChanges] at h
    cases hpop : worklist.popAndForget with
    | none =>
      rw [hpop] at h
      simp only [Option.some.injEq, Prod.mk.injEq] at h
      obtain ⟨h1, h2⟩ := h
      subst h1
      subst h2
      intro b
      simp
    | some p =>
      obtain ⟨block, worklist1⟩ := p
      rw [hpop] at h
      simp only at h
      split at h
      · exact propagateLoopChanges_count self f fuel worklist1 result result1 changes h
      · split at h
        · intro b
          have ih := propagateLoopChanges_count self f fuel worklist1 _ result1 changes h b
          have hle := Result.updateState_le_all f result block b
          omega
        · rename_i hskip hch
          cases hrec : propagateLoopChanges self f fuel
              (pushSuccessors (f.getSuccessorBlocks block) worklist1)
              (result.updateState f block).1 with
          | none =>
            rw [hrec] at h
            exact absurd h (by simp)
          | some q =>
            obtain ⟨r2, cs⟩ := q
            rw [hrec] at h
            simp only [Option.some.injEq, Prod.mk.injEq] at h
            obtain ⟨h1, h2⟩ := h
            subst h1
            subst h2
            intro b
            have ih := propagateLoopChanges_count self f fuel _ _ r2 cs hrec b
            by_cases hb : b = block
            · subst hb
              have hne : (result.updateState f b).2 = true := by
                simpa using hch
              have hne2 := (Result.updateState_snd f result b).1 hne
              have hle := Result.updateState_le f result b
              have hlt : ((result.updateState f b).1.getState b).toNat <
                  (result.getState b).toNat := by
                rcases Nat.lt_or_ge ((result.updateState f b).1.getState b).toNat
                  (result.getState b).toNat with hlt | hge
                · exact hlt
                · exfalso
                  apply hne2
                  have heq := State.toNat_injective _ _ (Nat.le_antisymm hle hge)
                  rw [Result.updateState_fst, Result.getState_setState, if_pos rfl] at heq
                  exact heq
              rw [List.count_cons_self]
              omega
            · have hle := Result.updateState_le_all f result block b
              rw [List.count_cons_of_ne hb]
              omega

/-- C15: for every control-flow graph, region and set of start blocks, the
worklist loop of `propagateAvailablity` returns, from any worklist and any
states once its fuel exceeds the length of the worklist plus the potential of
the region, and in particular with the fuel that `propagateAvailablity`
supplies; `updateState` never raises the state of a block, no block ends in a
higher state than it had when the loop began, and the state of each block
changes at most twice during the loop. -/
theorem propagateAvailablity_terminates_monotone (self : AvailabilityBoundaryVisitor)
    (f : SILFunction) (result : Result) :
    (∀ (worklist : BasicBlockWorklist) (result0 : Result),
      ∃ result1, propagateLoop self f
        (worklist.worklist.length + potential f result0 self.region + 1) worklist result0 =
          some result1) ∧
    (∀ (r : Result) (block b : SILBasicBlock),
      ((r.updateState f block).1.getState b).toNat ≤ (r.getState b).toNat) ∧
    ∃ (result1 : Result) (changes : List SILBasicBlock),
      self.propagateAvailablity f result = some result1 ∧
      self.propagateAvailablityChanges f result = some (result1, changes) ∧
      (∀ b, (result1.getState b).toNat ≤
        ((propagateInit self.starts self.region result).getState b).toNat) ∧
      (∀ b, changes.count b ≤ 2) := by
  refine ⟨fun worklist result0 => propagateLoop_terminates self f _ worklist result0 (by omega),
    Result.updateState_le_all f, ?_⟩
  obtain ⟨result1, hr⟩ := propagateAvailablity_terminates self f result
  have hfst := propagateLoopChanges_fst self f
    ((propagateSeed self.starts self.region {}).worklist.length +
      2 * successorCount f self.region + 1)
    (propagateSeed self.starts self.region {})
    (propagateInit self.starts self.region result)
  have hr2 : propagateLoop self f
      ((propagateSeed self.starts self.region {}).worklist.length +
        2 * successorCount f self.region + 1)
      (propagateSeed self.starts self.region {})
      (propagateInit self.starts self.region result) = some result1 := hr
  rw [hr2] at hfst
  cases hc : propagateLoopChanges self f
      ((propagateSeed self.starts self.region {}).worklist.length +
        2 * successorCount f self.region + 1)
      (propagateSeed self.starts self.region {})
      (propagateInit self.starts self.region result) with
  | none =>
    rw [hc] at hfst
    exact absurd hfst (by simp)
  | some q =>
    obtain ⟨r2, changes⟩ := q
    rw [hc] at hfst
    simp only [Option.map_some', Option.some.injEq] at hfst
    subst hfst
    have hcount := propagateLoopChanges_count self f _ _ _ r2 changes hc
    refine ⟨r2, changes, hr, hc, ?_, ?_⟩
    · intro b
      have := hcount b
      omega
    · intro b
      have h1 := hcount b
      have h2 := State.toNat_le_two
        ((propagateInit self.starts self.region result).getState b)
      omega

end AvailabilityBoundaryVisitor

/-! ## The calls made by the propagation loop of `completeLifetimes` -/

namespace UnreachableLifetimeCompletion

theorem markSuccessors_nodup (f : SILFunction) (block : SILBasicBlock) :
    ∀ (l : List SILBasicBlock) (self : UnreachableLifetimeCompletion),
      self.unreachableBlocks.Nodup → (markSuccessors f block l self).unreachableBlocks.Nodup
  | [], _, h => h
  | succBlock :: rest, self, h => by
    rw [markSuccessors]
    split
    · exact markSuccessors_nodup f block rest _
        (BasicBlockSetVector.nodup_insert self.unreachableBlocks succBlock h)
    · exact markSuccessors_nodup f block rest self h

theorem visitOperand_nodup (f : SILFunction) (instruction : SILInstruction)
    (block : SILBasicBlock) (inReachableBlock : Bool) (self : UnreachableLifetimeCompletion)
    (operand : Operand) (h : self.unreachableBlocks.Nodup) :
    (visitOperand f instruction block inReachableBlock self operand).unreachableBlocks.Nodup := by
  by_cases hsk : operand.isLifetimeEnding = false ∨ DefUnreachable f self operand.get
  · rw [visitOperand_skip f instruction block inReachableBlock self operand hsk]
    exact h
  · rw [not_or] at hsk
    obtain ⟨h1, h2⟩ := hsk
    have h1 : operand.isLifetimeEnding = true := by simpa using h1
    have hb : self.unreachableBlocks.contains (f.getParentBlock operand.get) = false := by
      have : f.getParentBlock operand.get ∉ self.unreachableBlocks := fun hc => h2 (Or.inl hc)
      simpa using this
    have hd : (match f.getDefiningInstruction operand.get with
        | some d => self.unreachableInsts.contains d
        | none => false) = false := by
      cases hdef : f.getDefiningInstruction operand.get with
      | none => rfl
      | some d =>
        have : d ∉ self.unreachableInsts := fun hc => h2 (Or.inr ⟨d, hdef, hc⟩)
        simpa using this
    unfold visitOperand
    simp only [h1, hb, hd, Bool.not_true, Bool.false_eq_true, if_false]
    cases hterm : f.isTermInst instruction with
    | false =>
      simp only [Bool.false_eq_true, if_false]
      cases inReachableBlock <;> exact h
    | true =>
      simp only [if_true]
      apply markSuccessors_nodup
      cases inReachableBlock <;> exact h

theorem visitOperands_nodup (f : SILFunction) (instruction : SILInstruction)
    (block : SILBasicBlock) (inReachableBlock : Bool) :
    ∀ (l : List Operand) (self : UnreachableLifetimeCompletion),
      self.unreachableBlocks.Nodup →
      (visitOperands f instruction block inReachableBlock l self).unreachableBlocks.Nodup
  | [], _, h => h
  | operand :: rest, self, h => by
    rw [visitOperands]
    exact visitOperands_nodup f instruction block inReachableBlock rest _
      (visitOperand_nodup f instruction block inReachableBlock self operand h)

theorem visitUnreachableInst_nodup (f : SILFunction) (self : UnreachableLifetimeCompletion)
    (instruction : SILInstruction) (h : self.unreachableBlocks.Nodup) :
    (visitUnreachableInst f self instruction).unreachableBlocks.Nodup := by
  by_cases hproc : f.getParent instruction ∉ self.unreachableBlocks ∨
      self.updatingLifetimes = true
  · rw [visitUnreachableInst_processed f self instruction hproc]
    exact visitOperands_nodup f instruction _ _ _ self h
  · rw [not_or, not_not] at hproc
    rw [visitUnreachableInst_not_processed f self instruction hproc.1 (by simpa using hproc.2)]
    exact h

theorem visitInstructions_nodup (f : SILFunction) :
    ∀ (l : List SILInstruction) (self : UnreachableLifetimeCompletion),
      self.unreachableBlocks.Nodup → (visitInstructions f l self).unreachableBlocks.Nodup
  | [], _, h => h
  | instruction :: rest, self, h => by
    rw [visitInstructions]
    exact visitInstructions_nodup f rest _ (visitUnreachableInst_nodup f self instruction h)

theorem visitInstructionsCalls_fst (f : SILFunction) :
    ∀ (l : List SILInstruction) (self : UnreachableLifetimeCompletion),
      (visitInstructionsCalls f l self).1 = visitInstructions f l self
  | [], _ => rfl
  | instruction :: rest, self => by
    rw [visitInstructionsCalls, visitInstructions]
    exact visitInstructionsCalls_fst f rest _

theorem visitInstructionsCalls_snd (f : SILFunction) :
    ∀ (l : List SILInstruction) (self : UnreachableLifetimeCompletion),
      self.updatingLifetimes = true →
      (visitInstructionsCalls f l self).2 = l.map (fun i => (i, true))
  | [], _, _ => rfl
  | instruction :: rest, self, h => by
    rw [visitInstructionsCalls]
    simp only [List.map_cons]
    rw [h, visitInstructionsCalls_snd f rest _
      ((visitUnreachableInst_grows f self instruction).flag.trans h)]

/-- The loop that records the calls computes the state of the loop, and its
calls are the instructions of the blocks of the final set from the position of
the iterator on, block after block, each with `updatingLifetimes` set. -/
theorem completeLifetimesLoopCalls_spec (f : SILFunction) :
    ∀ (fuel index : Nat) (self r : UnreachableLifetimeCompletion),
      self.updatingLifetimes = true →
      completeLifetimesLoop f fuel index self = some r →
      Grows self r ∧
      (self.unreachableBlocks.Nodup → r.unreachableBlocks.Nodup) ∧
      completeLifetimesLoopCalls f fuel index self =
        some (r, (f.instructionsOfBlocks (r.unreachableBlocks.drop index)).map
          (fun i => (i, true)))
  | 0, _, _, _, _, h => by simp [completeLifetimesLoop] at h
  | fuel + 1, index, self, r, hflag, h => by
    rw [completeLifetimesLoop] at h
    rw [completeLifetimesLoopCalls]
    cases hget : self.unreachableBlocks[index]? with
    | none =>
      rw [hget] at h
      simp only [Option.some.injEq] at h
      subst h
      refine ⟨Grows.refl self, fun hnd => hnd, ?_⟩
      have hlen : self.unreachableBlocks.length ≤ index := List.getElem?_eq_none_iff.1 hget
      rw [List.drop_eq_nil_of_le hlen]
      rfl
    | some block =>
      rw [hget] at h
      simp only at h
      have hlt : index < self.unreachableBlocks.length := by
        by_contra hc
        rw [List.getElem?_eq_none_iff.2 (Nat.le_of_not_lt hc)] at hget
        exact absurd hget (by simp)
      obtain ⟨g1, _, _⟩ := visitInstructions_spec f (f.getInstructions block) self
      obtain ⟨i1, i2, i3⟩ := completeLifetimesLoopCalls_spec f fuel (index + 1)
        (visitInstructions f (f.getInstructions block) self) r (g1.flag.trans hflag) h
      have hg := g1.trans i1
      obtain ⟨extra, hextra⟩ := hg.blocks
      have hdrop : r.unreachableBlocks.drop index =
          block :: r.unreachableBlocks.drop (index + 1) := by
        have hget2 : r.unreachableBlocks[index]? = some block := by
          rw [hextra, List.getElem?_append_left hlt]
          exact hget
        have hlt2 : index < r.unreachableBlocks.length := by
          rw [hextra, List.length_append]
          omega
        rw [List.getElem?_eq_getElem hlt2] at hget2
        simp only [Option.some.injEq] at hget2
        rw [← hget2]
        exact List.drop_eq_getElem_cons hlt2
      refine ⟨hg, fun hnd => i2 (visitInstructions_nodup f _ self hnd), ?_⟩
      simp only
      rw [visitInstructionsCalls_fst, i3, visitInstructionsCalls_snd f _ self hflag, hdrop]
      simp only [SILFunction.instructionsOfBlocks, List.map_append]

theorem not_mem_instructionsOfBlocks (f : SILFunction) (hwf : f.InstructionsWellFormed)
    (i : SILInstruction) :
    ∀ l : List SILBasicBlock, f.getParent i ∉ l → i ∉ f.instructionsOfBlocks l
  | [], _ => by simp [SILFunction.instructionsOfBlocks]
  | block :: rest, h => by
    rw [SILFunction.instructionsOfBlocks, List.mem_append]
    rintro (hc | hc)
    · exact h ((hwf block).2 i hc ▸ List.mem_cons_self _ _)
    · exact not_mem_instructionsOfBlocks f hwf i rest
        (fun hr => h (List.mem_cons_of_mem _ hr)) hc

theorem mem_instructionsOfBlocks (f : SILFunction) (i : SILInstruction) :
    ∀ l : List SILBasicBlock, i ∈ f.instructionsOfBlocks l ↔
      ∃ b ∈ l, i ∈ f.getInstructions b
  | [] => by simp [SILFunction.instructionsOfBlocks]
  | block :: rest => by
    rw [SILFunction.instructionsOfBlocks, List.mem_append, mem_instructionsOfBlocks f i rest]
    simp only [List.mem_cons, exists_eq_or_imp]

/-- In the instructions of distinct blocks, an instruction of one of the blocks
occurs once. -/
theorem count_instructionsOfBlocks (f : SILFunction) (hwf : f.InstructionsWellFormed)
    (b : SILBasicBlock) (i : SILInstruction) (hi : i ∈ f.getInstructions b) :
    ∀ l : List SILBasicBlock, l.Nodup → b ∈ l → (f.instructionsOfBlocks l).count i = 1
  | [], _, hb => absurd hb (List.not_mem_nil b)
  | block :: rest, hnd, hb => by
    obtain ⟨hnot, hnd2⟩ := List.nodup_cons.1 hnd
    have hpar : f.getParent i = b := (hwf b).2 i hi
    rw [SILFunction.instructionsOfBlocks, List.count_append]
    rcases List.mem_cons.1 hb with h | h
    · subst h
      have h1 : (f.getInstructions b).count i = 1 :=
        List.count_eq_one_of_mem (hwf b).1 hi
      have h2 : (f.instructionsOfBlocks rest).count i = 0 :=
        List.count_eq_zero_of_not_mem
          (not_mem_instructionsOfBlocks f hwf i rest (by rw [hpar]; exact hnot))
      omega
    · have h1 : (f.getInstructions block).count i = 0 := by
        apply List.count_eq_zero_of_not_mem
        intro hc
        have : block = b := ((hwf block).2 i hc).symm.trans hpar
        exact hnot (this ▸ h)
      have h2 := count_instructionsOfBlocks f hwf b i hi rest hnd2 h
      omega

theorem count_map_call (i : SILInstruction) :
    ∀ l : List SILInstruction,
      List.count ((i, true) : LoopCall) (l.map (fun j => (j, true))) = List.count i l
  | [] => rfl
  | j :: rest => by
    have ih := count_map_call i rest
    simp only [List.map_cons, List.count_cons, ih]
    by_cases h : j = i
    · subst h
      simp
    · have h2 : ((j, true) == ((i, true) : LoopCall)) = false := by
        rw [beq_eq_false_iff_ne]
        intro hc
        exact h (congrArg Prod.fst hc)
      simp [h, h2]

theorem visitInstructions_eq_foldl (f : SILFunction) :
    ∀ (l : List SILInstruction) (self : UnreachableLifetimeCompletion),
      visitInstructions f l self = l.foldl (fun s i => visitUnreachableInst f s i) self
  | [], _ => rfl
  | instruction :: rest, self => by
    rw [visitInstructions, List.foldl_cons]
    exact visitInstructions_eq_foldl f rest _

/-- The state in which the loop ends is the state in which it began after
`visitUnreachableInst` was called on the instructions of the blocks of the
final set from the position of the iterator on, in order. -/
theorem completeLifetimesLoop_foldl (f : SILFunction) :
    ∀ (fuel index : Nat) (self r : UnreachableLifetimeCompletion),
      completeLifetimesLoop f fuel index self = some r →
      Grows self r ∧
      r = (f.instructionsOfBlocks (r.unreachableBlocks.drop index)).foldl
        (fun s i => visitUnreachableInst f s i) self
  | 0, _, _, _, h => by simp [completeLifetimesLoop] at h
  | fuel + 1, index, self, r, h => by
    rw [completeLifetimesLoop] at h
    cases hget : self.unreachableBlocks[index]? with
    | none =>
      rw [hget] at h
      simp only [Option.some.injEq] at h
      subst h
      refine ⟨Grows.refl self, ?_⟩
      have hlen : self.unreachableBlocks.length ≤ index := List.getElem?_eq_none_iff.1 hget
      rw [List.drop_eq_nil_of_le hlen]
      rfl
    | some block =>
      rw [hget] at h
      simp only at h
      have hlt : index < self.unreachableBlocks.length := by
        by_contra hc
        rw [List.getElem?_eq_none_iff.2 (Nat.le_of_not_lt hc)] at hget
        exact absurd hget (by simp)
      obtain ⟨g1, _, _⟩ := visitInstructions_spec f (f.getInstructions block) self
      obtain ⟨i1, i2⟩ := completeLifetimesLoop_foldl f fuel (index + 1)
        (visitInstructions f (f.getInstructions block) self) r h
      have hg := g1.trans i1
      obtain ⟨extra, hextra⟩ := hg.blocks
      have hdrop : r.unreachableBlocks.drop index =
          block :: r.unreachableBlocks.drop (index + 1) := by
        have hget2 : r.unreachableBlocks[index]? = some block := by
          rw [hextra, List.getElem?_append_left hlt]
          exact hget
        have hlt2 : index < r.unreachableBlocks.length := by
          rw [hextra, List.length_append]
          omega
        rw [List.getElem?_eq_getElem hlt2] at hget2
        simp only [Option.some.injEq] at hget2
        rw [← hget2]
        exact List.drop_eq_getElem_cons hlt2
      refine ⟨hg, ?_⟩
      rw [hdrop, SILFunction.instructionsOfBlocks, List.foldl_append]
      rw [visitInstructions_eq_foldl] at i2
      exact i2

/-- C19: on a function with finitely many blocks, every driver state reached
by calls of `visitUnreachableInst` on a new driver holds no block twice in
`unreachableBlocks`, and from every driver state that holds no block twice the
propagation loop of `completeLifetimes` returns.  The calls of
`visitUnreachableInst` that the loop makes are, in order, the instructions of
the blocks of the final set `unreachableBlocks`, block after block, each with
`updatingLifetimes` set, and the state the loop returns is the state these
calls produce.  So every call passes an instruction of a block of the final
set, and every instruction of every block of the final set, the blocks added
during the loop included, is passed exactly once.  Each block lists its
instructions once and is their parent. -/
theorem propagation_visits_once (f : SILFunction) (hfin : f.SuccessorsInFunction)
    (hwf : f.InstructionsWellFormed) :
    (∀ earlier : List SILInstruction,
      (earlier.foldl (fun s i => visitUnreachableInst f s i) {}).unreachableBlocks.Nodup) ∧
    ∀ self : UnreachableLifetimeCompletion, self.unreachableBlocks.Nodup →
      ∃ (r : UnreachableLifetimeCompletion) (calls : List LoopCall),
        propagateUnreachableBlocks f self = some r ∧
        propagateUnreachableBlocksCalls f self = some (r, calls) ∧
        calls = (f.instructionsOfBlocks r.unreachableBlocks).map (fun i => (i, true)) ∧
        r = (calls.map Prod.fst).foldl (fun s i => visitUnreachableInst f s i)
          { self with updatingLifetimes := true } ∧
        (∀ b ∈ self.unreachableBlocks, b ∈ r.unreachableBlocks) ∧
        (∀ c ∈ calls, c.2 = true ∧ ∃ b ∈ r.unreachableBlocks, c.1 ∈ f.getInstructions b) ∧
        (∀ b ∈ r.unreachableBlocks, ∀ i ∈ f.getInstructions b,
          calls.count (i, true) = 1) := by
  constructor
  · intro earlier
    rw [← visitInstructions_eq_foldl]
    exact visitInstructions_nodup f earlier {} List.nodup_nil
  · intro self hnd0
    obtain ⟨r, hrun, hblocks, _, _, _⟩ := propagateUnreachableBlocks_spec f hfin self
    obtain ⟨_, hnd, hcalls⟩ := completeLifetimesLoopCalls_spec f _ 0
      { self with updatingLifetimes := true } r rfl hrun
    obtain ⟨_, hfold⟩ := completeLifetimesLoop_foldl f _ 0
      { self with updatingLifetimes := true } r hrun
    have hndr := hnd hnd0
    rw [List.drop_zero] at hcalls hfold
    refine ⟨r, _, hrun, hcalls, rfl, ?_, hblocks, ?_, ?_⟩
    · rw [List.map_map]
      have hid : (Prod.fst ∘ fun i : SILInstruction => ((i, true) : LoopCall)) = id := rfl
      rw [hid, List.map_id]
      exact hfold
    · intro c hc
      obtain ⟨i, hi, rfl⟩ := List.mem_map.1 hc
      exact ⟨rfl, (mem_instructionsOfBlocks f i r.unreachableBlocks).1 hi⟩
    · intro b hb i hi
      rw [count_map_call]
      exact count_instructionsOfBlocks f hwf b i hi r.unreachableBlocks hndr hb

end UnreachableLifetimeCompletion

namespace Examples

theorem diamond_instructionsWellFormed (f : SILFunction)
    (hinst : f.getInstructions = fun b => [10 * b, 10 * b + 1, 10 * b + 2])
    (hparent : f.getParent = fun i => i / 10) : f.InstructionsWellFormed := by
  intro b
  rw [hinst, hparent]
  constructor
  · simp
  · intro i hi
    simp only [List.mem_cons, List.mem_singleton, List.not_mem_nil, or_false] at hi
    have key : ∀ n : Nat, (10 * n) / 10 = n ∧ (10 * n + 1) / 10 = n ∧ (10 * n + 2) / 10 = n := by
      intro n
      omega
    rcases hi with h | h | h
    · subst h
      exact (key b).1
    · subst h
      exact (key b).2.1
    · subst h
      exact (key b).2.2

end Examples

namespace UnreachableLifetimeCompletion

/-- Witness of C19 on the diamond with operands in which the terminator of
`right` consumes a value defined in `entry`, after the terminator of `entry`
was visited in a new driver: `left` and `right` are unreachable when the loop
begins, `merge` is added while the loop visits the terminator 22 of `right`,
and the loop passes the nine instructions of the three blocks once each. -/
theorem propagation_visits_once_witness :
    Examples.driverDiamondChain.SuccessorsInFunction ∧
    Examples.driverDiamondChain.InstructionsWellFormed ∧
    visitUnreachableInst Examples.driverDiamondChain {} 2 =
      { unreachableBlocks := [1, 2], unreachableInsts := [2], incompleteValues := [5],
        updatingLifetimes := false } ∧
    propagateUnreachableBlocks Examples.driverDiamondChain
        (visitUnreachableInst Examples.driverDiamondChain {} 2) =
      some { unreachableBlocks := [1, 2, 3], unreachableInsts := [2],
             incompleteValues := [5, 6], updatingLifetimes := true } ∧
    propagateUnreachableBlocksCalls Examples.driverDiamondChain
        (visitUnreachableInst Examples.driverDiamondChain {} 2) =
      some ({ unreachableBlocks := [1, 2, 3], unreachableInsts := [2],
              incompleteValues := [5, 6], updatingLifetimes := true },
        [(10, true), (11, true), (12, true), (20, true), (21, true), (22, true),
         (30, true), (31, true), (32, true)]) ∧
    ∃ (r : UnreachableLifetimeCompletion) (calls : List LoopCall),
      propagateUnreachableBlocks Examples.driverDiamondChain
        (visitUnreachableInst Examples.driverDiamondChain {} 2) = some r ∧
      propagateUnreachableBlocksCalls Examples.driverDiamondChain
        (visitUnreachableInst Examples.driverDiamondChain {} 2) = some (r, calls) ∧
      calls = (Examples.driverDiamondChain.instructionsOfBlocks r.unreachableBlocks).map
        (fun i => (i, true)) ∧
      r = (calls.map Prod.fst).foldl
        (fun s i => visitUnreachableInst Examples.driverDiamondChain s i)
        { visitUnreachableInst Examples.driverDiamondChain {} 2 with
          updatingLifetimes := true } ∧
      (∀ b ∈ (visitUnreachableInst Examples.driverDiamondChain {} 2).unreachableBlocks,
        b ∈ r.unreachableBlocks) ∧
      (∀ c ∈ calls, c.2 = true ∧
        ∃ b ∈ r.unreachableBlocks, c.1 ∈ Examples.driverDiamondChain.getInstructions b) ∧
      (∀ b ∈ r.unreachableBlocks, ∀ i ∈ Examples.driverDiamondChain.getInstructions b,
        calls.count (i, true) = 1) :=
  ⟨Examples.diamond_successorsInFunction,
    Examples.diamond_instructionsWellFormed Examples.driverDiamondChain rfl rfl,
    by decide, by decide, by decide,
    (propagation_visits_once Examples.driverDiamondChain Examples.diamond_successorsInFunction
      (Examples.diamond_instructionsWellFormed Examples.driverDiamondChain rfl rfl)).2
      (visitUnreachableInst Examples.driverDiamondChain {} 2) (by decide)⟩

end UnreachableLifetimeCompletion

/-! ## `completeLifetimes` is called once -/

namespace UnreachableLifetimeCompletion

theorem completeValues_returns (f : SILFunction) (interiorOf : SILValue → InteriorLiveness)
    (hfin : f.SuccessorsInFunction) :
    ∀ (values : List SILValue) (acc : Bool × List Insertion),
      ∃ r, completeValues f interiorOf values acc = some r
  | [], acc => ⟨acc, rfl⟩
  | value :: rest, (changed, insertions) => by
    obtain ⟨c, hc⟩ := OSSALifetimeCompletion.analyzeAndUpdateLifetime_returns f
      Boundary.Availability hfin (interiorOf value) value
    have hc2 : OSSALifetimeCompletion.completeOSSALifetime f interiorOf value
        Boundary.Availability = some c := hc
    rw [completeValues, hc2]
    exact completeValues_returns f interiorOf hfin rest _

/-- The first part of `completeLifetimes` leaves `updatingLifetimes` set. -/
theorem propagateUnreachableBlocks_flag (f : SILFunction)
    (self r : UnreachableLifetimeCompletion)
    (h : propagateUnreachableBlocks f self = some r) : r.updatingLifetimes = true :=
  (completeLifetimesLoopCalls_spec f _ 0 { self with updatingLifetimes := true } r rfl h).1.flag

/-- C16: `completeLifetimes` is for a single use.  A call made when
`updatingLifetimes` is set fails its assertion, and then nothing is propagated
and no lifetime is completed.  A call made when `updatingLifetimes` is not set
returns, on a function with finitely many blocks, and leaves it set.  So after
a call that returned, every later call, whatever `visitUnreachableInst` was
called on in between, fails its assertion: at most one call succeeds. -/
theorem completeLifetimes_single_use (f : SILFunction)
    (interiorOf : SILValue → InteriorLiveness) :
    (∀ self : UnreachableLifetimeCompletion, self.updatingLifetimes = true →
      completeLifetimes f interiorOf self = Outcome.assertionFailed) ∧
    (∀ self : UnreachableLifetimeCompletion, self.updatingLifetimes = false →
      f.SuccessorsInFunction →
      ∃ driver changed insertions,
        completeLifetimes f interiorOf self = Outcome.completed driver changed insertions ∧
        driver.updatingLifetimes = true) ∧
    (∀ (self driver : UnreachableLifetimeCompletion) (changed : Bool)
      (insertions : List Insertion),
      completeLifetimes f interiorOf self = Outcome.completed driver changed insertions →
      self.updatingLifetimes = false ∧ driver.updatingLifetimes = true ∧
      ∀ later : List SILInstruction,
        completeLifetimes f interiorOf (visitInstructions f later driver) =
          Outcome.assertionFailed) := by
  have hfail : ∀ self : UnreachableLifetimeCompletion, self.updatingLifetimes = true →
      completeLifetimes f interiorOf self = Outcome.assertionFailed := by
    intro self h
    simp only [completeLifetimes, h, if_true]
  refine ⟨hfail, ?_, ?_⟩
  · intro self hflag hfin
    obtain ⟨r, hrun, _, _, hr, _⟩ := propagateUnreachableBlocks_spec f hfin self
    obtain ⟨⟨changed, insertions⟩, hv⟩ :=
      completeValues_returns f interiorOf hfin r.incompleteValues (false, [])
    refine ⟨r, changed, insertions, ?_, hr⟩
    simp only [completeLifetimes, hflag, Bool.false_eq_true, if_false, hrun, hv]
  · intro self driver changed insertions h
    cases hflag : self.updatingLifetimes with
    | true =>
      rw [hfail self hflag] at h
      exact absurd h (by simp)
    | false =>
      simp only [completeLifetimes, hflag, Bool.false_eq_true, if_false] at h
      cases hrun : propagateUnreachableBlocks f self with
      | none =>
        rw [hrun] at h
        exact absurd h (by simp)
      | some r =>
        rw [hrun] at h
        simp only at h
        cases hv : completeValues f interiorOf r.incompleteValues (false, []) with
        | none =>
          rw [hv] at h
          exact absurd h (by simp)
        | some q =>
          obtain ⟨ch, ins⟩ := q
          rw [hv] at h
          simp only [Outcome.completed.injEq] at h
          obtain ⟨h1, _, _⟩ := h
          subst h1
          have hr := propagateUnreachableBlocks_flag f self r hrun
          refine ⟨rfl, hr, fun later => hfail _ ?_⟩
          exact ((visitInstructions_spec f later r).1.flag).trans hr

/-- Witness of C16 on the diamond with operands: a new driver in which the
terminator of `entry` was visited. -/
theorem completeLifetimes_single_use_witness :
    (visitUnreachableInst Examples.driverDiamond {} 2).updatingLifetimes = false ∧
    Examples.driverDiamond.SuccessorsInFunction ∧
    ∃ driver changed insertions,
      completeLifetimes Examples.driverDiamond (fun _ => { innerScopes := [] })
        (visitUnreachableInst Examples.driverDiamond {} 2) =
          Outcome.completed driver changed insertions ∧
      driver.updatingLifetimes = true :=
  ⟨rfl, Examples.diamond_successorsInFunction,
    (completeLifetimes_single_use Examples.driverDiamond (fun _ => { innerScopes := [] })).2.1
      (visitUnreachableInst Examples.driverDiamond {} 2) rfl
      Examples.diamond_successorsInFunction⟩

end UnreachableLifetimeCompletion

/-! ## Availability in terms of paths -/

namespace AvailabilityBoundaryVisitor

/-- A property of the states that every `updateState` on a region block that is
not a start block preserves holds of the result of the worklist loop. -/
theorem propagateLoop_preserves (self : AvailabilityBoundaryVisitor) (f : SILFunction)
    (P : Result → Prop)
    (hstep : ∀ (result : Result) (block : SILBasicBlock), P result →
      block ∈ self.region → block ∉ self.starts → P (result.updateState f block).1) :
    ∀ (fuel : Nat) (worklist : BasicBlockWorklist) (result result1 : Result),
      P result → propagateLoop self f fuel worklist result = some result1 → P result1
  | 0, _, _, _, _, h => by simp [propagateLoop] at h
  | fuel + 1, worklist, result, result1, hP, h => by
    rw [propagateLoop] at h
    cases hpop : worklist.popAndForget with
    | none =>
      rw [hpop] at h
      simp only [Option.some.injEq] at h
      exact h ▸ hP
    | some p =>
      obtain ⟨block, worklist1⟩ := p
      rw [hpop] at h
      simp only at h
      by_cases hc : (!self.region.contains block || self.starts.contains block) = true
      · rw [if_pos hc] at h
        exact propagateLoop_preserves self f P hstep fuel worklist1 result result1 hP h
      · rw [if_neg hc] at h
        have hmem : block ∈ self.region ∧ block ∉ self.starts := by
          simpa using hc
        have hP2 := hstep result block hP hmem.1 hmem.2
        by_cases hch : (!(result.updateState f block).2) = true
        · rw [if_pos hch] at h
          exact propagateLoop_preserves self f P hstep fuel worklist1 _ result1 hP2 h
        · rw [if_neg hch] at h
          exact propagateLoop_preserves self f P hstep fuel _ _ result1 hP2 h

end AvailabilityBoundaryVisitor

namespace AvailabilityBoundaryVisitor

theorem EnteredInv.step (self : AvailabilityBoundaryVisitor) (f : SILFunction)
    (hpred : f.PredecessorsInverse) (result : Result) (block : SILBasicBlock)
    (inv : EnteredInv self f result) (hblock : block ∈ self.region)
    (hstart : block ∉ self.starts) :
    EnteredInv self f (result.updateState f block).1 := by
  have hne : ∀ b, (b ∈ self.starts ∨ b ∉ self.region) → b ≠ block := by
    rintro b (h | h) rfl
    · exact hstart h
    · exact h hblock
  refine ⟨?_, ?_, ?_⟩
  · intro b hb
    rw [Result.updateState_fst, Result.getState_setState, if_neg (hne b (Or.inl hb))]
    exact inv.atStarts b hb
  · intro b hb
    rw [Result.updateState_fst, Result.getState_setState, if_neg (hne b (Or.inr hb))]
    exact inv.outside b hb
  · intro b hb hbs hun
    rw [Result.updateState_fst, Result.getState_setState] at hun
    by_cases hbb : b = block
    · rw [if_pos hbb] at hun
      subst hbb
      rcases foldl_meet_eq result.getState (f.getPredecessorBlocks b) (result.getState b)
        with h | ⟨p, hp, h⟩
      · rw [h] at hun
        exact inv.entered b hb hbs hun
      · rw [h] at hun
        have hedge : b ∈ f.getSuccessorBlocks p := (hpred p b).1 hp
        have hps : p ∉ self.starts := by
          intro hps
          rw [inv.atStarts p hps] at hun
          exact absurd hun (by decide)
        by_cases hpr : p ∈ self.region
        · obtain ⟨x, hx, hpath⟩ := inv.entered p hpr hps hun
          exact ⟨x, hx, Relation.ReflTransGen.tail hpath ⟨hedge, hb, hbs⟩⟩
        · exact ⟨p, hpr, Relation.ReflTransGen.single ⟨hedge, hb, hbs⟩⟩
    · rw [if_neg hbb] at hun
      exact inv.entered b hb hbs hun

/-- On a new `Result`, whatever `propagateAvailablity` returns has Unavailable
only the region blocks that are entered from outside. -/
theorem propagateAvailablity_entered (self : AvailabilityBoundaryVisitor) (f : SILFunction)
    (hpred : f.PredecessorsInverse) (hsub : ∀ s ∈ self.starts, s ∈ self.region)
    (result : Result) (h : self.propagateAvailablity f Result.fresh = some result) :
    EnteredInv self f result := by
  have hinit : ∀ b, (propagateInit self.starts self.region Result.fresh).getState b =
      if b ∈ self.region then (if b ∈ self.starts then State.Available else State.Unknown)
      else State.Unavailable := by
    intro b
    rw [propagateInit_spec]
    rfl
  refine propagateLoop_preserves self f (EnteredInv self f)
    (fun r block inv hb hs => EnteredInv.step self f hpred r block inv hb hs) _ _ _ result ?_ h
  refine ⟨?_, ?_, ?_⟩
  · intro b hb
    rw [hinit, if_pos (hsub b hb), if_pos hb]
  · intro b hb
    rw [hinit, if_neg hb]
  · intro b hb hbs hun
    rw [hinit, if_pos hb, if_neg hbs] at hun
    exact absurd hun (by decide)

/-- With nothing pending, no block reachable from a start block is Unknown. -/
theorem reachable_le_available (self : AvailabilityBoundaryVisitor) (f : SILFunction)
    (hpred : f.PredecessorsInverse)
    (hclosed : ∀ b ∈ self.region, ∀ s ∈ f.getSuccessorBlocks b, s ∈ self.region)
    (hsub : ∀ s ∈ self.starts, s ∈ self.region)
    (result : Result) (hinv : PropagateInv self f {} result)
    (s b : SILBasicBlock) (hs : s ∈ self.starts) (hreach : f.Reachable s b) :
    b ∈ self.region ∧ (result.getState b).toNat ≤ 1 := by
  induction hreach with
  | refl =>
    refine ⟨hsub s hs, ?_⟩
    rw [hinv.atStarts s hs]
    exact le_refl _
  | @tail y z _ hyz ih =>
    obtain ⟨hy, hle⟩ := ih
    have hz : z ∈ self.region := hclosed y hy z hyz
    refine ⟨hz, ?_⟩
    by_cases hzs : z ∈ self.starts
    · rw [hinv.atStarts z hzs]
      exact le_refl _
    · rcases hinv.pending z hz hzs with h | h
      · exact absurd h (List.not_mem_nil z)
      · have h2 := meetPredecessors_le_mem f result z y ((hpred y z).2 hyz)
        omega

theorem entered_unavailable (self : AvailabilityBoundaryVisitor) (f : SILFunction)
    (hpred : f.PredecessorsInverse) (result : Result)
    (hinv : PropagateInv self f {} result) (b : SILBasicBlock)
    (h : f.EnteredFromOutside self.starts self.region b) :
    result.getState b = State.Unavailable := by
  obtain ⟨x, hx, hpath⟩ := h
  exact unavailable_path self f hpred result hinv x b (hinv.outside x hx)
    (Relation.ReflTransGen.mono (fun _ _ h => ⟨h.1, h.2.2⟩) hpath)

/-- C21: on a control-flow graph whose predecessor lists are the inverse of its
successor lists, for a region that is the forward closure of `starts` (a set
vector: no block twice), `propagateAvailablity` on a new `Result` returns, and
in what it returns no region block is Unknown; a region block that is not a
start block is Unavailable if and only if it is entered from outside (there is
a path to it that begins at a block outside the region and whose every later
block is a region block that is not a start block); and every other region
block is Available. -/
theorem propagateAvailablity_paths (self : AvailabilityBoundaryVisitor) (f : SILFunction)
    (hpred : f.PredecessorsInverse)
    (hclosure : f.IsForwardClosure self.starts self.region)
    (hnd : self.region.Nodup) :
    ∃ result, self.propagateAvailablity f Result.fresh = some result ∧
      (∀ b ∈ self.region, result.getState b ≠ State.Unknown) ∧
      (∀ b ∈ self.region, b ∉ self.starts →
        (result.getState b = State.Unavailable ↔
          f.EnteredFromOutside self.starts self.region b)) ∧
      (∀ b ∈ self.region,
        ¬ (b ∉ self.starts ∧ f.EnteredFromOutside self.starts self.region b) →
        result.getState b = State.Available) := by
  have hsub : ∀ s ∈ self.starts, s ∈ self.region :=
    fun s hs => (hclosure s).2 ⟨s, hs, Relation.ReflTransGen.refl⟩
  have hclosed : ∀ b ∈ self.region, ∀ s ∈ f.getSuccessorBlocks b, s ∈ self.region := by
    intro b hb s hs
    obtain ⟨s0, hs0, hreach⟩ := (hclosure b).1 hb
    exact (hclosure s).2 ⟨s0, hs0, Relation.ReflTransGen.tail hreach hs⟩
  obtain ⟨result, hrun, hinv⟩ := propagateAvailablity_run self f hpred hsub hnd
  have hent := propagateAvailablity_entered self f hpred hsub result hrun
  have hle : ∀ b ∈ self.region, (result.getState b).toNat ≤ 1 := by
    intro b hb
    obtain ⟨s, hs, hreach⟩ := (hclosure b).1 hb
    exact (reachable_le_available self f hpred hclosed hsub result hinv s b hs hreach).2
  have hiff : ∀ b ∈ self.region, b ∉ self.starts →
      (result.getState b = State.Unavailable ↔
        f.EnteredFromOutside self.starts self.region b) :=
    fun b hb hbs => ⟨hent.entered b hb hbs, entered_unavailable self f hpred result hinv b⟩
  refine ⟨result, hrun, ?_, hiff, ?_⟩
  · intro b hb hun
    have h := hle b hb
    rw [hun] at h
    exact absurd h (by decide)
  · intro b hb hnot
    by_cases hbs : b ∈ self.starts
    · exact hinv.atStarts b hbs
    · have h := hle b hb
      have hne : result.getState b ≠ State.Unavailable :=
        fun hun => hnot ⟨hbs, (hiff b hb hbs).1 hun⟩
      cases hst : result.getState b with
      | Unavailable => exact absurd hst hne
      | Available => rfl
      | Unknown =>
        rw [hst] at h
        exact absurd h (by decide)

end AvailabilityBoundaryVisitor

namespace Examples

theorem fork_computeRegion :
    AvailabilityBoundaryVisitor.computeRegion { value := 0 } forkFunction forkLiveness =
      some forkVisitor := rfl

theorem forkVisitor_closure :
    forkFunction.IsForwardClosure forkVisitor.starts forkVisitor.region := by
  obtain ⟨v, hv, _, _, hclosure, _⟩ :=
    AvailabilityBoundaryVisitor.computeRegion_run 0 forkFunction forkLiveness
      fork_successorsInFunction
  rw [fork_computeRegion] at hv
  cases hv
  exact hclosure

end Examples

namespace AvailabilityBoundaryVisitor

/-- Witness of C21 on the fork, with the region computed for a value whose last
use is in block 0: block 1, entered from block 3 outside the region, is a
region block that is not a start block. -/
theorem propagateAvailablity_paths_witness :
    Examples.forkFunction.PredecessorsInverse ∧
    Examples.forkFunction.IsForwardClosure Examples.forkVisitor.starts
      Examples.forkVisitor.region ∧
    Examples.forkVisitor.region.Nodup ∧
    ∃ result,
      Examples.forkVisitor.propagateAvailablity Examples.forkFunction Result.fresh =
        some result ∧
      (∀ b ∈ Examples.forkVisitor.region, result.getState b ≠ State.Unknown) ∧
      (∀ b ∈ Examples.forkVisitor.region, b ∉ Examples.forkVisitor.starts →
        (result.getState b = State.Unavailable ↔
          Examples.forkFunction.EnteredFromOutside Examples.forkVisitor.starts
            Examples.forkVisitor.region b)) ∧
      (∀ b ∈ Examples.forkVisitor.region,
        ¬ (b ∉ Examples.forkVisitor.starts ∧
          Examples.forkFunction.EnteredFromOutside Examples.forkVisitor.starts
            Examples.forkVisitor.region b) →
        result.getState b = State.Available) :=
  ⟨Examples.fork_predecessorsInverse, Examples.forkVisitor_closure, by decide,
    propagateAvailablity_paths Examples.forkVisitor Examples.forkFunction
      Examples.fork_predecessorsInverse Examples.forkVisitor_closure (by decide)⟩

end AvailabilityBoundaryVisitor

/-! ## Coverage of the paths to blocks without successors -/

namespace AvailabilityBoundaryVisitor

/-- When no region block is Unknown, a path of region blocks that begins at an
Available block and ends at a block without successors passes through a block
on the availability boundary. -/
theorem boundary_on_path (self : AvailabilityBoundaryVisitor) (f : SILFunction)
    (result : Result)
    (hclosed : ∀ b ∈ self.region, ∀ s ∈ f.getSuccessorBlocks b, s ∈ self.region)
    (hknown : ∀ b ∈ self.region, result.getState b ≠ State.Unknown) :
    ∀ (path : List SILBasicBlock) (x : SILBasicBlock), x ∈ self.region →
      result.getState x = State.Available →
      List.Chain (fun a b => b ∈ f.getSuccessorBlocks a) x path →
      f.getSuccessorBlocks ((x :: path).getLast (List.cons_ne_nil x path)) = [] →
      ∃ b ∈ x :: path, b ∈ self.region ∧ onBoundary f result b
  | [], x, hx, hav, _, hlast =>
    ⟨x, List.mem_cons_self _ _, hx, hav, Or.inl hlast⟩
  | y :: rest, x, hx, hav, hchain, hlast => by
    obtain ⟨hxy, hrest⟩ := List.chain_cons.1 hchain
    have hy : y ∈ self.region := hclosed x hx y hxy
    cases hst : result.getState y with
    | Unavailable =>
      exact ⟨x, List.mem_cons_self _ _, hx, hav, Or.inr ⟨y, hxy, hst⟩⟩
    | Available =>
      have hlast2 : f.getSuccessorBlocks
          ((y :: rest).getLast (List.cons_ne_nil y rest)) = [] := hlast
      obtain ⟨b, hb, hbr, hob⟩ := boundary_on_path self f result hclosed hknown rest y hy hst
        hrest hlast2
      exact ⟨b, List.mem_cons_of_mem _ hb, hbr, hob⟩
    | Unknown => exact absurd hst (hknown y hy)

/-- C22: on a function with finitely many blocks whose predecessor lists are
the inverse of its successor lists, and for every liveness boundary,
`AvailabilityBoundaryVisitor::visit` returns its visits, and every path of
successor edges that begins at a block of `starts` and ends at a block without
successors passes through a block whose terminator is visited with end-kind
Boundary. -/
theorem dead_end_coverage (value : SILValue) (f : SILFunction)
    (liveness : SSAPrunedLiveness) (hfin : f.SuccessorsInFunction)
    (hpred : f.PredecessorsInverse) :
    ∃ (v : AvailabilityBoundaryVisitor) (result : Result) (visits : List VisitCall),
      computeRegion { value := value } f liveness = some v ∧
      v.propagateAvailablity f Result.fresh = some result ∧
      visit { value := value } f liveness Result.fresh = some visits ∧
      ∀ (s : SILBasicBlock) (path : List SILBasicBlock), s ∈ v.starts →
        List.Chain (fun a b => b ∈ f.getSuccessorBlocks a) s path →
        f.getSuccessorBlocks ((s :: path).getLast (List.cons_ne_nil s path)) = [] →
        ∃ b ∈ s :: path, (f.getTerminator b, LifetimeEnd.Boundary) ∈ visits := by
  obtain ⟨v, hv, _, _, hclosure, hsub, hclosed, hnd⟩ := computeRegion_run value f liveness hfin
  obtain ⟨result, hr, hinv⟩ := propagateAvailablity_run v f hpred hsub hnd
  have hknown : ∀ b ∈ v.region, result.getState b ≠ State.Unknown := by
    intro b hb hun
    obtain ⟨s, hs, hreach⟩ := (hclosure b).1 hb
    have h := (reachable_le_available v f hpred hclosed hsub result hinv s b hs hreach).2
    rw [hun] at h
    exact absurd h (by decide)
  refine ⟨v, result, v.visitAvailabilityBoundary f result, hv, hr, ?_, ?_⟩
  · simp only [visit, hv, hr]
  · intro s path hs hchain hlast
    obtain ⟨b, hb, hbr, hob⟩ := boundary_on_path v f result hclosed hknown path s (hsub s hs)
      (hinv.atStarts s hs) hchain hlast
    exact ⟨b, hb, (mem_visitLoop f result _ v.region).2 ⟨b, hbr, hob, rfl⟩⟩

/-- Witness of C22 on the diamond, for the value used only in `right`. -/
theorem dead_end_coverage_witness :
    Examples.diamond.SuccessorsInFunction ∧
    Examples.diamond.PredecessorsInverse ∧
    ∃ (v : AvailabilityBoundaryVisitor) (result : Result) (visits : List VisitCall),
      computeRegion { value := 0 } Examples.diamond Examples.diamondUsedRight = some v ∧
      v.propagateAvailablity Examples.diamond Result.fresh = some result ∧
      visit { value := 0 } Examples.diamond Examples.diamondUsedRight Result.fresh =
        some visits ∧
      ∀ (s : SILBasicBlock) (path : List SILBasicBlock), s ∈ v.starts →
        List.Chain (fun a b => b ∈ Examples.diamond.getSuccessorBlocks a) s path →
        Examples.diamond.getSuccessorBlocks
          ((s :: path).getLast (List.cons_ne_nil s path)) = [] →
        ∃ b ∈ s :: path,
          (Examples.diamond.getTerminator b, LifetimeEnd.Boundary) ∈ visits :=
  ⟨Examples.diamond_successorsInFunction, Examples.diamond_predecessorsInverse,
    dead_end_coverage 0 Examples.diamond Examples.diamondUsedRight
      Examples.diamond_successorsInFunction Examples.diamond_predecessorsInverse⟩

end AvailabilityBoundaryVisitor
